import Mathlib

/-!
Verification of the sort/search cores of the MiscAlgoRs repository.

The Rust sources are shallowly embedded: slices become `List`s, in-place index
manipulation becomes explicit state passing, `usize` indices become `Nat`
(with `Int` where the source decrements an index that stays provably
non-negative in reachable states), and Rust `std::cmp::Ordering` becomes the
core `Ordering` type (`Less ↦ .lt`, `Equal ↦ .eq`, `Greater ↦ .gt`).
-/

namespace MiscAlgo

/-! ## Comparator model

The sources require the comparator to be a consistent total (pre)order:
reflexive, anti-symmetric (`a < b` iff `b > a`) and transitive
(src/src/quick_sort/partition.rs lines 14-20, spec section 3).
`TotalCmp` captures exactly that contract; `StrongCmp` additionally demands that
`Equal` elements are identical values (a genuine total order, as used by the
claims that compare results against a canonically sorted sequence). -/

/-- The comparator laws the repository documents for every comparator:
orientation (swapping arguments swaps the result) and transitivity of
`cmp a b ≠ Greater`. Reflexivity follows from orientation. -/
structure TotalCmp {α : Type _} (cmp : α → α → Ordering) : Prop where
  symm : ∀ a b, cmp b a = (cmp a b).swap
  le_trans : ∀ a b c, cmp a b ≠ .gt → cmp b c ≠ .gt → cmp a c ≠ .gt

/-- A comparator that is a total order in the strong sense: `Equal` elements
are equal values. -/
structure StrongCmp {α : Type _} (cmp : α → α → Ordering) extends
    TotalCmp cmp : Prop where
  eq_eq : ∀ a b, cmp a b = .eq → a = b

namespace TotalCmp

variable {α : Type _} {cmp : α → α → Ordering}

theorem refl (h : TotalCmp cmp) (a : α) : cmp a a = .eq := by
  have hs := h.symm a a
  cases hc : cmp a a with
  | lt => rw [hc] at hs; exact absurd hs (by decide)
  | eq => rfl
  | gt => rw [hc] at hs; exact absurd hs (by decide)

theorem eq_symm (h : TotalCmp cmp) {a b : α} (hab : cmp a b = .eq) : cmp b a = .eq := by
  rw [h.symm, hab]; rfl

theorem lt_iff_gt (h : TotalCmp cmp) {a b : α} : cmp a b = .lt ↔ cmp b a = .gt := by
  rw [h.symm b a]
  cases hba : cmp b a <;> decide

theorem gt_iff_lt (h : TotalCmp cmp) {a b : α} : cmp a b = .gt ↔ cmp b a = .lt := by
  rw [h.symm b a]
  cases hba : cmp b a <;> decide

theorem ne_gt_of_lt (_h : TotalCmp cmp) {a b : α} (hab : cmp a b = .lt) : cmp a b ≠ .gt := by
  simp [hab]

theorem ne_gt_of_eq (_h : TotalCmp cmp) {a b : α} (hab : cmp a b = .eq) : cmp a b ≠ .gt := by
  simp [hab]

theorem not_gt_iff (_h : TotalCmp cmp) {a b : α} :
    cmp a b ≠ .gt ↔ cmp a b = .lt ∨ cmp a b = .eq := by
  cases cmp a b <;> simp

theorem eq_trans (h : TotalCmp cmp) {a b c : α} (hab : cmp a b = .eq) (hbc : cmp b c = .eq) :
    cmp a c = .eq := by
  have h1 : cmp a c ≠ .gt := h.le_trans a b c (by simp [hab]) (by simp [hbc])
  have h2 : cmp c a ≠ .gt :=
    h.le_trans c b a (by simp [h.eq_symm hbc]) (by simp [h.eq_symm hab])
  have hs := h.symm a c
  cases hac : cmp a c with
  | lt => rw [hac] at hs; exact (h2 (hs.trans (by decide))).elim
  | eq => rfl
  | gt => exact absurd hac h1

theorem lt_trans (h : TotalCmp cmp) {a b c : α} (hab : cmp a b = .lt) (hbc : cmp b c = .lt) :
    cmp a c = .lt := by
  have h1 : cmp a c ≠ .gt := h.le_trans a b c (by simp [hab]) (by simp [hbc])
  cases hac : cmp a c with
  | lt => rfl
  | gt => exact absurd hac h1
  | eq =>
    have h2 : cmp c b ≠ .gt :=
      h.le_trans c a b (by simp [h.eq_symm hac]) (by simp [hab])
    exact absurd (h.lt_iff_gt.mp hbc) h2

theorem lt_of_lt_of_eq (h : TotalCmp cmp) {a b c : α} (hab : cmp a b = .lt) (hbc : cmp b c = .eq) :
    cmp a c = .lt := by
  have h1 : cmp a c ≠ .gt := h.le_trans a b c (by simp [hab]) (by simp [hbc])
  cases hac : cmp a c with
  | lt => rfl
  | gt => exact absurd hac h1
  | eq =>
    have := h.eq_trans hac (h.eq_symm hbc)
    simp [hab] at this

theorem lt_of_eq_of_lt (h : TotalCmp cmp) {a b c : α} (hab : cmp a b = .eq) (hbc : cmp b c = .lt) :
    cmp a c = .lt := by
  have h1 : cmp a c ≠ .gt := h.le_trans a b c (by simp [hab]) (by simp [hbc])
  cases hac : cmp a c with
  | lt => rfl
  | gt => exact absurd hac h1
  | eq =>
    have := h.eq_trans (h.eq_symm hab) hac
    simp [hbc] at this

theorem le_of_le_of_eq (h : TotalCmp cmp) {a b c : α} (hab : cmp a b ≠ .gt) (hbc : cmp b c = .eq) :
    cmp a c ≠ .gt :=
  h.le_trans a b c hab (by simp [hbc])

theorem gt_trans (h : TotalCmp cmp) {a b c : α} (hab : cmp a b = .gt) (hbc : cmp b c = .gt) :
    cmp a c = .gt := by
  rw [h.gt_iff_lt] at *
  exact h.lt_trans hbc hab

end TotalCmp

/-- A concrete comparator on `Nat` used by the concrete witnesses, mirroring
`|x: &i32, y: &i32| x.cmp(y)` from the repository's tests. -/
def natCmp (a b : Nat) : Ordering :=
  if a < b then .lt else if a = b then .eq else .gt

theorem natCmp_total : TotalCmp natCmp := by
  constructor
  · intro a b
    unfold natCmp
    rcases Nat.lt_trichotomy a b with hl | he | hg
    · simp [hl, Nat.lt_asymm hl, Nat.ne_of_gt hl, Ordering.swap]
    · simp [he, Ordering.swap]
    · simp [hg, Nat.lt_asymm hg, Nat.ne_of_gt hg, Ordering.swap]
  · intro a b c hab hbc
    unfold natCmp at *
    split at hab <;> split at hbc <;> split <;> simp_all <;> omega

theorem natCmp_strong : StrongCmp natCmp := by
  refine ⟨natCmp_total, ?_⟩
  intro a b hab
  unfold natCmp at hab
  split at hab <;> simp_all

/-- `cmp`-comparison as a Boolean "less or equal", the relation under which the
repository's sorts produce non-decreasing output. -/
def ble {α : Type _} (cmp : α → α → Ordering) (a b : α) : Bool :=
  cmp a b != Ordering.gt

theorem ble_iff {α : Type _} (cmp : α → α → Ordering) (a b : α) :
    ble cmp a b = true ↔ cmp a b ≠ .gt := by
  unfold ble
  cases cmp a b <;> decide

/-! ## Swapping two list positions

`listSwap l i j` models Rust's `arr.swap(i, j)`; out-of-range indices (which
panic in Rust and never occur in reachable states) leave the list unchanged. -/

def listSwap {α : Type _} (l : List α) (i j : Nat) : List α :=
  match l[i]?, l[j]? with
  | some a, some b => (l.set i b).set j a
  | _, _ => l

theorem length_listSwap {α : Type _} (l : List α) (i j : Nat) :
    (listSwap l i j).length = l.length := by
  unfold listSwap
  cases l[i]? <;> cases l[j]? <;> simp

theorem getD_set_self {α : Type _} (l : List α) (i : Nat) (a d : α)
    (hi : i < l.length) : (l.set i a).getD i d = a := by
  simp [List.getD_eq_getElem?_getD, List.getElem?_set_self, hi]

theorem getD_set_ne {α : Type _} (l : List α) (i j : Nat) (a d : α)
    (hij : i ≠ j) : (l.set i a).getD j d = l.getD j d := by
  simp [List.getD_eq_getElem?_getD, List.getElem?_set_ne hij]

theorem getD_listSwap_fst {α : Type _} (l : List α) (i j : Nat) (d : α)
    (hi : i < l.length) (hj : j < l.length) :
    (listSwap l i j).getD i d = l.getD j d := by
  unfold listSwap
  rw [List.getElem?_eq_getElem hi, List.getElem?_eq_getElem hj]
  by_cases hij : i = j
  · subst hij
    rw [getD_set_self _ _ _ _ (by simpa using hi)]
    simp [List.getD_eq_getElem?_getD, List.getElem?_eq_getElem, hi]
  · rw [getD_set_ne _ _ _ _ _ (Ne.symm hij), getD_set_self _ _ _ _ hi]
    simp [List.getD_eq_getElem?_getD, List.getElem?_eq_getElem, hj]

theorem getD_listSwap_snd {α : Type _} (l : List α) (i j : Nat) (d : α)
    (hi : i < l.length) (hj : j < l.length) :
    (listSwap l i j).getD j d = l.getD i d := by
  unfold listSwap
  rw [List.getElem?_eq_getElem hi, List.getElem?_eq_getElem hj]
  rw [getD_set_self _ _ _ _ (by simpa using hj)]
  simp [List.getD_eq_getElem?_getD, List.getElem?_eq_getElem, hi]

theorem getD_listSwap_other {α : Type _} (l : List α) (i j k : Nat) (d : α)
    (hki : k ≠ i) (hkj : k ≠ j) :
    (listSwap l i j).getD k d = l.getD k d := by
  unfold listSwap
  cases l[i]? <;> cases l[j]? <;> simp [getD_set_ne, Ne.symm hki, Ne.symm hkj]

theorem cons_set_perm {α : Type _} :
    ∀ (l : List α) (m : Nat) (x d : α), m < l.length →
      List.Perm (l.getD m d :: l.set m x) (x :: l) := by
  intro l
  induction l with
  | nil => intro m x d hm; simp at hm
  | cons b t ih =>
    intro m x d hm
    cases m with
    | zero => simpa using List.Perm.swap x b t
    | succ m =>
      have hm' : m < t.length := by simpa using hm
      have step : List.Perm (t.getD m d :: b :: t.set m x) (b :: t.getD m d :: t.set m x) :=
        List.Perm.swap b (t.getD m d) _
      refine List.Perm.trans ?_ (List.Perm.trans ((ih m x d hm').cons b) (List.Perm.swap x b t))
      simpa using step

theorem listSwap_perm {α : Type _} :
    ∀ (l : List α) (i j : Nat), List.Perm (listSwap l i j) l := by
  intro l i j
  unfold listSwap
  cases hi : l[i]? with
  | none => exact List.Perm.refl l
  | some a =>
    cases hj : l[j]? with
    | none => exact List.Perm.refl l
    | some b =>
      have hil : i < l.length := by
        by_contra hc
        rw [List.getElem?_eq_none (by omega)] at hi; simp at hi
      have hjl : j < l.length := by
        by_contra hc
        rw [List.getElem?_eq_none (by omega)] at hj; simp at hj
      by_cases hij : i = j
      · subst hij
        rw [hi] at hj
        have hab : a = b := by simpa using hj
        subst hab
        show ((l.set i a).set i a).Perm l
        rw [List.set_set]
        have hga : l.getD i a = a := by simp [List.getD_eq_getElem?_getD, hi]
        have hp := cons_set_perm l i a a hil
        rw [hga] at hp
        exact hp.cons_inv
      · -- swap is obtained from two `cons_set_perm` rotations
        show ((l.set i b).set j a).Perm l
        have hb : b = l.getD j a := by
          simp [List.getD_eq_getElem?_getD, hj]
        have ha : a = l.getD i b := by
          simp [List.getD_eq_getElem?_getD, hi]
        have hjl2 : j < (l.set i b).length := by simpa using hjl
        have p1 : List.Perm ((l.set i b).getD j a :: (l.set i b).set j a) (a :: l.set i b) :=
          cons_set_perm (l.set i b) j a a hjl2
        have hgj : (l.set i b).getD j a = l.getD j a := getD_set_ne l i j b a hij
        have p2 : List.Perm (l.getD i b :: l.set i b) (b :: l) :=
          cons_set_perm l i b b hil
        -- combine: (set i b).set j a ~ l
        have p1' : List.Perm (l.getD j a :: (l.set i b).set j a) (a :: l.set i b) := by
          rwa [hgj] at p1
        have p2' : List.Perm (a :: l.set i b) (b :: l) := by rwa [← ha] at p2
        have p3 : List.Perm (l.getD j a :: (l.set i b).set j a) (b :: l) := p1'.trans p2'
        have p4 : List.Perm (b :: (l.set i b).set j a) (b :: l) := by
          rwa [← hb] at p3
        exact (List.Perm.cons_inv p4)

theorem getD_eq_getElem {α : Type _} (l : List α) (i : Nat) (d : α)
    (hi : i < l.length) : l.getD i d = l[i] := by
  simp [List.getD_eq_getElem?_getD, List.getElem?_eq_getElem hi]

theorem getD_default_irrel {α : Type _} (l : List α) (i : Nat) (d1 d2 : α)
    (hi : i < l.length) : l.getD i d1 = l.getD i d2 := by
  rw [getD_eq_getElem l i d1 hi, getD_eq_getElem l i d2 hi]

/-! ## Fat partition (src/src/quick_sort/partition.rs)

`fatPartition` embeds `fat_partition` (lines 188-259): the pivot value is
read once up front (the `clone`), then the loop maintains `left`, `eq` and
`right` cursors. `right` is an `Int` because the source decrements a `usize`
that stays non-negative in every execution that a lawful comparator can
reach. `fatPartitionNoClone` embeds `fat_partition_no_clone_required`
(lines 265-326), which tracks the pivot's current index instead of copying
its value. -/

def fatPartitionLoop {α : Type _} (cmp : α → α → Ordering) (pv : α) :
    Nat → List α → Nat → Nat → Int → List α × Nat × Nat
  | 0, arr, left, eq, _right => (arr, left, eq)
  | fuel + 1, arr, left, eq, right =>
    if (eq : Int) ≤ right then
      match cmp (arr.getD eq pv) pv with
      | .lt =>
        if left = eq then
          fatPartitionLoop cmp pv fuel arr (left + 1) (eq + 1) right
        else
          fatPartitionLoop cmp pv fuel (listSwap arr eq left) (left + 1) (eq + 1) right
      | .eq => fatPartitionLoop cmp pv fuel arr left (eq + 1) right
      | .gt => fatPartitionLoop cmp pv fuel (listSwap arr eq right.toNat) left eq (right - 1)
    else
      (arr, left, eq)

def fatPartition {α : Type _} (arr : List α) (cmp : α → α → Ordering)
    (pivotIndex : Nat) : List α × Nat × Nat :=
  match arr with
  | [] => ([], 0, 0)
  | a :: rest =>
    fatPartitionLoop cmp ((a :: rest).getD pivotIndex a) (a :: rest).length
      (a :: rest) 0 0 (((a :: rest).length : Int) - 1)

def fatPartitionNoCloneLoop {α : Type _} (cmp : α → α → Ordering) (d : α) :
    Nat → List α → Nat → Nat → Nat → Int → List α × Nat × Nat
  | 0, arr, _currPivot, left, eq, _right => (arr, left, eq)
  | fuel + 1, arr, currPivot, left, eq, right =>
    if (eq : Int) ≤ right then
      if currPivot = eq then
        fatPartitionNoCloneLoop cmp d fuel arr currPivot left (eq + 1) right
      else
        match cmp (arr.getD eq d) (arr.getD currPivot d) with
        | .lt =>
          if left = eq then
            fatPartitionNoCloneLoop cmp d fuel arr currPivot (left + 1) (eq + 1) right
          else
            fatPartitionNoCloneLoop cmp d fuel (listSwap arr eq left)
              (if left = currPivot then eq else currPivot) (left + 1) (eq + 1) right
        | .eq => fatPartitionNoCloneLoop cmp d fuel arr currPivot left (eq + 1) right
        | .gt =>
          fatPartitionNoCloneLoop cmp d fuel (listSwap arr eq right.toNat)
            (if right = (currPivot : Int) then eq else currPivot) left eq (right - 1)
    else
      (arr, left, eq)

def fatPartitionNoClone {α : Type _} (arr : List α) (cmp : α → α → Ordering)
    (initialPivotIndex : Nat) : List α × Nat × Nat :=
  match arr with
  | [] => ([], 0, 0)
  | a :: rest =>
    fatPartitionNoCloneLoop cmp a (a :: rest).length (a :: rest) initialPivotIndex
      0 0 (((a :: rest).length : Int) - 1)

/-- The loop invariant of the fat-partition scan, exactly the regions the
source comments describe at partition.rs lines 207-211. -/
structure FatInv {α : Type _} (cmp : α → α → Ordering) (pv : α) (orig : List α)
    (arr : List α) (left eq : Nat) (right : Int) : Prop where
  perm : List.Perm arr orig
  hle : left ≤ eq
  heq : (eq : Int) ≤ right + 1
  hr : right < (arr.length : Int)
  small : ∀ k, k < left → cmp (arr.getD k pv) pv = .lt
  mid : ∀ k, left ≤ k → k < eq → cmp (arr.getD k pv) pv = .eq
  big : ∀ k : Nat, right < (k : Int) → k < arr.length → cmp (arr.getD k pv) pv = .gt

/-- The fat-partition postcondition relative to a pivot value `pv`: the output
is a permutation of the input, `l ≤ r ≤ len`, and the three regions compare
Less / Equal / Greater against `pv`. -/
def FatFinal {α : Type _} (cmp : α → α → Ordering) (pv : α) (orig out : List α)
    (l r : Nat) : Prop :=
  List.Perm out orig ∧ l ≤ r ∧ r ≤ out.length ∧
  (∀ k, k < l → cmp (out.getD k pv) pv = .lt) ∧
  (∀ k, l ≤ k → k < r → cmp (out.getD k pv) pv = .eq) ∧
  (∀ k, r ≤ k → k < out.length → cmp (out.getD k pv) pv = .gt)

theorem fatInv_exit {α : Type _} {cmp : α → α → Ordering} {pv : α}
    {orig arr : List α} {left eq : Nat} {right : Int}
    (inv : FatInv cmp pv orig arr left eq right) (hex : ¬ ((eq : Int) ≤ right)) :
    FatFinal cmp pv orig arr left eq := by
  refine ⟨inv.perm, inv.hle, ?_, inv.small, inv.mid, ?_⟩
  · have := inv.heq
    have := inv.hr
    omega
  · intro k hk hk2
    exact inv.big k (by omega) hk2

theorem fatPartitionLoop_spec {α : Type _} {cmp : α → α → Ordering} {pv : α}
    {orig : List α} :
    ∀ (n : Nat) (arr : List α) (left eq : Nat) (right : Int),
      (right + 1 - eq).toNat ≤ n →
      FatInv cmp pv orig arr left eq right →
      ∀ out l r, fatPartitionLoop cmp pv n arr left eq right = (out, l, r) →
      FatFinal cmp pv orig out l r := by
  intro n
  induction n with
  | zero =>
    intro arr left eq right hn inv out l r hrun
    have hex : ¬ ((eq : Int) ≤ right) := by omega
    simp only [fatPartitionLoop] at hrun
    have h1 : out = arr := congrArg Prod.fst hrun.symm
    have h2 : l = left := congrArg (fun p => p.2.1) hrun.symm
    have h3 : r = eq := congrArg (fun p => p.2.2) hrun.symm
    subst h1; subst h2; subst h3
    exact fatInv_exit inv hex
  | succ n ih =>
    intro arr left eq right hn inv out l r hrun
    simp only [fatPartitionLoop] at hrun
    by_cases hc : (eq : Int) ≤ right
    · rw [if_pos hc] at hrun
      have hinvle := inv.hle
      have hinvheq := inv.heq
      have hinvhr := inv.hr
      have heqlen : eq < arr.length := by omega
      have hlen2 : arr.length = orig.length := inv.perm.length_eq
      cases hcmp : cmp (arr.getD eq pv) pv with
      | lt =>
        rw [hcmp] at hrun
        by_cases hle : left = eq
        · rw [if_pos hle] at hrun
          refine ih arr (left + 1) (eq + 1) right (by omega) ?_ out l r hrun
          refine ⟨inv.perm, by omega, by omega, inv.hr, ?_, ?_, inv.big⟩
          · intro k hk
            rcases Nat.lt_or_ge k left with hkl | hkl
            · exact inv.small k hkl
            · have hkeq : k = left := by omega
              rw [hkeq, hle]
              exact hcmp
          · intro k hk1 hk2
            omega
        · rw [if_neg hle] at hrun
          have hleft : left < eq := Nat.lt_of_le_of_ne inv.hle hle
          have hleftlen : left < arr.length := by omega
          refine ih _ (left + 1) (eq + 1) right (by omega) ?_ out l r hrun
          have hswlen : (listSwap arr eq left).length = arr.length :=
            length_listSwap arr eq left
          refine ⟨(listSwap_perm arr eq left).trans inv.perm, by omega, by omega,
            by rw [hswlen]; exact inv.hr, ?_, ?_, ?_⟩
          · intro k hk
            rcases Nat.lt_or_ge k left with hkl | hkl
            · rw [getD_listSwap_other arr eq left k pv (by omega) (by omega)]
              exact inv.small k hkl
            · have hkeq : k = left := by omega
              rw [hkeq, getD_listSwap_snd arr eq left pv heqlen hleftlen]
              exact hcmp
          · intro k hk1 hk2
            rcases Nat.lt_or_ge k eq with hke | hke
            · rw [getD_listSwap_other arr eq left k pv (by omega) (by omega)]
              exact inv.mid k (by omega) hke
            · have hkeq : k = eq := by omega
              rw [hkeq, getD_listSwap_fst arr eq left pv heqlen hleftlen]
              exact inv.mid left (by omega) hleft
          · intro k hk1 hk2
            rw [hswlen] at hk2
            have hke : eq < k := by omega
            rw [getD_listSwap_other arr eq left k pv (by omega) (by omega)]
            exact inv.big k hk1 hk2
      | eq =>
        rw [hcmp] at hrun
        refine ih arr left (eq + 1) right (by omega) ?_ out l r hrun
        refine ⟨inv.perm, by omega, by omega, inv.hr, inv.small, ?_, inv.big⟩
        intro k hk1 hk2
        rcases Nat.lt_or_ge k eq with hke | hke
        · exact inv.mid k hk1 hke
        · have hkeq : k = eq := by omega
          rw [hkeq]
          exact hcmp
      | gt =>
        rw [hcmp] at hrun
        have hrt : right.toNat < arr.length := by omega
        have hrteq : (right.toNat : Int) = right := by omega
        have hswlen : (listSwap arr eq right.toNat).length = arr.length :=
          length_listSwap arr eq right.toNat
        refine ih _ left eq (right - 1) (by omega) ?_ out l r hrun
        refine ⟨(listSwap_perm arr eq right.toNat).trans inv.perm, inv.hle, by omega,
          by rw [hswlen]; omega, ?_, ?_, ?_⟩
        · intro k hk
          have hkeq : k < eq := by have := inv.hle; omega
          rw [getD_listSwap_other arr eq right.toNat k pv (by omega) (by omega)]
          exact inv.small k hk
        · intro k hk1 hk2
          rw [getD_listSwap_other arr eq right.toNat k pv (by omega) (by omega)]
          exact inv.mid k hk1 hk2
        · intro k hk1 hk2
          rw [hswlen] at hk2
          rcases Nat.lt_or_ge right.toNat k with hkr | hkr
          · rw [getD_listSwap_other arr eq right.toNat k pv (by omega) (by omega)]
            exact inv.big k (by omega) hk2
          · have hkeq : k = right.toNat := by omega
            rw [hkeq, getD_listSwap_snd arr eq right.toNat pv heqlen hrt]
            exact hcmp
    · rw [if_neg hc] at hrun
      have h1 : out = arr := congrArg Prod.fst hrun.symm
      have h2 : l = left := congrArg (fun p => p.2.1) hrun.symm
      have h3 : r = eq := congrArg (fun p => p.2.2) hrun.symm
      subst h1; subst h2; subst h3
      exact fatInv_exit inv hc
theorem fatPartition_spec {α : Type _} {cmp : α → α → Ordering}
    (h : TotalCmp cmp) (arr : List α) (p : Nat) (out : List α) (l r : Nat)
    (pv : α) (hpv : arr[p]? = some pv)
    (hrun : fatPartition arr cmp p = (out, l, r)) :
    FatFinal cmp pv arr out l r ∧ l < r := by
  have hp : p < arr.length := by
    by_contra hcon
    rw [List.getElem?_eq_none (by omega)] at hpv
    simp at hpv
  cases arr with
  | nil => simp at hp
  | cons a rest =>
    have hpvval : (a :: rest).getD p a = pv := by
      rw [getD_eq_getElem _ _ _ hp]
      have := List.getElem?_eq_getElem hp
      rw [this] at hpv
      simpa using hpv
    simp only [fatPartition] at hrun
    rw [hpvval] at hrun
    have hlen1 : 1 ≤ (a :: rest).length := by simp
    have hfin : FatFinal cmp pv (a :: rest) out l r := by
      refine fatPartitionLoop_spec (a :: rest).length (a :: rest) 0 0
        (((a :: rest).length : Int) - 1) (by omega) ?_ out l r hrun
      refine ⟨List.Perm.refl _, Nat.le_refl 0, by omega, by omega, ?_, ?_, ?_⟩
      · intro k hk; omega
      · intro k hk1 hk2; omega
      · intro k hk1 hk2
        omega
    refine ⟨hfin, ?_⟩
    obtain ⟨hperm, hlr, hrlen, hsmall, hmid, hbig⟩ := hfin
    have hmem : pv ∈ (a :: rest) := by
      rw [← hpvval]
      rw [getD_eq_getElem _ _ _ hp]
      exact List.getElem_mem hp
    have hmemout : pv ∈ out := hperm.mem_iff.mpr hmem
    obtain ⟨k, hk, hke⟩ := List.getElem_of_mem hmemout
    have hkd : out.getD k pv = pv := by
      rw [getD_eq_getElem _ _ _ hk, hke]
    rcases Nat.lt_or_ge k l with hkl | hkl
    · have := hsmall k hkl
      rw [hkd, h.refl pv] at this
      simp at this
    · rcases Nat.lt_or_ge k r with hkr | hkr
      · omega
      · have := hbig k hkr hk
        rw [hkd, h.refl pv] at this
        simp at this

theorem fatPartitionNoCloneLoop_eq {α : Type _} {cmp : α → α → Ordering}
    (h : TotalCmp cmp) (pv d : α) :
    ∀ (n : Nat) (arr : List α) (cp left eq : Nat) (right : Int),
      cp < arr.length → arr.getD cp d = pv →
      left ≤ eq → right < (arr.length : Int) →
      fatPartitionNoCloneLoop cmp d n arr cp left eq right =
        fatPartitionLoop cmp pv n arr left eq right := by
  intro n
  induction n with
  | zero =>
    intro arr cp left eq right hcp hcpv hle hr
    simp only [fatPartitionNoCloneLoop, fatPartitionLoop]
  | succ n ih =>
    intro arr cp left eq right hcp hcpv hle hr
    simp only [fatPartitionNoCloneLoop, fatPartitionLoop]
    by_cases hc : (eq : Int) ≤ right
    · rw [if_pos hc, if_pos hc]
      have heqlen : eq < arr.length := by omega
      by_cases hpeq : cp = eq
      · rw [if_pos hpeq]
        have hsc : cmp (arr.getD eq pv) pv = .eq := by
          rw [getD_default_irrel arr eq pv d heqlen]
          rw [← hpeq, hcpv]
          exact h.refl pv
        rw [hsc]
        exact ih arr cp left (eq + 1) right hcp hcpv (by omega) hr
      · rw [if_neg hpeq]
        have hsc : cmp (arr.getD eq d) (arr.getD cp d) = cmp (arr.getD eq pv) pv := by
          rw [getD_default_irrel arr eq d pv heqlen, hcpv]
        rw [hsc]
        cases hcmp : cmp (arr.getD eq pv) pv with
        | lt =>
          by_cases hleq : left = eq
          · rw [if_pos hleq, if_pos hleq]
            exact ih arr cp (left + 1) (eq + 1) right hcp hcpv (by omega) hr
          · rw [if_neg hleq, if_neg hleq]
            have hleft : left < eq := Nat.lt_of_le_of_ne hle hleq
            have hleftlen : left < arr.length := by omega
            have hswlen : (listSwap arr eq left).length = arr.length :=
              length_listSwap arr eq left
            by_cases hlp : left = cp
            · rw [if_pos hlp]
              refine ih _ eq (left + 1) (eq + 1) right (by omega) ?_ (by omega) (by omega)
              rw [getD_listSwap_fst arr eq left d heqlen hleftlen, hlp]
              exact hcpv
            · rw [if_neg hlp]
              refine ih _ cp (left + 1) (eq + 1) right (by omega) ?_ (by omega) (by omega)
              rw [getD_listSwap_other arr eq left cp d (fun hcc => hpeq hcc)
                (fun hcc => hlp hcc.symm)]
              exact hcpv
        | eq =>
          exact ih arr cp left (eq + 1) right hcp hcpv (by omega) hr
        | gt =>
          have hrt : right.toNat < arr.length := by omega
          have hswlen : (listSwap arr eq right.toNat).length = arr.length :=
            length_listSwap arr eq right.toNat
          by_cases hrp : right = (cp : Int)
          · rw [if_pos hrp]
            refine ih _ eq left eq (right - 1) (by omega) ?_ hle (by omega)
            have hrtc : right.toNat = cp := by omega
            rw [getD_listSwap_fst arr eq right.toNat d heqlen hrt, hrtc]
            exact hcpv
          · rw [if_neg hrp]
            refine ih _ cp left eq (right - 1) (by omega) ?_ hle (by omega)
            have hcrt : cp ≠ right.toNat := by omega
            rw [getD_listSwap_other arr eq right.toNat cp d (fun hcc => hpeq hcc)
              hcrt]
            exact hcpv
    · rw [if_neg hc, if_neg hc]

theorem fatPartitionNoClone_eq {α : Type _} {cmp : α → α → Ordering}
    (h : TotalCmp cmp) (arr : List α) (p : Nat) (hp : p < arr.length) :
    fatPartitionNoClone arr cmp p = fatPartition arr cmp p := by
  cases arr with
  | nil => simp at hp
  | cons a rest =>
    simp only [fatPartitionNoClone, fatPartition]
    exact fatPartitionNoCloneLoop_eq h ((a :: rest).getD p a) a
      (a :: rest).length (a :: rest) p 0 0 (((a :: rest).length : Int) - 1)
      hp rfl (Nat.le_refl 0) (by omega)

/-- C1: for every slice of length ≥ 3, every total-order comparator and every
in-range pivot index, `fat_partition` and `fat_partition_no_clone_required`
return `(l, r)` with `0 ≤ l < r ≤ len` such that in the rearranged slice every
element of `seg[0..l]` compares Less than the pivot value, every element of
`seg[l..r]` compares Equal to it, every element of `seg[r..]` compares
Greater, the equal region is non-empty, and the result is a permutation of
the input. -/
theorem claim_C1_fat_partition {α : Type _} (cmp : α → α → Ordering)
    (h : TotalCmp cmp) (arr out : List α) (p l r : Nat) (pv : α)
    (hlen : 3 ≤ arr.length) (hpv : arr[p]? = some pv)
    (hrun : fatPartition arr cmp p = (out, l, r)) :
    fatPartitionNoClone arr cmp p = (out, l, r) ∧
    List.Perm out arr ∧ l < r ∧ r ≤ arr.length ∧
    (∀ k, k < l → cmp (out.getD k pv) pv = .lt) ∧
    (∀ k, l ≤ k → k < r → cmp (out.getD k pv) pv = .eq) ∧
    (∀ k, r ≤ k → k < arr.length → cmp (out.getD k pv) pv = .gt) := by
  have hp : p < arr.length := by
    by_contra hcon
    rw [List.getElem?_eq_none (by omega)] at hpv
    simp at hpv
  obtain ⟨⟨hperm, hlr, hrlen, hsmall, hmid, hbig⟩, hltr⟩ :=
    fatPartition_spec h arr p out l r pv hpv hrun
  have hlenout : out.length = arr.length := hperm.length_eq
  refine ⟨?_, hperm, hltr, by omega, hsmall, hmid, ?_⟩
  · rw [fatPartitionNoClone_eq h arr p hp]
    exact hrun
  · intro k hk1 hk2
    exact hbig k hk1 (by omega)

/-- Concrete check of C1: partitioning `[3,1,2]` around the pivot at index 0
(pivot value 3) yields `([1,2,3], 2, 3)` with the claimed region structure. -/
theorem claim_C1_fat_partition_witness :
    (3 ≤ ([3, 1, 2] : List Nat).length ∧ ([3, 1, 2] : List Nat)[0]? = some 3 ∧
      fatPartition [3, 1, 2] natCmp 0 = ([1, 2, 3], 2, 3)) ∧
    (fatPartitionNoClone [3, 1, 2] natCmp 0 = ([1, 2, 3], 2, 3) ∧
    List.Perm [1, 2, 3] [3, 1, 2] ∧ 2 < 3 ∧ 3 ≤ ([3, 1, 2] : List Nat).length ∧
    (∀ k, k < 2 → natCmp (([1, 2, 3] : List Nat).getD k 3) 3 = .lt) ∧
    (∀ k, 2 ≤ k → k < 3 → natCmp (([1, 2, 3] : List Nat).getD k 3) 3 = .eq) ∧
    (∀ k, 3 ≤ k → k < ([3, 1, 2] : List Nat).length →
      natCmp (([1, 2, 3] : List Nat).getD k 3) 3 = .gt)) :=
  ⟨⟨by decide, by decide, by decide⟩,
    claim_C1_fat_partition natCmp natCmp_total [3, 1, 2] [1, 2, 3] 0 2 3 3
      (by decide) (by decide) (by decide)⟩
theorem TotalCmp.lt_of_le_of_lt {α : Type _} {cmp : α → α → Ordering}
    (h : TotalCmp cmp) {a b c : α} (hab : cmp a b ≠ .gt) (hbc : cmp b c = .lt) :
    cmp a c = .lt := by
  rcases (h.not_gt_iff).mp hab with hl | he
  · exact h.lt_trans hl hbc
  · exact h.lt_of_eq_of_lt he hbc

theorem TotalCmp.lt_of_lt_of_le {α : Type _} {cmp : α → α → Ordering}
    (h : TotalCmp cmp) {a b c : α} (hab : cmp a b = .lt) (hbc : cmp b c ≠ .gt) :
    cmp a c = .lt := by
  rcases (h.not_gt_iff).mp hbc with hl | he
  · exact h.lt_trans hab hl
  · exact h.lt_of_lt_of_eq hab he

/-- Sortedness under a comparator: no earlier element compares Greater than a
later one. -/
def SortedCmp {α : Type _} (cmp : α → α → Ordering) (l : List α) : Prop :=
  List.Pairwise (fun a b => cmp a b ≠ .gt) l

instance sortedCmpDecidable {α : Type _} (cmp : α → α → Ordering) (l : List α) :
    Decidable (SortedCmp cmp l) :=
  List.instDecidablePairwise l

theorem sortedCmp_le {α : Type _} {cmp : α → α → Ordering} (h : TotalCmp cmp)
    {arr : List α} (hs : SortedCmp cmp arr) (i j : Nat) (d : α) (hij : i ≤ j)
    (hj : j < arr.length) : cmp (arr.getD i d) (arr.getD j d) ≠ .gt := by
  rcases Nat.lt_or_ge i j with hlt | hge
  · rw [getD_eq_getElem arr i d (by omega), getD_eq_getElem arr j d hj]
    exact (List.pairwise_iff_getElem.mp hs) i j (by omega) hj hlt
  · have : i = j := by omega
    rw [this, h.refl]
    simp

theorem getD_take {α : Type _} (l : List α) (n j : Nat) (d : α) (hj : j < n) :
    (l.take n).getD j d = l.getD j d := by
  rcases Nat.lt_or_ge j l.length with hjl | hjl
  · have hjt : j < (l.take n).length := by
      rw [List.length_take]; omega
    rw [getD_eq_getElem _ _ _ hjt, getD_eq_getElem _ _ _ hjl]
    simp
  · have h1 : l[j]? = none := List.getElem?_eq_none (by omega)
    have h2 : (l.take n)[j]? = none :=
      List.getElem?_eq_none (by rw [List.length_take]; omega)
    rw [List.getD_eq_getElem?_getD, List.getD_eq_getElem?_getD, h1, h2]

/-! ## Rust `slice::binary_search_by` and `binary_search_leftmost`
(src/src/merge_sort/concurrent_merge_sort.rs lines 318-346)

`binarySearchBy` models the Rust standard library's `binary_search_by`, an
external dependency of the repository: it probes `mid = left + size / 2`,
returns `Ok(mid)` at the first Equal probe and `Err(left)` once the window is
empty — satisfying the documented std contract (some equal index on hit, the
insertion index on miss). `binarySearchLeftmost` then embeds the repository's
`binary_search_leftmost`, which recurses into the left half while the element
just before the hit is still Equal. -/

inductive BsResult where
  | ok (i : Nat)
  | err (i : Nat)
deriving DecidableEq

def binarySearchByLoop {α : Type _} (arr : List α) (f : α → Ordering) (d : α) :
    Nat → Nat → Nat → BsResult
  | 0, left, _right => .err left
  | fuel + 1, left, right =>
    if left < right then
      let size := right - left
      let mid := left + size / 2
      match f (arr.getD mid d) with
      | .lt => binarySearchByLoop arr f d fuel (mid + 1) right
      | .gt => binarySearchByLoop arr f d fuel left mid
      | .eq => .ok mid
    else .err left

def binarySearchBy {α : Type _} (arr : List α) (f : α → Ordering) (d : α) :
    BsResult :=
  binarySearchByLoop arr f d (arr.length + 1) 0 arr.length

/-- Postcondition of std `binary_search_by` with probe `cmp · t` over a sorted
list: `Ok p` is an Equal position, `Err p` is the unique insertion point. -/
def BsPost {α : Type _} (cmp : α → α → Ordering) (arr : List α) (t : α) :
    BsResult → Prop
  | .ok p => p < arr.length ∧ cmp (arr.getD p t) t = .eq
  | .err p => p ≤ arr.length ∧ (∀ j, j < p → cmp (arr.getD j t) t = .lt) ∧
      (∀ j, p ≤ j → j < arr.length → cmp (arr.getD j t) t = .gt)

theorem binarySearchByLoop_spec {α : Type _} {cmp : α → α → Ordering}
    (h : TotalCmp cmp) (arr : List α) (t d : α) (hs : SortedCmp cmp arr) :
    ∀ (fuel left right : Nat),
      right ≤ arr.length → left ≤ right → right - left < fuel →
      (∀ j, j < left → cmp (arr.getD j t) t = .lt) →
      (∀ j, right ≤ j → j < arr.length → cmp (arr.getD j t) t = .gt) →
      BsPost cmp arr t (binarySearchByLoop arr (fun x => cmp x t) d fuel left right) := by
  intro fuel
  induction fuel with
  | zero =>
    intro left right hrlen hlr hfuel hlo hhi
    omega
  | succ fuel ih =>
    intro left right hrlen hlr hfuel hlo hhi
    simp only [binarySearchByLoop]
    by_cases hcond : left < right
    · rw [if_pos hcond]
      have hmidlt : left + (right - left) / 2 < right := by omega
      have hmidlen : left + (right - left) / 2 < arr.length := by omega
      have hdflt : arr.getD (left + (right - left) / 2) d =
          arr.getD (left + (right - left) / 2) t :=
        getD_default_irrel arr _ d t hmidlen
      cases hmid : cmp (arr.getD (left + (right - left) / 2) t) t with
      | lt =>
        rw [hdflt, hmid]
        refine ih (left + (right - left) / 2 + 1) right hrlen (by omega) (by omega)
          ?_ hhi
        intro j hj
        rcases Nat.lt_or_ge j left with hjl | hjl
        · exact hlo j hjl
        · exact h.lt_of_le_of_lt
            (sortedCmp_le h hs j (left + (right - left) / 2) t (by omega) hmidlen) hmid
      | gt =>
        rw [hdflt, hmid]
        refine ih left (left + (right - left) / 2) (by omega) (by omega) (by omega)
          hlo ?_
        intro j hj hjlen
        have hmj : cmp (arr.getD (left + (right - left) / 2) t) (arr.getD j t) ≠ .gt :=
          sortedCmp_le h hs _ j t (by omega) hjlen
        rw [h.gt_iff_lt] at hmid ⊢
        exact h.lt_of_lt_of_le hmid hmj
      | eq =>
        rw [hdflt, hmid]
        exact ⟨hmidlen, hmid⟩
    · rw [if_neg hcond]
      have hleq : left = right := by omega
      refine ⟨by omega, hlo, ?_⟩
      intro j hj hjlen
      exact hhi j (by omega) hjlen

theorem binarySearchBy_spec {α : Type _} {cmp : α → α → Ordering}
    (h : TotalCmp cmp) (arr : List α) (t d : α) (hs : SortedCmp cmp arr) :
    BsPost cmp arr t (binarySearchBy arr (fun x => cmp x t) d) := by
  refine binarySearchByLoop_spec h arr t d hs (arr.length + 1) 0 arr.length
    (Nat.le_refl _) (Nat.zero_le _) (by omega) ?_ ?_
  · intro j hj; omega
  · intro j hj hjlen; omega

def binarySearchLeftmostGo {α : Type _} (cmp : α → α → Ordering) (target : α) :
    Nat → List α → Nat
  | 0, _arr => 0
  | fuel + 1, arr =>
    match binarySearchBy arr (fun probe => cmp probe target) target with
    | .ok pos =>
      if pos = 0 then pos
      else if cmp (arr.getD (pos - 1) target) target ≠ .eq then pos
      else binarySearchLeftmostGo cmp target fuel (arr.take pos)
    | .err pos => pos

def binarySearchLeftmost {α : Type _} (arr : List α) (cmp : α → α → Ordering)
    (target : α) : Nat :=
  binarySearchLeftmostGo cmp target (arr.length + 1) arr

/-- The lower-bound characterization of `binary_search_leftmost` over a sorted
list: everything before the returned index is Less than the target and
nothing from the index on is. -/
def BlmPost {α : Type _} (cmp : α → α → Ordering) (arr : List α) (t : α)
    (p : Nat) : Prop :=
  p ≤ arr.length ∧ (∀ j, j < p → cmp (arr.getD j t) t = .lt) ∧
    (∀ j, p ≤ j → j < arr.length → cmp (arr.getD j t) t ≠ .lt)

theorem binarySearchLeftmostGo_spec {α : Type _} {cmp : α → α → Ordering}
    (h : TotalCmp cmp) (t : α) :
    ∀ (fuel : Nat) (arr : List α), arr.length < fuel → SortedCmp cmp arr →
      BlmPost cmp arr t (binarySearchLeftmostGo cmp t fuel arr) := by
  intro fuel
  induction fuel with
  | zero => intro arr hfuel hs; omega
  | succ fuel ih =>
    intro arr hfuel hs
    cases hbs : binarySearchBy arr (fun probe => cmp probe t) t with
    | err pos =>
      simp only [binarySearchLeftmostGo, hbs]
      have hpost := binarySearchBy_spec h arr t t hs
      rw [hbs] at hpost
      obtain ⟨h1, h2, h3⟩ := hpost
      refine ⟨h1, h2, ?_⟩
      intro j hj hjlen
      rw [h3 j hj hjlen]
      simp
    | ok pos =>
      simp only [binarySearchLeftmostGo, hbs]
      have hpost := binarySearchBy_spec h arr t t hs
      rw [hbs] at hpost
      obtain ⟨hposlen, hpeq⟩ := hpost
      by_cases hp0 : pos = 0
      · rw [if_pos hp0]
        subst hp0
        refine ⟨by omega, by omega, ?_⟩
        intro j hj hjlen
        have hle : cmp (arr.getD 0 t) (arr.getD j t) ≠ .gt :=
          sortedCmp_le h hs 0 j t (by omega) hjlen
        intro hlt
        have : cmp (arr.getD j t) (arr.getD 0 t) = .lt :=
          h.lt_of_lt_of_eq hlt (h.eq_symm hpeq)
        rw [h.lt_iff_gt] at this
        exact hle this
      · rw [if_neg hp0]
        by_cases hprev : cmp (arr.getD (pos - 1) t) t ≠ .eq
        · rw [if_pos hprev]
          have hprevlt : cmp (arr.getD (pos - 1) t) t = .lt := by
            have hle : cmp (arr.getD (pos - 1) t) (arr.getD pos t) ≠ .gt :=
              sortedCmp_le h hs (pos - 1) pos t (by omega) hposlen
            have : cmp (arr.getD (pos - 1) t) t ≠ .gt := h.le_of_le_of_eq hle hpeq
            rcases h.not_gt_iff.mp this with hl | he
            · exact hl
            · exact absurd he hprev
          refine ⟨by omega, ?_, ?_⟩
          · intro j hj
            rcases Nat.lt_or_ge j (pos - 1) with hjp | hjp
            · exact h.lt_of_le_of_lt
                (sortedCmp_le h hs j (pos - 1) t (by omega) (by omega)) hprevlt
            · have : j = pos - 1 := by omega
              rw [this]
              exact hprevlt
          · intro j hj hjlen
            intro hlt
            have : cmp (arr.getD j t) (arr.getD pos t) = .lt :=
              h.lt_of_lt_of_eq hlt (h.eq_symm hpeq)
            rw [h.lt_iff_gt] at this
            exact sortedCmp_le h hs pos j t hj hjlen this
        · rw [if_neg hprev]
          have hslen : (arr.take pos).length = pos := by
            rw [List.length_take]; omega
          have hstake : SortedCmp cmp (arr.take pos) :=
            List.Pairwise.sublist (List.take_sublist pos arr) hs
          have hrec := ih (arr.take pos) (by omega) hstake
          obtain ⟨r1, r2, r3⟩ := hrec
          rw [hslen] at r1
          refine ⟨by omega, ?_, ?_⟩
          · intro j hj
            have := r2 j hj
            rwa [getD_take arr pos j t (by omega)] at this
          · intro j hj hjlen
            rcases Nat.lt_or_ge j pos with hjp | hjp
            · have := r3 j hj (by rw [hslen]; omega)
              rwa [getD_take arr pos j t (by omega)] at this
            · intro hlt
              have : cmp (arr.getD j t) (arr.getD pos t) = .lt :=
                h.lt_of_lt_of_eq hlt (h.eq_symm hpeq)
              rw [h.lt_iff_gt] at this
              exact sortedCmp_le h hs pos j t hjp hjlen this

theorem binarySearchLeftmost_spec {α : Type _} {cmp : α → α → Ordering}
    (h : TotalCmp cmp) (arr : List α) (t : α) (hs : SortedCmp cmp arr) :
    BlmPost cmp arr t (binarySearchLeftmost arr cmp t) :=
  binarySearchLeftmostGo_spec h t (arr.length + 1) arr (by omega) hs
/-- C5: over a sequence sorted under the comparator, `binary_search_leftmost`
returns the smallest index whose element compares Equal to the target when one
exists, and otherwise the insertion index that preserves sorted order. -/
theorem claim_C5_binary_search_leftmost {α : Type _} (cmp : α → α → Ordering)
    (h : TotalCmp cmp) (arr : List α) (t : α) (hs : SortedCmp cmp arr) :
    (∀ i, i < arr.length → cmp (arr.getD i t) t = .eq →
      binarySearchLeftmost arr cmp t < arr.length ∧
      cmp (arr.getD (binarySearchLeftmost arr cmp t) t) t = .eq ∧
      ∀ j, j < binarySearchLeftmost arr cmp t → cmp (arr.getD j t) t ≠ .eq) ∧
    ((∀ i, i < arr.length → cmp (arr.getD i t) t ≠ .eq) →
      binarySearchLeftmost arr cmp t ≤ arr.length ∧
      SortedCmp cmp (arr.take (binarySearchLeftmost arr cmp t) ++
        t :: arr.drop (binarySearchLeftmost arr cmp t))) := by
  obtain ⟨hplen, hlo, hhi⟩ := binarySearchLeftmost_spec h arr t hs
  constructor
  · intro i hi hieq
    have hip : binarySearchLeftmost arr cmp t ≤ i := by
      by_contra hcon
      have := hlo i (by omega)
      rw [hieq] at this
      exact absurd this (by decide)
    refine ⟨by omega, ?_, ?_⟩
    · have h1 : cmp (arr.getD (binarySearchLeftmost arr cmp t) t) t ≠ .lt :=
        hhi _ (Nat.le_refl _) (by omega)
      have h2 : cmp (arr.getD (binarySearchLeftmost arr cmp t) t) t ≠ .gt :=
        h.le_of_le_of_eq (sortedCmp_le h hs _ i t hip hi) hieq
      cases hcc : cmp (arr.getD (binarySearchLeftmost arr cmp t) t) t with
      | lt => exact absurd hcc h1
      | eq => rfl
      | gt => exact absurd hcc h2
    · intro j hj
      rw [hlo j hj]
      decide
  · intro hnone
    refine ⟨hplen, ?_⟩
    unfold SortedCmp
    rw [List.pairwise_append]
    refine ⟨List.Pairwise.sublist (List.take_sublist _ arr) hs, ?_, ?_⟩
    · rw [List.pairwise_cons]
      constructor
      · intro y hy
        obtain ⟨k, hk, hky⟩ := List.mem_iff_getElem.mp hy
        have hjlen : binarySearchLeftmost arr cmp t + k < arr.length := by
          have := List.length_drop (binarySearchLeftmost arr cmp t) arr
          omega
        have hygt : cmp (arr.getD (binarySearchLeftmost arr cmp t + k) t) t = .gt := by
          have h1 := hhi (binarySearchLeftmost arr cmp t + k) (by omega) hjlen
          have h2 := hnone (binarySearchLeftmost arr cmp t + k) hjlen
          cases hcc : cmp (arr.getD (binarySearchLeftmost arr cmp t + k) t) t with
          | lt => exact absurd hcc h1
          | eq => exact absurd hcc h2
          | gt => rfl
        have hyv : y = arr.getD (binarySearchLeftmost arr cmp t + k) t := by
          rw [getD_eq_getElem _ _ _ hjlen, ← List.getElem_drop, hky]
        rw [hyv]
        rw [h.gt_iff_lt] at hygt
        exact h.ne_gt_of_lt hygt
      · exact List.Pairwise.sublist (List.drop_sublist _ arr) hs
    · intro x hx y hy
      obtain ⟨j, hj, hjx⟩ := List.mem_iff_getElem.mp hx
      have hjlen : j < arr.length := by
        have := List.length_take (binarySearchLeftmost arr cmp t) arr
        omega
      have hjp : j < binarySearchLeftmost arr cmp t := by
        have := List.length_take (binarySearchLeftmost arr cmp t) arr
        omega
      have hxv : x = arr.getD j t := by
        rw [getD_eq_getElem _ _ _ hjlen, ← hjx]
        simp
      have hxlt : cmp x t = .lt := by
        rw [hxv]
        exact hlo j hjp
      rcases List.mem_cons.mp hy with rfl | hy2
      · exact h.ne_gt_of_lt hxlt
      · obtain ⟨k, hk, hky⟩ := List.mem_iff_getElem.mp hy2
        have hklen : binarySearchLeftmost arr cmp t + k < arr.length := by
          have := List.length_drop (binarySearchLeftmost arr cmp t) arr
          omega
        have hyv : y = arr.getD (binarySearchLeftmost arr cmp t + k) t := by
          rw [getD_eq_getElem _ _ _ hklen, ← List.getElem_drop, hky]
        rw [hxv, hyv]
        exact sortedCmp_le h hs j _ t (by omega) hklen

/-- Concrete check of C5 on `[1,2,2,3]` with target `2`: the leftmost Equal
index is 1. -/
theorem claim_C5_binary_search_leftmost_witness :
    SortedCmp natCmp [1, 2, 2, 3] ∧
    (binarySearchLeftmost [1, 2, 2, 3] natCmp 2 < ([1, 2, 2, 3] : List Nat).length ∧
      natCmp (([1, 2, 2, 3] : List Nat).getD
        (binarySearchLeftmost [1, 2, 2, 3] natCmp 2) 2) 2 = .eq ∧
      ∀ j, j < binarySearchLeftmost [1, 2, 2, 3] natCmp 2 →
        natCmp (([1, 2, 2, 3] : List Nat).getD j 2) 2 ≠ .eq) :=
  ⟨by decide,
    (claim_C5_binary_search_leftmost natCmp natCmp_total [1, 2, 2, 3] 2
      (by decide)).1 1 (by decide) (by decide)⟩
/-! ## RangePartition.find_partition_by_pivots
(src/src/merge_sort/concurrent_merge_sort.rs lines 105-131)

`listSlice arr a b` models the sub-slice `&arr[a..b]`. The function pushes
`range.start`, then for each pivot the leftmost-insertion position found by
`binary_search_leftmost` inside the still-unconsumed suffix of the range, and
finally `range.end`. -/

def listSlice {α : Type _} (arr : List α) (a b : Nat) : List α :=
  (arr.drop a).take (b - a)

def findPartitionByPivotsGo {α : Type _} (arr : List α) (rend : Nat)
    (cmp : α → α → Ordering) : Nat → List α → List Nat
  | _currStart, [] => []
  | currStart, p :: ps =>
    let pos := binarySearchLeftmost (listSlice arr currStart rend) cmp p
    (currStart + pos) :: findPartitionByPivotsGo arr rend cmp (currStart + pos) ps

def findPartitionByPivots {α : Type _} (arr : List α) (rstart rend : Nat)
    (cmp : α → α → Ordering) (pivots : List α) : List Nat :=
  (rstart :: findPartitionByPivotsGo arr rend cmp rstart pivots) ++ [rend]

theorem listSlice_length {α : Type _} (arr : List α) (a b : Nat)
    (hb : b ≤ arr.length) : (listSlice arr a b).length = b - a := by
  unfold listSlice
  rw [List.length_take, List.length_drop]
  omega

theorem listSlice_getD {α : Type _} (arr : List α) (a b j : Nat) (d : α)
    (hj : a + j < b) (hb : b ≤ arr.length) :
    (listSlice arr a b).getD j d = arr.getD (a + j) d := by
  have hlen : (listSlice arr a b).length = b - a := listSlice_length arr a b hb
  rw [getD_eq_getElem _ _ _ (by omega), getD_eq_getElem _ _ _ (by omega)]
  unfold listSlice
  rw [List.getElem_take, List.getElem_drop]

theorem listSlice_drop {α : Type _} (arr : List α) (a b pos : Nat) :
    (listSlice arr a b).drop pos = listSlice arr (a + pos) b := by
  unfold listSlice
  rw [List.drop_take, List.drop_drop]
  have : b - a - pos = b - (a + pos) := by omega
  rw [this]

theorem sortedCmp_drop {α : Type _} {cmp : α → α → Ordering} {l : List α}
    (hs : SortedCmp cmp l) (n : Nat) : SortedCmp cmp (l.drop n) :=
  List.Pairwise.sublist (List.drop_sublist n l) hs

/-- Per-pivot endpoint property built up by `find_partition_by_pivots`:
each produced endpoint `e` closes a part `[cs, e)` that is strictly Less than
its pivot, while everything from `e` to the end of the range is not Less. -/
def PivotEndpointsOk {α : Type _} (cmp : α → α → Ordering) (arr : List α)
    (rend : Nat) (d : α) : Nat → List α → List Nat → Prop
  | _cs, [], es => es = []
  | cs, p :: ps, es =>
    match es with
    | [] => False
    | e :: es2 =>
      cs ≤ e ∧ e ≤ rend ∧
      (∀ j, cs ≤ j → j < e → cmp (arr.getD j d) p = .lt) ∧
      (∀ j, e ≤ j → j < rend → cmp (arr.getD j d) p ≠ .lt) ∧
      PivotEndpointsOk cmp arr rend d e ps es2

theorem findPartitionByPivotsGo_spec {α : Type _} {cmp : α → α → Ordering}
    (h : TotalCmp cmp) (arr : List α) (rend : Nat) (d : α)
    (hrend : rend ≤ arr.length) :
    ∀ (pivots : List α) (cs : Nat), cs ≤ rend →
      SortedCmp cmp (listSlice arr cs rend) →
      PivotEndpointsOk cmp arr rend d cs pivots
        (findPartitionByPivotsGo arr rend cmp cs pivots) := by
  intro pivots
  induction pivots with
  | nil =>
    intro cs hcs hsorted
    simp [findPartitionByPivotsGo, PivotEndpointsOk]
  | cons p ps ih =>
    intro cs hcs hsorted
    simp only [findPartitionByPivotsGo]
    have hsllen : (listSlice arr cs rend).length = rend - cs :=
      listSlice_length arr cs rend hrend
    obtain ⟨hplen, hlo, hhi⟩ := binarySearchLeftmost_spec h (listSlice arr cs rend) p hsorted
    rw [hsllen] at hplen
    constructor
    · omega
    refine ⟨by omega, ?_, ?_, ?_⟩
    · intro j hj1 hj2
      have := hlo (j - cs) (by omega)
      rw [listSlice_getD arr cs rend (j - cs) p (by omega) hrend] at this
      rw [getD_default_irrel arr j d p (by omega)]
      have hjcs : cs + (j - cs) = j := by omega
      rwa [hjcs] at this
    · intro j hj1 hj2
      have := hhi (j - cs) (by omega) (by omega)
      rw [listSlice_getD arr cs rend (j - cs) p (by omega) hrend] at this
      rw [getD_default_irrel arr j d p (by omega)]
      have hjcs : cs + (j - cs) = j := by omega
      rwa [hjcs] at this
    · refine ih (cs + binarySearchLeftmost (listSlice arr cs rend) cmp p) (by omega) ?_
      rw [← listSlice_drop]
      exact sortedCmp_drop hsorted _
theorem getD_append_left {α : Type _} (l l2 : List α) (n : Nat) (d : α)
    (hn : n < l.length) : (l ++ l2).getD n d = l.getD n d := by
  rw [List.getD_eq_getElem?_getD, List.getD_eq_getElem?_getD,
    List.getElem?_append_left hn]

theorem getD_append_right {α : Type _} (l l2 : List α) (n : Nat) (d : α)
    (hn : l.length ≤ n) : (l ++ l2).getD n d = l2.getD (n - l.length) d := by
  rw [List.getD_eq_getElem?_getD, List.getD_eq_getElem?_getD,
    List.getElem?_append_right hn]

theorem pivotEndpointsOk_index {α : Type _} {cmp : α → α → Ordering}
    {arr : List α} {rend : Nat} {d : α} :
    ∀ (ps : List α) (es : List Nat) (cs : Nat),
      PivotEndpointsOk cmp arr rend d cs ps es →
      es.length = ps.length ∧
      (∀ i, i < ps.length →
        (cs :: es).getD i 0 ≤ es.getD i 0 ∧ es.getD i 0 ≤ rend ∧
        (∀ j, (cs :: es).getD i 0 ≤ j → j < es.getD i 0 →
          cmp (arr.getD j d) (ps.getD i d) = .lt) ∧
        (∀ j, es.getD i 0 ≤ j → j < rend →
          cmp (arr.getD j d) (ps.getD i d) ≠ .lt)) := by
  intro ps
  induction ps with
  | nil =>
    intro es cs hok
    have hes : es = [] := hok
    subst hes
    refine ⟨rfl, ?_⟩
    intro i hi
    simp at hi
  | cons p ps ih =>
    intro es cs hok
    cases es with
    | nil => exact absurd hok (by simp [PivotEndpointsOk])
    | cons e es2 =>
      obtain ⟨h1, h2, h3, h4, h5⟩ := hok
      obtain ⟨ihlen, ihprops⟩ := ih es2 e h5
      refine ⟨by simpa using ihlen, ?_⟩
      intro i hi
      cases i with
      | zero =>
        simp only [List.getD_cons_zero, List.getD_cons_succ]
        exact ⟨h1, h2, h3, h4⟩
      | succ i =>
        simp only [List.getD_cons_succ]
        exact ihprops i (by simpa using hi)

/-- C6: over a sorted sub-range and non-decreasing pivots,
`find_partition_by_pivots` returns `k+2` ascending endpoints carving the
sub-range into `k+1` parts; every element of part `i` compares strictly Less
than pivot `i`, and every element of any later part compares not-Less
(that is, greater or equal) to pivot `i`. -/
theorem claim_C6_find_partition_by_pivots {α : Type _} (cmp : α → α → Ordering)
    (h : TotalCmp cmp) (arr : List α) (rstart rend : Nat) (pivots : List α)
    (d : α) (hrr : rstart ≤ rend) (hrend : rend ≤ arr.length)
    (hsorted : SortedCmp cmp (listSlice arr rstart rend))
    (hpiv : List.Pairwise (fun a b => cmp a b ≠ .gt) pivots) :
    (findPartitionByPivots arr rstart rend cmp pivots).length = pivots.length + 2 ∧
    (findPartitionByPivots arr rstart rend cmp pivots).getD 0 0 = rstart ∧
    (findPartitionByPivots arr rstart rend cmp pivots).getD (pivots.length + 1) 0 = rend ∧
    (∀ i, i + 1 < (findPartitionByPivots arr rstart rend cmp pivots).length →
      (findPartitionByPivots arr rstart rend cmp pivots).getD i 0 ≤
        (findPartitionByPivots arr rstart rend cmp pivots).getD (i + 1) 0) ∧
    (∀ i, i < pivots.length →
      (∀ j, (findPartitionByPivots arr rstart rend cmp pivots).getD i 0 ≤ j →
        j < (findPartitionByPivots arr rstart rend cmp pivots).getD (i + 1) 0 →
        cmp (arr.getD j d) (pivots.getD i d) = .lt) ∧
      (∀ j, (findPartitionByPivots arr rstart rend cmp pivots).getD (i + 1) 0 ≤ j →
        j < rend → cmp (arr.getD j d) (pivots.getD i d) ≠ .lt)) := by
  have hok := findPartitionByPivotsGo_spec h arr rend d hrend pivots rstart hrr hsorted
  obtain ⟨hgslen, hprops⟩ :=
    pivotEndpointsOk_index pivots (findPartitionByPivotsGo arr rend cmp rstart pivots)
      rstart hok
  have hlen1 : (rstart :: findPartitionByPivotsGo arr rend cmp rstart pivots).length =
      pivots.length + 1 := by simpa using hgslen
  have hgetleft : ∀ i, i ≤ pivots.length →
      (findPartitionByPivots arr rstart rend cmp pivots).getD i 0 =
      (rstart :: findPartitionByPivotsGo arr rend cmp rstart pivots).getD i 0 := by
    intro i hi
    unfold findPartitionByPivots
    rw [getD_append_left _ _ _ _ (by omega)]
  have hgetlast : (findPartitionByPivots arr rstart rend cmp pivots).getD
      (pivots.length + 1) 0 = rend := by
    unfold findPartitionByPivots
    rw [getD_append_right _ _ _ _ (by omega), hlen1]
    simp
  refine ⟨?_, ?_, hgetlast, ?_, ?_⟩
  · unfold findPartitionByPivots
    rw [List.length_append, hlen1]
    simp
  · rw [hgetleft 0 (by omega)]
    simp
  · intro i hi
    unfold findPartitionByPivots at hi
    rw [List.length_append, hlen1] at hi
    simp only [List.length_cons, List.length_nil] at hi
    rcases Nat.lt_or_ge (i + 1) (pivots.length + 1) with hi2 | hi2
    · rw [hgetleft i (by omega), hgetleft (i + 1) (by omega)]
      have := (hprops i (by omega)).1
      simp only [List.getD_cons_succ]
      exact this
    · have hieq : i = pivots.length := by omega
      subst hieq
      rw [hgetlast, hgetleft pivots.length (by omega)]
      rcases Nat.eq_zero_or_pos pivots.length with hz | hpos
      · rw [hz]
        simpa using hrr
      · obtain ⟨m, hm⟩ := Nat.exists_eq_succ_of_ne_zero (by omega : pivots.length ≠ 0)
        rw [hm]
        simp only [List.getD_cons_succ]
        exact (hprops m (by omega)).2.1
  · intro i hi
    constructor
    · intro j hj1 hj2
      rw [hgetleft i (by omega)] at hj1
      rw [hgetleft (i + 1) (by omega)] at hj2
      simp only [List.getD_cons_succ] at hj2
      exact (hprops i hi).2.2.1 j hj1 hj2
    · intro j hj1 hj2
      rw [hgetleft (i + 1) (by omega)] at hj1
      simp only [List.getD_cons_succ] at hj1
      exact (hprops i hi).2.2.2 j hj1 hj2

/-- Concrete check of C6: partitioning sorted `[1,2,3,4,5]` by pivots `[2,4]`
yields endpoints `[0,1,3,5]`. -/
theorem claim_C6_find_partition_by_pivots_witness :
    (0 ≤ 5 ∧ 5 ≤ ([1, 2, 3, 4, 5] : List Nat).length ∧
      SortedCmp natCmp (listSlice [1, 2, 3, 4, 5] 0 5) ∧
      List.Pairwise (fun a b => natCmp a b ≠ .gt) [2, 4] ∧
      findPartitionByPivots [1, 2, 3, 4, 5] 0 5 natCmp [2, 4] = [0, 1, 3, 5]) ∧
    ((findPartitionByPivots [1, 2, 3, 4, 5] 0 5 natCmp [2, 4]).length =
        ([2, 4] : List Nat).length + 2 ∧
      (findPartitionByPivots [1, 2, 3, 4, 5] 0 5 natCmp [2, 4]).getD 0 0 = 0 ∧
      (findPartitionByPivots [1, 2, 3, 4, 5] 0 5 natCmp
        [2, 4]).getD (([2, 4] : List Nat).length + 1) 0 = 5 ∧
      (∀ i, i + 1 < (findPartitionByPivots [1, 2, 3, 4, 5] 0 5 natCmp [2, 4]).length →
        (findPartitionByPivots [1, 2, 3, 4, 5] 0 5 natCmp [2, 4]).getD i 0 ≤
          (findPartitionByPivots [1, 2, 3, 4, 5] 0 5 natCmp [2, 4]).getD (i + 1) 0) ∧
      (∀ i, i < ([2, 4] : List Nat).length →
        (∀ j, (findPartitionByPivots [1, 2, 3, 4, 5] 0 5 natCmp [2, 4]).getD i 0 ≤ j →
          j < (findPartitionByPivots [1, 2, 3, 4, 5] 0 5 natCmp [2, 4]).getD (i + 1) 0 →
          natCmp (([1, 2, 3, 4, 5] : List Nat).getD j 0)
            (([2, 4] : List Nat).getD i 0) = .lt) ∧
        (∀ j, (findPartitionByPivots [1, 2, 3, 4, 5] 0 5 natCmp [2, 4]).getD (i + 1) 0 ≤ j →
          j < 5 → natCmp (([1, 2, 3, 4, 5] : List Nat).getD j 0)
            (([2, 4] : List Nat).getD i 0) ≠ .lt))) :=
  ⟨⟨by decide, by decide, by decide, by decide, by decide⟩,
    claim_C6_find_partition_by_pivots natCmp natCmp_total [1, 2, 3, 4, 5] 0 5
      [2, 4] 0 (by decide) (by decide) (by decide) (by decide)⟩
/-! ## merge_two_sorted_sequences (src/src/merge_sort/merge.rs lines 9-50)

The embedding records every `result_consumer(index, element)` invocation, in
order, as a pair `(index, element)`. The running `n` models `i1 + i2`. The
fuel argument is the loop's remaining iteration budget; the wrapper supplies
`len1 + len2`, which is exactly the number of iterations performed. -/

def mergeTwoGo {α : Type _} (cmp : α → α → Ordering) :
    Nat → List α → List α → Nat → List (Nat × α)
  | 0, _xs, _ys, _n => []
  | fuel + 1, xs, ys, n =>
    match xs, ys with
    | [], [] => []
    | [], y :: ys2 => (n, y) :: mergeTwoGo cmp fuel [] ys2 (n + 1)
    | x :: xs2, [] => (n, x) :: mergeTwoGo cmp fuel xs2 [] (n + 1)
    | x :: xs2, y :: ys2 =>
      match cmp x y with
      | .lt => (n, x) :: mergeTwoGo cmp fuel xs2 (y :: ys2) (n + 1)
      | .eq => (n, x) :: mergeTwoGo cmp fuel xs2 (y :: ys2) (n + 1)
      | .gt => (n, y) :: mergeTwoGo cmp fuel (x :: xs2) ys2 (n + 1)

def mergeTwoSortedSequences {α : Type _} (arr1 arr2 : List α)
    (cmp : α → α → Ordering) : List (Nat × α) :=
  mergeTwoGo cmp (arr1.length + arr2.length) arr1 arr2 0

theorem mergeTwoGo_snd {α : Type _} (cmp : α → α → Ordering) :
    ∀ (fuel : Nat) (xs ys : List α) (n : Nat), xs.length + ys.length ≤ fuel →
      (mergeTwoGo cmp fuel xs ys n).map Prod.snd = List.merge xs ys (ble cmp) := by
  intro fuel
  induction fuel with
  | zero =>
    intro xs ys n hf
    have hx : xs = [] := by
      cases xs with
      | nil => rfl
      | cons a l => simp at hf
    have hy : ys = [] := by
      cases ys with
      | nil => rfl
      | cons a l => simp at hf
    subst hx; subst hy
    simp [mergeTwoGo, List.merge]
  | succ fuel ih =>
    intro xs ys n hf
    cases xs with
    | nil =>
      cases ys with
      | nil => simp [mergeTwoGo, List.merge]
      | cons y ys2 =>
        simp only [mergeTwoGo, List.map_cons, List.nil_merge]
        rw [ih [] ys2 (n + 1) (by simp at hf ⊢; omega)]
        simp
    | cons x xs2 =>
      cases ys with
      | nil =>
        simp only [mergeTwoGo, List.map_cons, List.merge_right]
        rw [ih xs2 [] (n + 1) (by simp at hf ⊢; omega)]
        simp
      | cons y ys2 =>
        simp only [mergeTwoGo]
        cases hcmp : cmp x y with
        | lt =>
          have hble : ble cmp x y = true := by unfold ble; rw [hcmp]; decide
          rw [List.cons_merge_cons_pos _ _ _ hble]
          simp only [List.map_cons]
          rw [ih xs2 (y :: ys2) (n + 1) (by simp at hf ⊢; omega)]
        | eq =>
          have hble : ble cmp x y = true := by unfold ble; rw [hcmp]; decide
          rw [List.cons_merge_cons_pos _ _ _ hble]
          simp only [List.map_cons]
          rw [ih xs2 (y :: ys2) (n + 1) (by simp at hf ⊢; omega)]
        | gt =>
          have hble : ¬ ble cmp x y = true := by unfold ble; rw [hcmp]; decide
          rw [List.cons_merge_cons_neg _ _ _ hble]
          simp only [List.map_cons]
          rw [ih (x :: xs2) ys2 (n + 1) (by simp at hf ⊢; omega)]

theorem mergeTwoGo_fst {α : Type _} (cmp : α → α → Ordering) :
    ∀ (fuel : Nat) (xs ys : List α) (n : Nat), xs.length + ys.length ≤ fuel →
      (mergeTwoGo cmp fuel xs ys n).map Prod.fst =
        List.range' n (xs.length + ys.length) := by
  intro fuel
  induction fuel with
  | zero =>
    intro xs ys n hf
    have hx : xs.length = 0 := by omega
    have hy : ys.length = 0 := by omega
    rw [List.length_eq_zero] at hx hy
    subst hx; subst hy
    simp [mergeTwoGo]
  | succ fuel ih =>
    intro xs ys n hf
    cases xs with
    | nil =>
      cases ys with
      | nil => simp [mergeTwoGo]
      | cons y ys2 =>
        simp only [mergeTwoGo, List.map_cons]
        rw [ih [] ys2 (n + 1) (by simp at hf ⊢; omega)]
        have hL : ([] : List α).length + (y :: ys2).length =
            ([] : List α).length + ys2.length + 1 := by simp
        rw [hL, List.range'_succ]
    | cons x xs2 =>
      cases ys with
      | nil =>
        simp only [mergeTwoGo, List.map_cons]
        rw [ih xs2 [] (n + 1) (by simp at hf ⊢; omega)]
        have hL : (x :: xs2).length + ([] : List α).length =
            xs2.length + ([] : List α).length + 1 := by simp
        rw [hL, List.range'_succ]
      | cons y ys2 =>
        simp only [mergeTwoGo]
        have hL1 : (x :: xs2).length + (y :: ys2).length =
            xs2.length + (y :: ys2).length + 1 := by simp; omega
        have hL2 : (x :: xs2).length + (y :: ys2).length =
            (x :: xs2).length + ys2.length + 1 := by simp; omega
        cases hcmp : cmp x y with
        | lt =>
          simp only [List.map_cons]
          rw [ih xs2 (y :: ys2) (n + 1) (by simp at hf ⊢; omega)]
          rw [hL1, List.range'_succ]
        | eq =>
          simp only [List.map_cons]
          rw [ih xs2 (y :: ys2) (n + 1) (by simp at hf ⊢; omega)]
          rw [hL1, List.range'_succ]
        | gt =>
          simp only [List.map_cons]
          rw [ih (x :: xs2) ys2 (n + 1) (by simp at hf ⊢; omega)]
          rw [hL2, List.range'_succ]

theorem merge_tag_stable {α : Type _} {cmp : α → α → Ordering} (h : TotalCmp cmp) :
    ∀ (l1 l2 : List (α × Nat)),
      SortedCmp (fun a b => cmp a.1 b.1) l1 →
      (∀ x, x ∈ l1 → x.2 = 0) → (∀ y, y ∈ l2 → y.2 = 1) →
      List.Pairwise (fun a b => a.2 = 1 → b.2 = 0 → cmp a.1 b.1 ≠ .eq)
        (List.merge l1 l2 (ble (fun a b => cmp a.1 b.1))) := by
  intro l1
  induction l1 with
  | nil =>
    intro l2 hs1 ht1 ht2
    rw [List.nil_merge]
    refine List.pairwise_of_forall_mem_list ?_
    intro a ha b hb h1 h0
    rw [ht2 b hb] at h0
    simp at h0
  | cons x xs ih1 =>
    intro l2 hs1 ht1 ht2
    induction l2 with
    | nil =>
      rw [List.merge_right]
      refine List.pairwise_of_forall_mem_list ?_
      intro a ha b hb h1 h0
      rw [ht1 a ha] at h1
      simp at h1
    | cons y ys ih2 =>
      by_cases hxy : ble (fun a b => cmp a.1 b.1) x y = true
      · rw [List.cons_merge_cons_pos _ _ _ hxy]
        refine List.Pairwise.cons ?_ ?_
        · intro z hz h1 h0
          rw [ht1 x (by simp)] at h1
          simp at h1
        · exact ih1 (y :: ys) (List.Pairwise.sublist (List.sublist_cons_self x xs) hs1)
            (fun z hz => ht1 z (by simp [hz])) ht2
      · rw [List.cons_merge_cons_neg _ _ _ hxy]
        refine List.Pairwise.cons ?_ ?_
        · intro z hz h1 h0
          have hzmem := List.mem_merge.mp hz
          have hz1 : z ∈ x :: xs := by
            rcases hzmem with hza | hzb
            · exact hza
            · rw [ht2 z (by simp [hzb])] at h0
              simp at h0
          have hgt : cmp x.1 y.1 = .gt := by
            rw [ble_iff] at hxy
            simpa using hxy
          have hxz : cmp x.1 z.1 ≠ .gt := by
            rcases List.mem_cons.mp hz1 with rfl | hz2
            · rw [h.refl]; simp
            · exact List.rel_of_pairwise_cons hs1 hz2
          rw [h.gt_iff_lt] at hgt
          have : cmp y.1 z.1 = .lt := h.lt_of_lt_of_le hgt hxz
          simp [this]
        · exact ih2 (fun z hz => ht2 z (by simp [hz]))
theorem sortedCmp_iff_ble {α : Type _} (cmp : α → α → Ordering) (l : List α) :
    SortedCmp cmp l ↔ List.Pairwise (fun a b => ble cmp a b = true) l := by
  unfold SortedCmp
  constructor
  · intro hp
    exact hp.imp (fun hab => (ble_iff cmp _ _).mpr hab)
  · intro hp
    exact hp.imp (fun hab => (ble_iff cmp _ _).mp hab)

theorem ble_trans {α : Type _} {cmp : α → α → Ordering} (h : TotalCmp cmp) :
    ∀ (a b c : α), ble cmp a b → ble cmp b c → ble cmp a c := by
  intro a b c hab hbc
  rw [ble_iff] at *
  exact h.le_trans a b c hab hbc

theorem ble_total {α : Type _} {cmp : α → α → Ordering} (h : TotalCmp cmp) :
    ∀ (a b : α), ble cmp a b || ble cmp b a := by
  intro a b
  rcases hab : cmp a b with _ | _ | _ <;> unfold ble
  · rw [hab]; rfl
  · rw [hab]; rfl
  · have : cmp b a = .lt := h.gt_iff_lt.mp hab
    rw [this, hab]
    decide

/-- C10: over two sorted inputs, `merge_two_sorted_sequences` invokes
`result_consumer` exactly `len1 + len2` times with output indices
`0, 1, …, len1+len2-1` in order, passes each input element exactly once, and
the emitted element sequence is the stable left-biased sorted merge: it is
sorted, and — tagging every `arr1` element with 0 and every `arr2` element
with 1 and merging the tagged sequences by value — no `arr2` element is ever
emitted before an Equal-comparing `arr1` element. -/
theorem claim_C10_merge_two_sorted_sequences {α : Type _}
    (cmp : α → α → Ordering) (h : TotalCmp cmp) (arr1 arr2 : List α)
    (hs1 : SortedCmp cmp arr1) (hs2 : SortedCmp cmp arr2) :
    (mergeTwoSortedSequences arr1 arr2 cmp).length = arr1.length + arr2.length ∧
    (mergeTwoSortedSequences arr1 arr2 cmp).map Prod.fst =
      List.range (arr1.length + arr2.length) ∧
    (mergeTwoSortedSequences arr1 arr2 cmp).map Prod.snd =
      List.merge arr1 arr2 (ble cmp) ∧
    List.Perm ((mergeTwoSortedSequences arr1 arr2 cmp).map Prod.snd)
      (arr1 ++ arr2) ∧
    SortedCmp cmp ((mergeTwoSortedSequences arr1 arr2 cmp).map Prod.snd) ∧
    List.Pairwise (fun a b => a.2 = 1 → b.2 = 0 → cmp a.1 b.1 ≠ .eq)
      ((mergeTwoSortedSequences (arr1.map (fun a => (a, 0)))
        (arr2.map (fun a => (a, 1)))
        (fun a b => cmp a.1 b.1)).map Prod.snd) := by
  have hfst := mergeTwoGo_fst cmp (arr1.length + arr2.length) arr1 arr2 0
    (Nat.le_refl _)
  have hsnd := mergeTwoGo_snd cmp (arr1.length + arr2.length) arr1 arr2 0
    (Nat.le_refl _)
  refine ⟨?_, ?_, ?_, ?_, ?_, ?_⟩
  · have := congrArg List.length hfst
    rw [List.length_map, List.length_range'] at this
    exact this
  · unfold mergeTwoSortedSequences
    rw [hfst, List.range_eq_range']
  · exact hsnd
  · unfold mergeTwoSortedSequences
    rw [hsnd]
    exact List.merge_perm_append _
  · unfold mergeTwoSortedSequences
    rw [hsnd]
    rw [sortedCmp_iff_ble]
    exact List.sorted_merge (ble_trans h) (ble_total h) arr1 arr2
      ((sortedCmp_iff_ble cmp arr1).mp hs1) ((sortedCmp_iff_ble cmp arr2).mp hs2)
  · unfold mergeTwoSortedSequences
    rw [mergeTwoGo_snd _ _ _ _ _ (by simp)]
    refine merge_tag_stable h _ _ ?_ ?_ ?_
    · unfold SortedCmp at hs1 ⊢
      rw [List.pairwise_map]
      exact hs1
    · intro x hx
      obtain ⟨a, _, rfl⟩ := List.mem_map.mp hx
      rfl
    · intro y hy
      obtain ⟨a, _, rfl⟩ := List.mem_map.mp hy
      rfl

/-- Concrete check of C10 on `[1,3]` and `[2,3]`. -/
theorem claim_C10_merge_two_sorted_sequences_witness :
    (SortedCmp natCmp [1, 3] ∧ SortedCmp natCmp [2, 3]) ∧
    ((mergeTwoSortedSequences [1, 3] [2, 3] natCmp).length =
        ([1, 3] : List Nat).length + ([2, 3] : List Nat).length ∧
      (mergeTwoSortedSequences [1, 3] [2, 3] natCmp).map Prod.fst =
        List.range (([1, 3] : List Nat).length + ([2, 3] : List Nat).length) ∧
      (mergeTwoSortedSequences [1, 3] [2, 3] natCmp).map Prod.snd =
        List.merge [1, 3] [2, 3] (ble natCmp) ∧
      List.Perm ((mergeTwoSortedSequences [1, 3] [2, 3] natCmp).map Prod.snd)
        ([1, 3] ++ [2, 3]) ∧
      SortedCmp natCmp ((mergeTwoSortedSequences [1, 3] [2, 3] natCmp).map Prod.snd) ∧
      List.Pairwise (fun a b => a.2 = 1 → b.2 = 0 → natCmp a.1 b.1 ≠ .eq)
        ((mergeTwoSortedSequences (([1, 3] : List Nat).map (fun a => (a, 0)))
          (([2, 3] : List Nat).map (fun a => (a, 1)))
          (fun a b => natCmp a.1 b.1)).map Prod.snd)) :=
  ⟨⟨by decide, by decide⟩,
    claim_C10_merge_two_sorted_sequences natCmp natCmp_total [1, 3] [2, 3]
      (by decide) (by decide)⟩
theorem getD_drop {α : Type _} (arr : List α) (a j : Nat) (d : α)
    (hj : a + j < arr.length) : (arr.drop a).getD j d = arr.getD (a + j) d := by
  have hlen : (arr.drop a).length = arr.length - a := List.length_drop a arr
  rw [getD_eq_getElem _ _ _ (by omega), getD_eq_getElem _ _ _ hj]
  exact List.getElem_drop arr

/-! ## In-place adjacent merges (src/src/merge_sort/merge.rs lines 180-317)

`merge_two_adjacent_sorted_sequences_inplace` copies the left half to a
buffer and streams the merge back into the array through raw-pointer writes.
Because the consumer receives the output indices `0, 1, …, len-1` in strictly
increasing order (claim C10) and reads `arr[sep + i2]` only while the write
frontier is at `i1 + i2 ≤ sep + i2`, the final array holds exactly the
emitted element stream; the embedding therefore returns that stream. -/

def mergeTwoAdjacentInplace {α : Type _} (arr : List α) (sep : Nat)
    (cmp : α → α → Ordering) : List α :=
  if sep = 0 ∨ sep = arr.length then arr
  else (mergeTwoSortedSequences (arr.take sep) (arr.drop sep) cmp).map Prod.snd

/-- The right trim cut of the smart merge: `separation_index` plus the raw
index that std `binary_search_by` reports for `left_max` inside the right
half — an `Ok` hit is used as-is, without moving to the run's end. -/
def smartMergeRightDelimit {α : Type _} (arr : List α) (sep : Nat)
    (cmp : α → α → Ordering) (leftMax : α) : Nat :=
  match binarySearchBy (arr.drop sep) (fun x => cmp x leftMax) leftMax with
  | .ok index => sep + index
  | .err index => sep + index

/-- The left trim cut of the smart merge: the raw std `binary_search_by`
result for `right_min` inside the left half, plus one on an `Ok` hit. -/
def smartMergeLeftDelimit {α : Type _} (arr : List α) (sep : Nat)
    (cmp : α → α → Ordering) (rightMin : α) : Nat :=
  match binarySearchBy (arr.take sep) (fun x => cmp x rightMin) rightMin with
  | .ok index => index + 1
  | .err index => index

def smartMerge {α : Type _} (arr : List α) (sep : Nat)
    (cmp : α → α → Ordering) : List α :=
  if arr.length ≤ 1 then arr
  else if sep = 0 ∨ sep = arr.length then arr
  else
    match arr[sep - 1]?, arr[sep]? with
    | some leftMax, some rightMin =>
      if cmp leftMax rightMin ≠ .gt then arr
      else
        if sep = smartMergeLeftDelimit arr sep cmp rightMin ∨
            sep = smartMergeRightDelimit arr sep cmp leftMax then arr
        else
          arr.take (smartMergeLeftDelimit arr sep cmp rightMin) ++
            mergeTwoAdjacentInplace
              (listSlice arr (smartMergeLeftDelimit arr sep cmp rightMin)
                (smartMergeRightDelimit arr sep cmp leftMax))
              (sep - smartMergeLeftDelimit arr sep cmp rightMin) cmp ++
            arr.drop (smartMergeRightDelimit arr sep cmp leftMax)
    | _, _ => arr

/-- What C8 claims the right cut to be: the leftmost position of the right
half whose element compares Greater than `left_max` (written from the spec's
words, for comparison against the code's actual delimiter). -/
def specSmartRightDelimit {α : Type _} (arr : List α) (sep : Nat)
    (cmp : α → α → Ordering) (leftMax : α) : Nat :=
  sep + (arr.drop sep).findIdx (fun x => cmp x leftMax == .gt)

/-- C8 counterexample: on `[3,7,5,7,7]` with `sep = 2` the halves `[3,7]` and
`[5,7,7]` are sorted and `left_max = 7 > right_min = 5`, so the trimming path
runs; std binary search lands on the middle duplicate of `7`, so the code's
right delimiter is 3, not the leftmost-Greater position 5 the claim
describes. -/
theorem claim_C8_counterexample :
    1 < ([3, 7, 5, 7, 7] : List Nat).length ∧ 0 < 2 ∧
    2 < ([3, 7, 5, 7, 7] : List Nat).length ∧
    SortedCmp natCmp (([3, 7, 5, 7, 7] : List Nat).take 2) ∧
    SortedCmp natCmp (([3, 7, 5, 7, 7] : List Nat).drop 2) ∧
    ([3, 7, 5, 7, 7] : List Nat)[2 - 1]? = some 7 ∧
    ([3, 7, 5, 7, 7] : List Nat)[2]? = some 5 ∧
    natCmp 7 5 = .gt ∧
    smartMergeRightDelimit [3, 7, 5, 7, 7] 2 natCmp 7 = 3 ∧
    specSmartRightDelimit [3, 7, 5, 7, 7] 2 natCmp 7 = 5 ∧
    smartMergeRightDelimit [3, 7, 5, 7, 7] 2 natCmp 7 ≠
      specSmartRightDelimit [3, 7, 5, 7, 7] 2 natCmp 7 := by
  decide
/-- C8 amended: over sorted halves with `left_max > right_min`, the smart
merge trims the ends by computing a right cut from which every element of the
array compares not-Less than `left_max`, and a left cut before which every
element compares not-Greater than `right_min` (on duplicate runs these are
the std binary-search hit positions, not necessarily the extremal ones), and
then merges exactly the interior between the two cuts in place. -/
theorem claim_C8_smart_merge_trims {α : Type _} (cmp : α → α → Ordering)
    (h : TotalCmp cmp) (arr : List α) (sep : Nat) (leftMax rightMin : α)
    (hlm : arr[sep - 1]? = some leftMax) (hrm : arr[sep]? = some rightMin)
    (hs1 : SortedCmp cmp (arr.take sep)) (hs2 : SortedCmp cmp (arr.drop sep))
    (hlen : 1 < arr.length) (hsep0 : 0 < sep) (hseplen : sep < arr.length)
    (hgt : cmp leftMax rightMin = .gt) :
    smartMergeLeftDelimit arr sep cmp rightMin < sep ∧
    sep < smartMergeRightDelimit arr sep cmp leftMax ∧
    smartMergeRightDelimit arr sep cmp leftMax ≤ arr.length ∧
    (∀ j, smartMergeRightDelimit arr sep cmp leftMax ≤ j → j < arr.length →
      cmp (arr.getD j leftMax) leftMax ≠ .lt) ∧
    (∀ j, j < smartMergeLeftDelimit arr sep cmp rightMin →
      cmp (arr.getD j rightMin) rightMin ≠ .gt) ∧
    smartMerge arr sep cmp =
      arr.take (smartMergeLeftDelimit arr sep cmp rightMin) ++
        mergeTwoAdjacentInplace
          (listSlice arr (smartMergeLeftDelimit arr sep cmp rightMin)
            (smartMergeRightDelimit arr sep cmp leftMax))
          (sep - smartMergeLeftDelimit arr sep cmp rightMin) cmp ++
        arr.drop (smartMergeRightDelimit arr sep cmp leftMax) := by
  have hdlen : (arr.drop sep).length = arr.length - sep := List.length_drop sep arr
  have htlen : (arr.take sep).length = sep := by
    rw [List.length_take]; omega
  have hlmval : arr.getD (sep - 1) rightMin = leftMax := by
    rw [List.getD_eq_getElem?_getD, hlm]
    rfl
  have hrmval : arr.getD sep leftMax = rightMin := by
    rw [List.getD_eq_getElem?_getD, hrm]
    rfl
  -- right delimiter
  have hrd : sep < smartMergeRightDelimit arr sep cmp leftMax ∧
      smartMergeRightDelimit arr sep cmp leftMax ≤ arr.length ∧
      (∀ j, smartMergeRightDelimit arr sep cmp leftMax ≤ j → j < arr.length →
        cmp (arr.getD j leftMax) leftMax ≠ .lt) := by
    have hpost := binarySearchBy_spec h (arr.drop sep) leftMax leftMax hs2
    cases hbs : binarySearchBy (arr.drop sep) (fun x => cmp x leftMax) leftMax with
    | ok idx =>
      have hrdval : smartMergeRightDelimit arr sep cmp leftMax = sep + idx := by
        unfold smartMergeRightDelimit
        rw [hbs]
      rw [hrdval]
      rw [hbs] at hpost
      obtain ⟨hidxlen, hidxeq⟩ := hpost
      have hidx0 : idx ≠ 0 := by
        intro hidx0
        subst hidx0
        rw [getD_drop arr sep 0 leftMax (by omega)] at hidxeq
        have : arr.getD (sep + 0) leftMax = rightMin := by
          simpa using hrmval
        rw [this] at hidxeq
        have := h.eq_symm hidxeq
        rw [hgt] at this
        simp at this
      refine ⟨by omega, by omega, ?_⟩
      intro j hj hjlen
      have hle : cmp (arr.getD (sep + idx) leftMax) (arr.getD j leftMax) ≠ .gt := by
        have := sortedCmp_le h hs2 idx (j - sep) leftMax (by omega) (by omega)
        rw [getD_drop arr sep idx leftMax (by omega),
          getD_drop arr sep (j - sep) leftMax (by omega)] at this
        have hjj : sep + (j - sep) = j := by omega
        rwa [hjj] at this
      rw [getD_drop arr sep idx leftMax (by omega)] at hidxeq
      intro hlt
      have h1 : cmp (arr.getD (sep + idx) leftMax) (arr.getD j leftMax) = .gt := by
        rw [h.gt_iff_lt]
        exact h.lt_of_lt_of_eq hlt (h.eq_symm hidxeq)
      exact hle h1
    | err idx =>
      have hrdval : smartMergeRightDelimit arr sep cmp leftMax = sep + idx := by
        unfold smartMergeRightDelimit
        rw [hbs]
      rw [hrdval]
      rw [hbs] at hpost
      obtain ⟨hidxlen, hlo, hhi⟩ := hpost
      have hidx0 : idx ≠ 0 := by
        intro hidx0
        subst hidx0
        have := hhi 0 (by omega) (by omega)
        rw [getD_drop arr sep 0 leftMax (by omega)] at this
        have hv : arr.getD (sep + 0) leftMax = rightMin := by simpa using hrmval
        rw [hv] at this
        have hcontra : cmp leftMax rightMin = .lt := h.gt_iff_lt.mp this
        rw [hgt] at hcontra
        exact absurd hcontra (by decide)
      refine ⟨by omega, by omega, ?_⟩
      intro j hj hjlen
      have := hhi (j - sep) (by omega) (by omega)
      rw [getD_drop arr sep (j - sep) leftMax (by omega)] at this
      have hjj : sep + (j - sep) = j := by omega
      rw [hjj] at this
      rw [this]
      simp
  -- left delimiter
  have hld : smartMergeLeftDelimit arr sep cmp rightMin < sep ∧
      (∀ j, j < smartMergeLeftDelimit arr sep cmp rightMin →
        cmp (arr.getD j rightMin) rightMin ≠ .gt) := by
    have hpost := binarySearchBy_spec h (arr.take sep) rightMin rightMin hs1
    cases hbs : binarySearchBy (arr.take sep) (fun x => cmp x rightMin) rightMin with
    | ok idx =>
      have hldval : smartMergeLeftDelimit arr sep cmp rightMin = idx + 1 := by
        unfold smartMergeLeftDelimit
        rw [hbs]
      rw [hldval]
      rw [hbs] at hpost
      obtain ⟨hidxlen, hidxeq⟩ := hpost
      rw [htlen] at hidxlen
      rw [getD_take arr sep idx rightMin (by omega)] at hidxeq
      have hidxtop : idx ≠ sep - 1 := by
        intro hidxeq2
        subst hidxeq2
        rw [hlmval] at hidxeq
        rw [hidxeq] at hgt
        simp at hgt
      refine ⟨by omega, ?_⟩
      intro j hj
      have hle : cmp (arr.getD j rightMin) (arr.getD idx rightMin) ≠ .gt := by
        have := sortedCmp_le h hs1 j idx rightMin (by omega) (by rw [htlen]; omega)
        rwa [getD_take arr sep j rightMin (by omega),
          getD_take arr sep idx rightMin (by omega)] at this
      exact h.le_of_le_of_eq hle hidxeq
    | err idx =>
      have hldval : smartMergeLeftDelimit arr sep cmp rightMin = idx := by
        unfold smartMergeLeftDelimit
        rw [hbs]
      rw [hldval]
      rw [hbs] at hpost
      obtain ⟨hidxlen, hlo, hhi⟩ := hpost
      rw [htlen] at hidxlen hhi
      have hidxtop : idx ≠ sep := by
        intro hidxeq2
        have := hlo (sep - 1) (by omega)
        rw [getD_take arr sep (sep - 1) rightMin (by omega), hlmval] at this
        rw [hgt] at this
        exact absurd this (by decide)
      refine ⟨by omega, ?_⟩
      intro j hj
      have := hlo j (by omega)
      rw [getD_take arr sep j rightMin (by omega)] at this
      rw [this]
      simp
  refine ⟨hld.1, hrd.1, hrd.2.1, hrd.2.2, hld.2, ?_⟩
  unfold smartMerge
  rw [if_neg (by omega), if_neg (by push_neg; omega), hlm, hrm]
  show (if cmp leftMax rightMin ≠ Ordering.gt then arr
    else if sep = smartMergeLeftDelimit arr sep cmp rightMin ∨
        sep = smartMergeRightDelimit arr sep cmp leftMax then arr
    else List.take (smartMergeLeftDelimit arr sep cmp rightMin) arr ++
      mergeTwoAdjacentInplace
        (listSlice arr (smartMergeLeftDelimit arr sep cmp rightMin)
          (smartMergeRightDelimit arr sep cmp leftMax))
        (sep - smartMergeLeftDelimit arr sep cmp rightMin) cmp ++
      List.drop (smartMergeRightDelimit arr sep cmp leftMax) arr) = _
  rw [if_neg (by simp [hgt]), if_neg (by push_neg; exact ⟨by omega, by omega⟩)]
/-- Concrete check of the amended C8 on `[3,7,5,7,7]` with `sep = 2`:
cuts `ld = 1`, `rd = 3`, and only the interior `[7,5]` is merged. -/
theorem claim_C8_smart_merge_trims_witness :
    (([3, 7, 5, 7, 7] : List Nat)[2 - 1]? = some 7 ∧
      ([3, 7, 5, 7, 7] : List Nat)[2]? = some 5 ∧
      SortedCmp natCmp (([3, 7, 5, 7, 7] : List Nat).take 2) ∧
      SortedCmp natCmp (([3, 7, 5, 7, 7] : List Nat).drop 2) ∧
      natCmp 7 5 = .gt) ∧
    (smartMergeLeftDelimit [3, 7, 5, 7, 7] 2 natCmp 5 < 2 ∧
      2 < smartMergeRightDelimit [3, 7, 5, 7, 7] 2 natCmp 7 ∧
      smartMergeRightDelimit [3, 7, 5, 7, 7] 2 natCmp 7 ≤
        ([3, 7, 5, 7, 7] : List Nat).length ∧
      (∀ j, smartMergeRightDelimit [3, 7, 5, 7, 7] 2 natCmp 7 ≤ j →
        j < ([3, 7, 5, 7, 7] : List Nat).length →
        natCmp (([3, 7, 5, 7, 7] : List Nat).getD j 7) 7 ≠ .lt) ∧
      (∀ j, j < smartMergeLeftDelimit [3, 7, 5, 7, 7] 2 natCmp 5 →
        natCmp (([3, 7, 5, 7, 7] : List Nat).getD j 5) 5 ≠ .gt) ∧
      smartMerge [3, 7, 5, 7, 7] 2 natCmp =
        ([3, 7, 5, 7, 7] : List Nat).take (smartMergeLeftDelimit [3, 7, 5, 7, 7] 2 natCmp 5) ++
          mergeTwoAdjacentInplace
            (listSlice [3, 7, 5, 7, 7] (smartMergeLeftDelimit [3, 7, 5, 7, 7] 2 natCmp 5)
              (smartMergeRightDelimit [3, 7, 5, 7, 7] 2 natCmp 7))
            (2 - smartMergeLeftDelimit [3, 7, 5, 7, 7] 2 natCmp 5) natCmp ++
          ([3, 7, 5, 7, 7] : List Nat).drop (smartMergeRightDelimit [3, 7, 5, 7, 7] 2 natCmp 7)) :=
  ⟨⟨by decide, by decide, by decide, by decide, by decide⟩,
    claim_C8_smart_merge_trims natCmp natCmp_total [3, 7, 5, 7, 7] 2 7 5
      (by decide) (by decide) (by decide) (by decide) (by decide) (by decide)
      (by decide) (by decide)⟩
/-! ## MyMinHeap (src/src/data_structure/binary_heap.rs)

The heap's `Vec<T>` is a `List β`; `d` is the `getD` default used for the
(always in-range) index accesses. The fuel of each sift loop bounds its
iteration count; callers pass the heap size, which always suffices because
`sift_down` strictly increases and `sift_up` strictly decreases the cursor. -/

def siftDownLoop {β : Type _} (hcmp : β → β → Ordering) (d : β) :
    Nat → List β → Nat → List β
  | 0, data, _curr => data
  | fuel + 1, data, curr =>
    let lc := 2 * curr + 1
    let rc := 2 * curr + 2
    let m1 := if lc < data.length ∧ hcmp (data.getD lc d) (data.getD curr d) = .lt
      then lc else curr
    let m2 := if rc < data.length ∧ hcmp (data.getD rc d) (data.getD m1 d) = .lt
      then rc else m1
    if m2 = curr then data
    else siftDownLoop hcmp d fuel (listSwap data curr m2) m2

def siftDown {β : Type _} (hcmp : β → β → Ordering) (d : β) (data : List β)
    (index : Nat) : List β :=
  siftDownLoop hcmp d data.length data index

def siftUpLoop {β : Type _} (hcmp : β → β → Ordering) (d : β) :
    Nat → List β → Nat → List β
  | 0, data, _curr => data
  | fuel + 1, data, curr =>
    if curr = 0 then data
    else
      let p := (curr - 1) / 2
      if hcmp (data.getD p d) (data.getD curr d) = .gt then
        siftUpLoop hcmp d fuel (listSwap data p curr) p
      else data

def heapInsert {β : Type _} (hcmp : β → β → Ordering) (d : β) (data : List β)
    (value : β) : List β :=
  siftUpLoop hcmp d (data.length + 1) (data ++ [value]) data.length

/-- `take_min`: `swap_remove(0)` moves the last element into slot 0, then the
root is sifted down. Returns the removed minimum and the new heap. -/
def heapTakeMin {β : Type _} (hcmp : β → β → Ordering) (d : β)
    (data : List β) : Option β × List β :=
  match data with
  | [] => (none, [])
  | [x] => (some x, [])
  | x :: y :: t =>
    (some x, siftDown hcmp d ((y :: t).getLast (by simp) :: (y :: t).dropLast) 0)

/-! ## merge_multiple_sorted_sequences_smart
(src/src/merge_sort/merge.rs lines 111-178)

Heap entries model `MinHeapElement { element, arr_index }` as `α × Nat`; the
heap comparator compares elements and breaks ties by source index ascending,
making the merge stable. The emitted element stream (the successive
`result_consumer` arguments, whose output index ticks up by one each call) is
returned as a list. -/

def heapCmp {α : Type _} (cmp : α → α → Ordering) (e1 e2 : α × Nat) : Ordering :=
  (cmp e1.1 e2.1).then (natCmp e1.2 e2.2)

def kWayInitLoop {α : Type _} (cmp : α → α → Ordering) (d : α) :
    List (List α) → Nat → List (α × Nat) → List Nat →
      List (α × Nat) × List Nat
  | [], _i, heap, indices => (heap, indices)
  | arr :: rest, i, heap, indices =>
    match arr with
    | [] => kWayInitLoop cmp d rest (i + 1) heap indices
    | a :: _ =>
      kWayInitLoop cmp d rest (i + 1) (heapInsert (heapCmp cmp) (d, 0) heap (a, i))
        (indices.set i 1)

def kWayLoop {α : Type _} (cmp : α → α → Ordering) (d : α)
    (arrs : List (List α)) : Nat → List (α × Nat) → List Nat → List α
  | 0, _heap, _indices => []
  | fuel + 1, heap, indices =>
    match heapTakeMin (heapCmp cmp) (d, 0) heap with
    | (none, _) => []
    | (some (elem, arrIndex), heap2) =>
      let nextIndex := indices.getD arrIndex 0
      if nextIndex < (arrs.getD arrIndex []).length then
        elem :: kWayLoop cmp d arrs fuel
          (heapInsert (heapCmp cmp) (d, 0) heap2
            ((arrs.getD arrIndex []).getD nextIndex d, arrIndex))
          (indices.set arrIndex (nextIndex + 1))
      else
        elem :: kWayLoop cmp d arrs fuel heap2 indices

def mergeMultipleSortedSmart {α : Type _} (arrs : List (List α))
    (cmp : α → α → Ordering) (d : α) : List α :=
  let init := kWayInitLoop cmp d arrs 0 [] (List.replicate arrs.length 0)
  kWayLoop cmp d arrs ((arrs.map List.length).sum + 1) init.1 init.2

/-! ## RangePartition arithmetic and the concurrent merge sort
(src/src/merge_sort/concurrent_merge_sort.rs lines 9-316,
src/src/merge_sort/simple_merge_sort.rs lines 33-52) -/

def evenlyPartitionGo (partLen : Nat) : Nat → Nat → List Nat
  | 0, _start => []
  | n + 1, start => start :: evenlyPartitionGo partLen n (start + partLen)

def evenlyPartition (rstart rend P : Nat) : List Nat :=
  evenlyPartitionGo ((rend - rstart) / P) P rstart ++ [rend]

def partStart (endpoints : List Nat) (i : Nat) : Nat := endpoints.getD i 0

def partEnd (endpoints : List Nat) (i : Nat) : Nat := endpoints.getD (i + 1) 0

def simpleMergeSortInplace {α : Type _} (arr : List α)
    (cmp : α → α → Ordering) : List α :=
  if h : arr.length ≤ 1 then arr
  else
    smartMerge
      (simpleMergeSortInplace (arr.take (arr.length / 2)) cmp ++
        simpleMergeSortInplace (arr.drop (arr.length / 2)) cmp)
      (arr.length / 2) cmp
termination_by arr.length
decreasing_by
  · rw [List.length_take]; omega
  · rw [List.length_drop]; omega

/-- Phases 2-5 of `concurrent_merge_sort`, after the per-part sequential
sorts produced `arr1`. Byte-for-byte copies into per-worker buffers laid out
at consecutive offsets, followed by merges written to consecutive disjoint
destination blocks, amount to list concatenation, which is how the embedding
realizes the `temp_partitions` / `result_partitions` offset arithmetic. -/
def concurrentPipeline {α : Type _} (arr : List α) (cmp : α → α → Ordering)
    (P : Nat) (d : α) : List α :=
  let outer := evenlyPartition 0 arr.length P
  let arr1 := List.flatten ((List.range P).map (fun i =>
    simpleMergeSortInplace (listSlice arr (partStart outer i) (partEnd outer i)) cmp))
  let firstPart := listSlice arr1 0 (partEnd outer 0)
  let fpp := evenlyPartition 0 firstPart.length P
  let pivots := (List.range (P - 1)).map (fun i => firstPart.getD (fpp.getD (i + 1) 0) d)
  let subPartitions := (List.range P).map (fun i =>
    if i = 0 then fpp
    else findPartitionByPivots arr1 (partStart outer i) (partEnd outer i) cmp pivots)
  List.flatten ((List.range P).map (fun k =>
    mergeMultipleSortedSmart
      ((List.range P).map (fun i =>
        listSlice arr1 (partStart (subPartitions.getD i []) k)
          (partEnd (subPartitions.getD i []) k)))
      cmp d))

def concurrentMergeSort {α : Type _} (arr : List α) (cmp : α → α → Ordering)
    (parallelism : Nat) : List α :=
  if arr.length ≤ 1 then arr
  else if parallelism = 1 ∨ arr.length ≤ parallelism * 200 then
    simpleMergeSortInplace arr cmp
  else
    match arr with
    | [] => arr
    | a :: _ => concurrentPipeline arr cmp parallelism a

theorem simpleMergeSortInplace_short {α : Type _} (arr : List α)
    (cmp : α → α → Ordering) (hlen : arr.length ≤ 1) :
    simpleMergeSortInplace arr cmp = arr := by
  unfold simpleMergeSortInplace
  rw [dif_pos hlen]

/-- C7: whenever `P == 1` or `n ≤ 200·P`, the concurrent merge sort produces
exactly the same final array as the sequential `simple_merge_sort_inplace`
with the same comparator (it delegates and returns, and for `n ≤ 1` both
leave the array untouched). -/
theorem claim_C7_threshold_delegates {α : Type _} (cmp : α → α → Ordering)
    (arr : List α) (P : Nat) (hP : 0 < P)
    (hcond : P = 1 ∨ arr.length ≤ 200 * P) :
    concurrentMergeSort arr cmp P = simpleMergeSortInplace arr cmp := by
  unfold concurrentMergeSort
  by_cases hlen : arr.length ≤ 1
  · rw [if_pos hlen, simpleMergeSortInplace_short arr cmp hlen]
  · rw [if_neg hlen, if_pos (by omega)]

/-- Concrete check of C7 with `P = 1` on `[3,1,2]`. -/
theorem claim_C7_threshold_delegates_witness :
    (0 < 1 ∧ (1 = 1 ∨ ([3, 1, 2] : List Nat).length ≤ 200 * 1)) ∧
    concurrentMergeSort [3, 1, 2] natCmp 1 = simpleMergeSortInplace [3, 1, 2] natCmp :=
  ⟨⟨by decide, Or.inl rfl⟩,
    claim_C7_threshold_delegates natCmp [3, 1, 2] 1 (by decide) (Or.inl rfl)⟩
/-! ## Lazy fixed-point evaluator (src/src/functional/lazy_eval.rs)

A `FuncHavingFixedPointMut` body is an arbitrary computation that may invoke
the supplied `recursion` callable any number of times, each later call
depending on earlier results. `RecCall` embeds such a body as a finite
interaction tree: `ret` is the body returning, `call arg cont` is one
`recursion(&arg)` invocation with the rest of the body as `cont`.

`simpleEval` embeds `SimpleFixedPointApplyFunc::eval` (lines 193-196), which
re-enters itself directly; its `fuel` is the recursion depth, so "the naive
evaluator terminates on `x`" becomes `simpleEval F n x = some y` for some
`n`. `memoEval` embeds `LazyEvalFixedPointApplyFunc::eval` (lines 244-255):
consult the cache, otherwise run the body (threading the cache through the
nested calls) and `put` the result. The `Cache` trait with its `get`/`put`
contract is represented extensionally as `I → Option O`; `memoEval` also
logs each input on which the body itself is invoked. -/

inductive RecCall (Input Output : Type _) where
  | ret (out : Output)
  | call (arg : Input) (cont : Output → RecCall Input Output)

def interpWith {I O : Type _} (ev : I → Option O) : RecCall I O → Option O
  | .ret out => some out
  | .call arg cont =>
    match ev arg with
    | none => none
    | some v => interpWith ev (cont v)

def simpleEval {I O : Type _} (F : I → RecCall I O) : Nat → I → Option O
  | 0, _x => none
  | fuel + 1, x => interpWith (simpleEval F fuel) (F x)

def interpM {I O : Type _}
    (ev : (I → Option O) → I → Option (O × (I → Option O) × List I)) :
    (I → Option O) → RecCall I O → Option (O × (I → Option O) × List I)
  | c, .ret out => some (out, c, [])
  | c, .call arg cont =>
    match ev c arg with
    | none => none
    | some (v, c2, inv1) =>
      match interpM ev c2 (cont v) with
      | none => none
      | some (out, c3, inv2) => some (out, c3, inv1 ++ inv2)

def memoEval {I O : Type _} [DecidableEq I] (F : I → RecCall I O) :
    Nat → (I → Option O) → I → Option (O × (I → Option O) × List I)
  | 0, _c, _x => none
  | fuel + 1, c, x =>
    match c x with
    | some v => some (v, c, [])
    | none =>
      match interpM (memoEval F fuel) c (F x) with
      | none => none
      | some (v, c2, inv) =>
        some (v, fun j => if j = x then some v else c2 j, x :: inv)

/-- Every cache entry records a value the naive evaluator produces. -/
def CacheOK {I O : Type _} (F : I → RecCall I O) (c : I → Option O) : Prop :=
  ∀ k v, c k = some v → ∃ m, simpleEval F m k = some v

theorem interpWith_mono {I O : Type _} {ev ev2 : I → Option O}
    (hle : ∀ a r, ev a = some r → ev2 a = some r) :
    ∀ (t : RecCall I O) (out : O),
      interpWith ev t = some out → interpWith ev2 t = some out := by
  intro t
  induction t with
  | ret o =>
    intro out hrun
    simpa [interpWith] using hrun
  | call arg cont ih =>
    intro out hrun
    simp only [interpWith] at hrun ⊢
    cases hev : ev arg with
    | none => rw [hev] at hrun; simp at hrun
    | some v =>
      rw [hev] at hrun
      rw [hle arg v hev]
      exact ih v out hrun

theorem simpleEval_mono {I O : Type _} (F : I → RecCall I O) :
    ∀ (n : Nat) (x : I) (y : O),
      simpleEval F n x = some y → simpleEval F (n + 1) x = some y := by
  intro n
  induction n with
  | zero =>
    intro x y hrun
    simp [simpleEval] at hrun
  | succ n ih =>
    intro x y hrun
    simp only [simpleEval] at hrun ⊢
    exact interpWith_mono (fun a r ha => ih a r ha) (F x) y hrun

theorem simpleEval_mono_le {I O : Type _} (F : I → RecCall I O) {m m2 : Nat}
    (hle : m ≤ m2) : ∀ (x : I) (y : O),
      simpleEval F m x = some y → simpleEval F m2 x = some y := by
  induction hle with
  | refl => intro x y hr; exact hr
  | step h2 ih =>
    intro x y hr
    exact simpleEval_mono F _ x y (ih x y hr)

theorem simpleEval_det {I O : Type _} (F : I → RecCall I O) {m m2 : Nat}
    {x : I} {a b : O} (ha : simpleEval F m x = some a)
    (hb : simpleEval F m2 x = some b) : a = b := by
  rcases Nat.le_total m m2 with hle | hle
  · have := simpleEval_mono_le F hle x a ha
    rw [this] at hb
    exact Option.some.inj hb
  · have := simpleEval_mono_le F hle x b hb
    rw [this] at ha
    exact (Option.some.inj ha).symm

/-- The inductive invariant of the memoizing evaluator at naive fuel `n`:
with any sound cache it returns the naive result, keeps the cache sound and
monotone, caches `x`, invokes the body at most once per distinct input, only
on inputs that were not yet cached, and only on inputs on which the naive
evaluator terminates within fuel `n`. -/
def MemoGood {I O : Type _} [DecidableEq I] (F : I → RecCall I O) (n : Nat) :
    Prop :=
  ∀ (x : I) (y : O) (c : I → Option O),
    simpleEval F n x = some y → (∀ m, m < n → simpleEval F m x = none) →
    CacheOK F c →
    ∃ (c2 : I → Option O) (inv : List I),
      (∀ mf, n ≤ mf → memoEval F mf c x = some (y, c2, inv)) ∧
      CacheOK F c2 ∧ (∀ k v, c k = some v → c2 k = some v) ∧ c2 x = some y ∧
      inv.Nodup ∧ (∀ k, k ∈ inv → c k = none ∧ c2 k ≠ none) ∧
      (∀ k, k ∈ inv → ∃ m, m ≤ n ∧ (simpleEval F m k).isSome)
theorem interpM_good {I O : Type _} [DecidableEq I] (F : I → RecCall I O)
    (np : Nat) (hIH : ∀ m, m ≤ np → MemoGood F m) :
    ∀ (t : RecCall I O) (c : I → Option O) (out : O), CacheOK F c →
      interpWith (simpleEval F np) t = some out →
      ∃ (c2 : I → Option O) (inv : List I),
        (∀ mf, np ≤ mf → interpM (memoEval F mf) c t = some (out, c2, inv)) ∧
        CacheOK F c2 ∧ (∀ k v, c k = some v → c2 k = some v) ∧
        inv.Nodup ∧ (∀ k, k ∈ inv → c k = none ∧ c2 k ≠ none) ∧
        (∀ k, k ∈ inv → ∃ m, m ≤ np ∧ (simpleEval F m k).isSome) := by
  intro t
  induction t with
  | ret o =>
    intro c out hok hrun
    have ho : o = out := by simpa [interpWith] using hrun
    subst ho
    refine ⟨c, [], ?_, hok, fun k v hv => hv, List.nodup_nil, ?_, ?_⟩
    · intro mf _hmf
      simp only [interpM]
    · intro k hk; simp at hk
    · intro k hk; simp at hk
  | call arg cont ih =>
    intro c out hok hrun
    simp only [interpWith] at hrun
    cases hev : simpleEval F np arg with
    | none => rw [hev] at hrun; simp at hrun
    | some v =>
      rw [hev] at hrun
      have hex : ∃ m, (simpleEval F m arg).isSome := ⟨np, by rw [hev]; rfl⟩
      have hm0some : (simpleEval F (Nat.find hex) arg).isSome := Nat.find_spec hex
      have hm0min : ∀ m, m < Nat.find hex → simpleEval F m arg = none := by
        intro m hm
        have hnm := Nat.find_min hex hm
        cases hsm : simpleEval F m arg with
        | none => rfl
        | some w => rw [hsm] at hnm; simp at hnm
      have hm0le : Nat.find hex ≤ np := Nat.find_min' hex (by rw [hev]; rfl)
      obtain ⟨v0, hv0⟩ := Option.isSome_iff_exists.mp hm0some
      have hveq : v0 = v := simpleEval_det F hv0 hev
      rw [hveq] at hv0
      obtain ⟨cA, invA, hrunA, hokA, hsubA, hcxA, hndA, hnewA, hfuelA⟩ :=
        hIH (Nat.find hex) hm0le arg v c hv0 hm0min hok
      obtain ⟨cB, invB, hrunB, hokB, hsubB, hndB, hnewB, hfuelB⟩ :=
        ih v cA out hokA hrun
      refine ⟨cB, invA ++ invB, ?_, hokB, ?_, ?_, ?_, ?_⟩
      · intro mf hmf
        simp only [interpM, hrunA mf (Nat.le_trans hm0le hmf), hrunB mf hmf]
      · intro k v2 hkv
        exact hsubB k v2 (hsubA k v2 hkv)
      · rw [List.nodup_append]
        refine ⟨hndA, hndB, ?_⟩
        intro a haA haB
        have h1 := (hnewA a haA).2
        have h2 := (hnewB a haB).1
        exact h1 h2
      · intro k hk
        rcases List.mem_append.mp hk with hkA | hkB
        · refine ⟨(hnewA k hkA).1, ?_⟩
          have h1 := (hnewA k hkA).2
          cases hca : cA k with
          | none => exact absurd hca h1
          | some w =>
            have := hsubB k w hca
            rw [this]
            simp
        · refine ⟨?_, (hnewB k hkB).2⟩
          have h2 := (hnewB k hkB).1
          cases hck : c k with
          | none => rfl
          | some w =>
            have := hsubA k w hck
            rw [this] at h2
            simp at h2
      · intro k hk
        rcases List.mem_append.mp hk with hkA | hkB
        · obtain ⟨m, hm1, hm2⟩ := hfuelA k hkA
          exact ⟨m, by omega, hm2⟩
        · exact hfuelB k hkB

theorem memoGood_all {I O : Type _} [DecidableEq I] (F : I → RecCall I O) :
    ∀ n, MemoGood F n := by
  intro n
  induction n using Nat.strong_induction_on with
  | _ n ihs =>
    intro x y c hrun hmin hok
    cases n with
    | zero => simp [simpleEval] at hrun
    | succ np =>
      have hrun0 : simpleEval F (np + 1) x = some y := hrun
      cases hcx : c x with
      | some v =>
        have hy : v = y := by
          obtain ⟨m, hm⟩ := hok x v hcx
          exact simpleEval_det F hm hrun
        subst hy
        refine ⟨c, [], ?_, hok, fun k v hv => hv, hcx, List.nodup_nil, ?_, ?_⟩
        · intro mf hmf
          obtain ⟨mf2, rfl⟩ : ∃ k, mf = k + 1 := ⟨mf - 1, by omega⟩
          simp only [memoEval, hcx]
        · intro k hk; simp at hk
        · intro k hk; simp at hk
      | none =>
        have hIH : ∀ m, m ≤ np → MemoGood F m := fun m hm => ihs m (by omega)
        simp only [simpleEval] at hrun
        obtain ⟨c2, inv, hrunI, hokI, hsubI, hndI, hnewI, hfuelI⟩ :=
          interpM_good F np hIH (F x) c y hok hrun
        refine ⟨fun j => if j = x then some y else c2 j, x :: inv,
          ?_, ?_, ?_, ?_, ?_, ?_, ?_⟩
        · intro mf hmf
          obtain ⟨mf2, rfl⟩ : ∃ k, mf = k + 1 := ⟨mf - 1, by omega⟩
          simp only [memoEval, hcx]
          rw [hrunI mf2 (by omega)]
        · intro k v hkv
          by_cases hkx : k = x
          · subst hkx
            simp only [if_pos rfl] at hkv
            refine ⟨np + 1, ?_⟩
            rw [hrun0]
            exact hkv
          · simp only [if_neg hkx] at hkv
            exact hokI k v hkv
        · intro k v hkv
          have hkx : k ≠ x := by
            intro he
            rw [he, hcx] at hkv
            simp at hkv
          simp only [if_neg hkx]
          exact hsubI k v hkv
        · simp
        · rw [List.nodup_cons]
          refine ⟨?_, hndI⟩
          intro hxin
          obtain ⟨m, hm1, hm2⟩ := hfuelI x hxin
          rw [hmin m (by omega)] at hm2
          simp at hm2
        · intro k hk
          rcases List.mem_cons.mp hk with rfl | hk2
          · refine ⟨hcx, ?_⟩
            simp
          · refine ⟨(hnewI k hk2).1, ?_⟩
            by_cases hkx : k = x
            · subst hkx; simp
            · simp only [if_neg hkx]
              exact (hnewI k hk2).2
        · intro k hk
          rcases List.mem_cons.mp hk with rfl | hk2
          · exact ⟨np + 1, Nat.le_refl _, by rw [hrun0]; rfl⟩
          · obtain ⟨m, hm1, hm2⟩ := hfuelI k hk2
            exact ⟨m, by omega, hm2⟩
/-- C4: for every open-form function and every input on which the naive
evaluator terminates (with some recursion-depth fuel `n`), the memoizing
evaluator started with an empty cache returns the same output, invokes the
body at most once per distinct input over the whole evaluation (`inv` is the
chronological log of body invocations), caches the result, satisfies the
fixed-point equation both for the naive evaluator (`r(x) = f(r, x)`
definitionally) and observationally for the memoizing evaluator (running the
body once more over the final cache returns the same output). -/
theorem claim_C4_lazy_fixed_point {I O : Type _} [DecidableEq I]
    (F : I → RecCall I O) (x : I) (y : O) (n : Nat)
    (hrun : simpleEval F n x = some y) :
    ∃ (c2 : I → Option O) (inv : List I),
      memoEval F n (fun _ => none) x = some (y, c2, inv) ∧
      inv.Nodup ∧
      c2 x = some y ∧
      (∃ (c3 : I → Option O) (inv2 : List I),
        interpM (memoEval F n) c2 (F x) = some (y, c3, inv2)) ∧
      simpleEval F (n + 1) x = interpWith (simpleEval F n) (F x) ∧
      simpleEval F (n + 1) x = some y := by
  have hex : ∃ m, (simpleEval F m x).isSome := ⟨n, by rw [hrun]; rfl⟩
  have hs : (simpleEval F (Nat.find hex) x).isSome := Nat.find_spec hex
  obtain ⟨y0, hy0⟩ := Option.isSome_iff_exists.mp hs
  have hy : y0 = y := simpleEval_det F hy0 hrun
  rw [hy] at hy0
  have hmin : ∀ m, m < Nat.find hex → simpleEval F m x = none := by
    intro m hm
    have hnm := Nat.find_min hex hm
    cases hsm : simpleEval F m x with
    | none => rfl
    | some w => rw [hsm] at hnm; simp at hnm
  have hn0le : Nat.find hex ≤ n := Nat.find_min' hex (by rw [hrun]; rfl)
  obtain ⟨c2, inv, hrunM, hok2, hsub, hc2x, hnd, hnew, hfuel⟩ :=
    memoGood_all F (Nat.find hex) x y (fun _ => none) hy0 hmin
      (fun k v hv => by simp at hv)
  refine ⟨c2, inv, hrunM n hn0le, hnd, hc2x, ?_, rfl,
    simpleEval_mono F n x y hrun⟩
  have hn0pos : Nat.find hex ≠ 0 := by
    intro h0
    rw [h0] at hy0
    simp [simpleEval] at hy0
  obtain ⟨np, hnp⟩ : ∃ k, Nat.find hex = k + 1 := ⟨Nat.find hex - 1, by omega⟩
  rw [hnp] at hy0
  simp only [simpleEval] at hy0
  obtain ⟨c3, inv2, hrunI, _⟩ :=
    interpM_good F np (fun m _hm => memoGood_all F m) (F x) c2 y hok2 hy0
  exact ⟨c3, inv2, hrunI n (by omega)⟩

/-- The Fibonacci function in open fixed-point form, mirroring the
`FibonacciFunc` example in lazy_eval.rs. -/
def fibBody : Nat → RecCall Nat Nat
  | 0 => .ret 0
  | 1 => .ret 1
  | n + 2 => .call (n + 1) (fun a => .call n (fun b => .ret (a + b)))

/-- Concrete check of C4: memoized Fibonacci at 10 returns 55, like the
naive evaluator, with a duplicate-free body-invocation log. -/
theorem claim_C4_lazy_fixed_point_witness :
    simpleEval fibBody 11 10 = some 55 ∧
    (∃ (c2 : Nat → Option Nat) (inv : List Nat),
      memoEval fibBody 11 (fun _ => none) 10 = some (55, c2, inv) ∧
      inv.Nodup ∧
      c2 10 = some 55 ∧
      (∃ (c3 : Nat → Option Nat) (inv2 : List Nat),
        interpM (memoEval fibBody 11) c2 (fibBody 10) = some (55, c3, inv2)) ∧
      simpleEval fibBody (11 + 1) 10 = interpWith (simpleEval fibBody 11) (fibBody 10) ∧
      simpleEval fibBody (11 + 1) 10 = some 55) :=
  ⟨by decide, claim_C4_lazy_fixed_point fibBody 10 55 11 (by decide)⟩
/-! ## Lazy quick sort (src/src/quick_sort/lazy_quick_sort.rs,
src/src/quick_sort/pivot_select.rs lines 19-59)

`NodeState` embeds the partitioning tree (`PartialSortData` is inlined as the
two boundaries plus the two children). `ensureSorted` embeds
`LazyQuickSorter::ensure_sorted`; the mutable borrow of the sequence becomes
explicit array passing, and the returned `Nat` counts the fat-partition
invocations the call performs. The fuel bounds the recursion depth; the `at`
wrapper passes `len + 1`, which suffices because every recursive call
strictly shrinks the range. -/

def medianOfThreePivot {α : Type _} (arr : List α)
    (cmp : α → α → Ordering) : Nat :=
  match arr with
  | [] => 0
  | a :: rest =>
    let len := (a :: rest).length
    let i2 := len / 2
    let i3 := len - 1
    let e1 := (a :: rest).getD 0 a
    let e2 := (a :: rest).getD i2 a
    let e3 := (a :: rest).getD i3 a
    let cmp12 := cmp e1 e2
    let cmp23 := cmp e2 e3
    if cmp12.isLE && cmp23.isLE then i2
    else if cmp12.isGE && cmp23.isGE then i2
    else
      let cmp13 := cmp e1 e3
      if cmp12.isGE && cmp13.isLE then 0
      else if cmp13.isGE && cmp23.isLE then 0
      else i3

theorem medianOfThreePivot_lt {α : Type _} (arr : List α)
    (cmp : α → α → Ordering) (hne : 0 < arr.length) :
    medianOfThreePivot arr cmp < arr.length := by
  cases arr with
  | nil => simp at hne
  | cons a rest =>
    have h1 : 0 < (a :: rest).length := by simp
    simp only [medianOfThreePivot]
    split
    · simp only [List.length_cons]
      omega
    · split
      · simp only [List.length_cons]
        omega
      · split
        · exact h1
        · split
          · exact h1
          · simp only [List.length_cons]
            omega

inductive NodeState where
  | unsorted
  | partSorted (partitionLeft partitionRight : Nat)
      (leftChild rightChild : NodeState)
  | fullySorted
deriving DecidableEq

def ensureSorted {α : Type _} (cmp : α → α → Ordering) (d : α) :
    Nat → NodeState → Nat → Nat → Nat → List α → NodeState × List α × Nat
  | 0, node, _targetIndex, _rangeLeft, _rangeRightEx, arr => (node, arr, 0)
  | fuel + 1, node, targetIndex, rangeLeft, rangeRightEx, arr =>
    if rangeRightEx - rangeLeft = 1 then (NodeState.fullySorted, arr, 0)
    else if rangeRightEx - rangeLeft = 2 then
      match node with
      | .fullySorted => (node, arr, 0)
      | .unsorted =>
        (NodeState.fullySorted,
          if cmp (arr.getD rangeLeft d) (arr.getD (rangeLeft + 1) d) = .gt
          then listSwap arr rangeLeft (rangeLeft + 1) else arr, 0)
      | .partSorted _ _ _ _ =>
        (NodeState.fullySorted,
          if cmp (arr.getD rangeLeft d) (arr.getD (rangeLeft + 1) d) = .gt
          then listSwap arr rangeLeft (rangeLeft + 1) else arr, 0)
    else
      match node with
      | .unsorted =>
        let sub := listSlice arr rangeLeft rangeRightEx
        let res := fatPartitionNoClone sub cmp (medianOfThreePivot sub cmp)
        let arr2 := arr.take rangeLeft ++ res.1 ++ arr.drop rangeRightEx
        let partitionLeft := rangeLeft + res.2.1
        let partitionRight := rangeLeft + res.2.2
        if targetIndex < partitionLeft then
          let rec1 := ensureSorted cmp d fuel NodeState.unsorted targetIndex
            rangeLeft partitionLeft arr2
          (NodeState.partSorted partitionLeft partitionRight rec1.1
            NodeState.unsorted, rec1.2.1, rec1.2.2 + 1)
        else if partitionRight ≤ targetIndex then
          let rec1 := ensureSorted cmp d fuel NodeState.unsorted targetIndex
            partitionRight rangeRightEx arr2
          (NodeState.partSorted partitionLeft partitionRight NodeState.unsorted
            rec1.1, rec1.2.1, rec1.2.2 + 1)
        else
          (NodeState.partSorted partitionLeft partitionRight NodeState.unsorted
            NodeState.unsorted, arr2, 1)
      | .partSorted pl pr lc rc =>
        if targetIndex < pl then
          let rec1 := ensureSorted cmp d fuel lc targetIndex rangeLeft pl arr
          (match rec1.1, rc with
            | .fullySorted, .fullySorted => NodeState.fullySorted
            | _, _ => NodeState.partSorted pl pr rec1.1 rc, rec1.2.1, rec1.2.2)
        else if pr ≤ targetIndex then
          let rec1 := ensureSorted cmp d fuel rc targetIndex pr rangeRightEx arr
          (match lc, rec1.1 with
            | .fullySorted, .fullySorted => NodeState.fullySorted
            | _, _ => NodeState.partSorted pl pr lc rec1.1, rec1.2.1, rec1.2.2)
        else
          (NodeState.partSorted pl pr lc rc, arr, 0)
      | .fullySorted => (node, arr, 0)

/-- `LazyQuickSorter::at(i)`: run `ensure_sorted` over the full range, then
read `arr[i]`. Returns the new state, the answered element and the number of
fat partitions performed. -/
def lazySorterAt {α : Type _} (cmp : α → α → Ordering) (d : α)
    (st : NodeState × List α) (index : Nat) :
    (NodeState × List α) × α × Nat :=
  let res := ensureSorted cmp d (st.2.length + 1) st.1 index 0 st.2.length st.2
  ((res.1, res.2.1), res.2.1.getD index d, res.2.2)

def runQueries {α : Type _} (cmp : α → α → Ordering) (d : α) :
    List Nat → NodeState × List α → NodeState × List α
  | [], st => st
  | q :: qs, st => runQueries cmp d qs (lazySorterAt cmp d st q).1
/-! ## Slice and sorted-permutation toolkit for the lazy sorter proofs -/

theorem list_eq_of_getD {α : Type _} (d : α) (l1 l2 : List α)
    (hlen : l1.length = l2.length)
    (h : ∀ j, j < l1.length → l1.getD j d = l2.getD j d) : l1 = l2 := by
  apply List.ext_getElem hlen
  intro i h1 h2
  have hi := h i h1
  rwa [getD_eq_getElem _ _ _ h1, getD_eq_getElem _ _ _ h2] at hi

theorem listSlice_full {α : Type _} (l : List α) :
    listSlice l 0 l.length = l := by
  unfold listSlice
  simp

theorem listSlice_append {α : Type _} (arr : List α) (a m b : Nat)
    (ham : a ≤ m) (_hmb : m ≤ b) :
    listSlice arr a m ++ listSlice arr m b = listSlice arr a b := by
  unfold listSlice
  have hsum : b - a = (m - a) + (b - m) := by omega
  rw [hsum, List.take_add, List.drop_drop]
  have hm : a + (m - a) = m := by omega
  rw [hm]

theorem listSlice_congr {α : Type _} (arr2 arr : List α) (a b : Nat) (d : α)
    (hlen : arr2.length = arr.length) (hb : b ≤ arr.length)
    (h : ∀ j, a ≤ j → j < b → arr2.getD j d = arr.getD j d) :
    listSlice arr2 a b = listSlice arr a b := by
  rcases Nat.lt_or_ge a b with hab | hab
  · apply list_eq_of_getD d
    · rw [listSlice_length _ _ _ (by omega), listSlice_length _ _ _ hb]
    · intro j hj
      rw [listSlice_length _ _ _ (by omega)] at hj
      rw [listSlice_getD _ _ _ _ _ (by omega) (by omega),
        listSlice_getD _ _ _ _ _ (by omega) hb]
      exact h (a + j) (by omega) (by omega)
  · unfold listSlice
    have hz : b - a = 0 := by omega
    rw [hz]
    simp

theorem splice_length {α : Type _} (arr mid : List α) (L R : Nat)
    (hLR : L ≤ R) (hR : R ≤ arr.length) (hmid : mid.length = R - L) :
    (arr.take L ++ mid ++ arr.drop R).length = arr.length := by
  simp only [List.length_append, List.length_take, List.length_drop, hmid]
  omega

theorem getD_splice_left {α : Type _} (arr mid : List α) (L R j : Nat) (d : α)
    (hLR : L ≤ R) (hR : R ≤ arr.length) (_hmid : mid.length = R - L)
    (hj : j < L) :
    (arr.take L ++ mid ++ arr.drop R).getD j d = arr.getD j d := by
  have ht : (arr.take L).length = L := by
    rw [List.length_take]; omega
  rw [getD_append_left _ _ _ _ (by rw [List.length_append, ht]; omega),
    getD_append_left _ _ _ _ (by rw [ht]; omega), getD_take _ _ _ _ hj]

theorem getD_splice_right {α : Type _} (arr mid : List α) (L R j : Nat) (d : α)
    (hLR : L ≤ R) (hR : R ≤ arr.length) (hmid : mid.length = R - L)
    (hj : R ≤ j) :
    (arr.take L ++ mid ++ arr.drop R).getD j d = arr.getD j d := by
  have ht : (arr.take L).length = L := by
    rw [List.length_take]; omega
  have hlen2 : (arr.take L ++ mid).length = R := by
    rw [List.length_append, ht, hmid]; omega
  rw [getD_append_right _ _ _ _ (by rw [hlen2]; omega), hlen2]
  rcases Nat.lt_or_ge j arr.length with hja | hja
  · rw [getD_drop _ _ _ _ (by omega)]
    have : R + (j - R) = j := by omega
    rw [this]
  · rw [List.getD_eq_default _ _ (by rw [List.length_drop]; omega),
      List.getD_eq_default _ _ hja]

theorem listSlice_splice_mid {α : Type _} (arr mid : List α) (L R : Nat)
    (hLR : L ≤ R) (hR : R ≤ arr.length) (hmid : mid.length = R - L) :
    listSlice (arr.take L ++ mid ++ arr.drop R) L R = mid := by
  have ht : (arr.take L).length = L := by
    rw [List.length_take]; omega
  unfold listSlice
  rw [List.append_assoc]
  have h1 : List.drop L (arr.take L ++ (mid ++ arr.drop R)) =
      mid ++ arr.drop R := by
    have := List.drop_left (arr.take L) (mid ++ arr.drop R)
    rwa [ht] at this
  rw [h1]
  have := List.take_left mid (arr.drop R)
  rwa [hmid] at this

theorem mergeSort_sortedCmp {α : Type _} {cmp : α → α → Ordering}
    (h : TotalCmp cmp) (l : List α) :
    SortedCmp cmp (l.mergeSort (ble cmp)) := by
  rw [sortedCmp_iff_ble]
  exact List.sorted_mergeSort (fun a b c hab hbc => ble_trans h a b c hab hbc)
    (fun a b => ble_total h a b) l

theorem sorted_perm_eq {α : Type _} {cmp : α → α → Ordering}
    (h : StrongCmp cmp) {l1 l2 : List α} (hp : List.Perm l1 l2)
    (h1 : SortedCmp cmp l1) (h2 : SortedCmp cmp l2) : l1 = l2 := by
  haveI : IsAntisymm α (fun a b => ble cmp a b = true) := by
    constructor
    intro a b hab hba
    rw [ble_iff] at hab hba
    have heq : cmp a b = .eq := by
      rcases hcase : cmp a b with _ | _ | _
      · have : cmp b a = .gt := h.toTotalCmp.lt_iff_gt.mp hcase
        exact absurd this hba
      · rfl
      · exact absurd hcase hab
    exact h.eq_eq a b heq
  exact List.eq_of_perm_of_sorted hp ((sortedCmp_iff_ble _ _).mp h1)
    ((sortedCmp_iff_ble _ _).mp h2)

theorem mergeSort_perm_eq {α : Type _} {cmp : α → α → Ordering}
    (h : StrongCmp cmp) {l l' : List α} (hp : List.Perm l l') :
    l.mergeSort (ble cmp) = l'.mergeSort (ble cmp) := by
  apply sorted_perm_eq h
  · exact ((l.mergeSort_perm (ble cmp)).trans hp).trans
      (l'.mergeSort_perm (ble cmp)).symm
  · exact mergeSort_sortedCmp h.toTotalCmp l
  · exact mergeSort_sortedCmp h.toTotalCmp l'

theorem mergeSort_of_sortedCmp {α : Type _} {cmp : α → α → Ordering}
    {l : List α} (hs : SortedCmp cmp l) : l.mergeSort (ble cmp) = l :=
  List.mergeSort_of_sorted ((sortedCmp_iff_ble _ _).mp hs)
theorem mergeSort_three_regions {α : Type _} {cmp : α → α → Ordering}
    (h : StrongCmp cmp) (s1 s2 s3 : List α)
    (h12 : ∀ x ∈ s1, ∀ y ∈ s2, cmp x y = .lt)
    (h13 : ∀ x ∈ s1, ∀ y ∈ s3, cmp x y = .lt)
    (h23 : ∀ x ∈ s2, ∀ y ∈ s3, cmp x y = .lt)
    (h22 : ∀ x ∈ s2, ∀ y ∈ s2, cmp x y = .eq) :
    (s1 ++ s2 ++ s3).mergeSort (ble cmp) =
      s1.mergeSort (ble cmp) ++ s2 ++ s3.mergeSort (ble cmp) := by
  have hperm : (s1.mergeSort (ble cmp) ++ s2 ++ s3.mergeSort (ble cmp)).Perm
      (s1 ++ s2 ++ s3) :=
    List.Perm.append
      (List.Perm.append (s1.mergeSort_perm (ble cmp)) (List.Perm.refl s2))
      (s3.mergeSort_perm (ble cmp))
  apply sorted_perm_eq h
  · exact ((s1 ++ s2 ++ s3).mergeSort_perm (ble cmp)).trans hperm.symm
  · exact mergeSort_sortedCmp h.toTotalCmp _
  · unfold SortedCmp
    rw [List.pairwise_append, List.pairwise_append]
    refine ⟨⟨mergeSort_sortedCmp h.toTotalCmp s1, ?_, ?_⟩,
      mergeSort_sortedCmp h.toTotalCmp s3, ?_⟩
    · apply List.pairwise_of_forall_mem_list
      intro x hx y hy
      exact h.toTotalCmp.ne_gt_of_eq (h22 x hx y hy)
    · intro x hx y hy
      have hx1 : x ∈ s1 := (s1.mergeSort_perm (ble cmp)).mem_iff.mp hx
      exact h.toTotalCmp.ne_gt_of_lt (h12 x hx1 y hy)
    · intro x hx y hy
      have hy3 : y ∈ s3 := (s3.mergeSort_perm (ble cmp)).mem_iff.mp hy
      rcases List.mem_append.mp hx with hx1 | hx2
      · have hx1 : x ∈ s1 := (s1.mergeSort_perm (ble cmp)).mem_iff.mp hx1
        exact h.toTotalCmp.ne_gt_of_lt (h13 x hx1 y hy3)
      · exact h.toTotalCmp.ne_gt_of_lt (h23 x hx2 y hy3)

/-- Repeating `ensure_sorted` with the same target on the state it just
produced changes nothing and performs no fat partition: the produced node
tree steers the second call down the same branches, every revisited node is
already resolved, and the run reports zero partitions. -/
theorem ensureSorted_idem {α : Type _} (cmp : α → α → Ordering) (d : α) :
    ∀ (fuel : Nat) (node : NodeState) (target L R : Nat) (arr : List α)
      (node2 : NodeState) (arr2 : List α) (c : Nat),
      ensureSorted cmp d fuel node target L R arr = (node2, arr2, c) →
      ensureSorted cmp d fuel node2 target L R arr2 = (node2, arr2, 0) := by
  intro fuel
  induction fuel with
  | zero =>
    intro node target L R arr node2 arr2 c h
    simp only [ensureSorted] at h ⊢
  | succ n ih =>
    intro node target L R arr node2 arr2 c h
    by_cases h1 : R - L = 1
    · simp only [ensureSorted, if_pos h1] at h ⊢
      cases h
      rfl
    · by_cases h2 : R - L = 2
      · cases node with
        | fullySorted =>
          simp only [ensureSorted, if_neg h1, if_pos h2] at h ⊢
          cases h
          rfl
        | unsorted =>
          simp only [ensureSorted, if_neg h1, if_pos h2] at h
          cases h
          simp only [ensureSorted, if_neg h1, if_pos h2]
        | partSorted pl pr lc rc =>
          simp only [ensureSorted, if_neg h1, if_pos h2] at h
          cases h
          simp only [ensureSorted, if_neg h1, if_pos h2]
      · cases node with
        | fullySorted =>
          simp only [ensureSorted, if_neg h1, if_neg h2] at h ⊢
          cases h
          rfl
        | unsorted =>
          simp only [ensureSorted, if_neg h1, if_neg h2] at h
          rcases hfp : fatPartitionNoClone (listSlice arr L R) cmp
            (medianOfThreePivot (listSlice arr L R) cmp) with ⟨out, l0, r0⟩
          rw [hfp] at h
          by_cases h3 : target < L + l0
          · rw [if_pos h3] at h
            rcases hrec : ensureSorted cmp d n NodeState.unsorted target L
              (L + l0) (arr.take L ++ out ++ arr.drop R) with ⟨rn, ra, rc2⟩
            rw [hrec] at h
            cases h
            have hidem := ih NodeState.unsorted target L (L + l0)
              (arr.take L ++ out ++ arr.drop R) rn ra rc2 hrec
            simp only [ensureSorted, if_neg h1, if_neg h2, if_pos h3]
            rw [hidem]
            cases rn <;> rfl
          · rw [if_neg h3] at h
            by_cases h4 : L + r0 ≤ target
            · rw [if_pos h4] at h
              rcases hrec : ensureSorted cmp d n NodeState.unsorted target
                (L + r0) R (arr.take L ++ out ++ arr.drop R) with ⟨rn, ra, rc2⟩
              rw [hrec] at h
              cases h
              have hidem := ih NodeState.unsorted target (L + r0) R
                (arr.take L ++ out ++ arr.drop R) rn ra rc2 hrec
              simp only [ensureSorted, if_neg h1, if_neg h2, if_neg h3,
                if_pos h4]
              rw [hidem]
            · rw [if_neg h4] at h
              cases h
              simp only [ensureSorted, if_neg h1, if_neg h2, if_neg h3,
                if_neg h4]
        | partSorted pl pr lc rc =>
          simp only [ensureSorted, if_neg h1, if_neg h2] at h
          by_cases h3 : target < pl
          · rw [if_pos h3] at h
            rcases hrec : ensureSorted cmp d n lc target L pl arr
              with ⟨rn, ra, rc2⟩
            rw [hrec] at h
            cases h
            have hidem := ih lc target L pl arr rn ra rc2 hrec
            cases rn <;> cases rc <;>
              simp only [ensureSorted, if_neg h1, if_neg h2, if_pos h3] <;>
              rw [hidem]
          · rw [if_neg h3] at h
            by_cases h4 : pr ≤ target
            · rw [if_pos h4] at h
              rcases hrec : ensureSorted cmp d n rc target pr R arr
                with ⟨rn, ra, rc2⟩
              rw [hrec] at h
              cases h
              have hidem := ih rc target pr R arr rn ra rc2 hrec
              cases rn <;> cases lc <;>
                simp only [ensureSorted, if_neg h1, if_neg h2, if_neg h3,
                  if_pos h4] <;>
                rw [hidem]
            · rw [if_neg h4] at h
              cases h
              simp only [ensureSorted, if_neg h1, if_neg h2, if_neg h3,
                if_neg h4]
theorem listSlice_sub {α : Type _} (arr : List α) (L a b R : Nat)
    (hLa : L ≤ a) (hbR : b ≤ R) :
    listSlice arr a b = ((listSlice arr L R).drop (a - L)).take (b - a) := by
  rw [listSlice_drop]
  have hL : L + (a - L) = a := by omega
  rw [hL]
  unfold listSlice
  rw [List.take_take]
  congr 1
  omega

theorem getD_mem_slice {α : Type _} (arr : List α) (a b i : Nat) (d : α)
    (ha : a ≤ i) (hb : i < b) (hlen : b ≤ arr.length) :
    arr.getD i d ∈ listSlice arr a b := by
  have hg := listSlice_getD arr a b (i - a) d (by omega) hlen
  rw [show a + (i - a) = i by omega] at hg
  rw [← hg, getD_eq_getElem _ _ _ (by rw [listSlice_length _ _ _ hlen]; omega)]
  exact List.getElem_mem _

theorem slice_mem_getD {α : Type _} {arr : List α} {a b : Nat} {x : α} (d : α)
    (hlen : b ≤ arr.length) (hx : x ∈ listSlice arr a b) :
    ∃ i, a ≤ i ∧ i < b ∧ arr.getD i d = x := by
  obtain ⟨i, hi, heq⟩ := List.getElem_of_mem hx
  have hsl := listSlice_length arr a b hlen
  rw [hsl] at hi
  refine ⟨a + i, by omega, by omega, ?_⟩
  rw [← listSlice_getD arr a b i d (by omega) hlen,
    getD_eq_getElem _ _ _ (by rw [hsl]; omega), heq]

theorem sorted_slice_val {α : Type _} {cmp : α → α → Ordering}
    {arr : List α} {L R target : Nat} (d : α)
    (hs : SortedCmp cmp (listSlice arr L R)) (hR : R ≤ arr.length)
    (hL : L ≤ target) (ht : target < R) :
    ((listSlice arr L R).mergeSort (ble cmp)).getD (target - L) d =
      arr.getD target d := by
  rw [mergeSort_of_sortedCmp hs]
  have hg := listSlice_getD arr L R (target - L) d (by omega) hR
  rw [show L + (target - L) = target by omega] at hg
  exact hg

theorem sortedCmp_three {α : Type _} {cmp : α → α → Ordering}
    (h : TotalCmp cmp) (s1 s2 s3 : List α)
    (hs1 : SortedCmp cmp s1) (hs3 : SortedCmp cmp s3)
    (h12 : ∀ x ∈ s1, ∀ y ∈ s2, cmp x y = .lt)
    (h22 : ∀ x ∈ s2, ∀ y ∈ s2, cmp x y = .eq)
    (h23 : ∀ x ∈ s2, ∀ y ∈ s3, cmp x y = .lt)
    (hne : s2 ≠ []) : SortedCmp cmp (s1 ++ s2 ++ s3) := by
  obtain ⟨z, t, hz2⟩ : ∃ z t, s2 = z :: t := by
    cases s2 with
    | nil => exact absurd rfl hne
    | cons z t => exact ⟨z, t, rfl⟩
  have hz : z ∈ s2 := by
    rw [hz2]
    exact List.mem_cons_self z t
  unfold SortedCmp
  rw [List.pairwise_append, List.pairwise_append]
  refine ⟨⟨hs1, ?_, ?_⟩, hs3, ?_⟩
  · apply List.pairwise_of_forall_mem_list
    intro x hx y hy
    exact h.ne_gt_of_eq (h22 x hx y hy)
  · intro x hx y hy
    exact h.ne_gt_of_lt (h12 x hx y hy)
  · intro x hx y hy
    rcases List.mem_append.mp hx with hx1 | hx2
    · exact h.ne_gt_of_lt (h.lt_trans (h12 x hx1 z hz) (h23 z hz y hy))
    · exact h.ne_gt_of_lt (h23 x hx2 y hy)

/-- Well-formedness of a node over its range `[L, R)` of `arr`: a partially
sorted node records a strict three-region partition of its range (membership
form, stable under permutations inside the regions), and a fully sorted node
covers a sorted range. -/
def NodeWF {α : Type _} (cmp : α → α → Ordering) (arr : List α) :
    NodeState → Nat → Nat → Prop
  | .unsorted, _L, _R => True
  | .fullySorted, L, R => SortedCmp cmp (listSlice arr L R)
  | .partSorted pl pr lc rc, L, R =>
      L ≤ pl ∧ pl < pr ∧ pr ≤ R ∧
      (∀ x ∈ listSlice arr L pl, ∀ y ∈ listSlice arr pl pr, cmp x y = .lt) ∧
      (∀ x ∈ listSlice arr pl pr, ∀ y ∈ listSlice arr pl pr, cmp x y = .eq) ∧
      (∀ x ∈ listSlice arr pl pr, ∀ y ∈ listSlice arr pr R, cmp x y = .lt) ∧
      NodeWF cmp arr lc L pl ∧ NodeWF cmp arr rc pr R

theorem nodeWF_congr {α : Type _} (cmp : α → α → Ordering)
    (arr2 arr : List α) :
    ∀ (node : NodeState) (L R : Nat),
      listSlice arr2 L R = listSlice arr L R →
      NodeWF cmp arr node L R → NodeWF cmp arr2 node L R := by
  intro node
  induction node with
  | unsorted => intro L R _ _; trivial
  | fullySorted =>
    intro L R hsl hwf
    simp only [NodeWF] at hwf ⊢
    rw [hsl]
    exact hwf
  | partSorted pl pr lc rc ihl ihr =>
    intro L R hsl hwf
    obtain ⟨h1, h2, h3, h4, h5, h6, h7, h8⟩ := hwf
    have e1 : listSlice arr2 L pl = listSlice arr L pl := by
      rw [listSlice_sub arr2 L L pl R (Nat.le_refl L) (by omega),
        listSlice_sub arr L L pl R (Nat.le_refl L) (by omega), hsl]
    have e2 : listSlice arr2 pl pr = listSlice arr pl pr := by
      rw [listSlice_sub arr2 L pl pr R h1 h3,
        listSlice_sub arr L pl pr R h1 h3, hsl]
    have e3 : listSlice arr2 pr R = listSlice arr pr R := by
      rw [listSlice_sub arr2 L pr R R (by omega) (Nat.le_refl R),
        listSlice_sub arr L pr R R (by omega) (Nat.le_refl R), hsl]
    exact ⟨h1, h2, h3, by rw [e1, e2]; exact h4, by rw [e2]; exact h5,
      by rw [e2, e3]; exact h6, ihl L pl e1 h7, ihr pr R e3 h8⟩
theorem slice_of_slice {α : Type _} (arr : List α) (L R a b : Nat)
    (hLa : L ≤ a) (hab : a ≤ b) (hbR : b ≤ R) :
    listSlice arr a b = listSlice (listSlice arr L R) (a - L) (b - L) := by
  rw [listSlice_sub arr L a b R hLa hbR]
  unfold listSlice
  congr 1
  omega

/-- Consequences of one fat-partition step inside `ensure_sorted`: the
spliced array keeps its length, is untouched outside `[L, R)`, permutes the
range, and its three sub-slices at the returned boundaries compare
Less / Equal / Greater across regions. -/
structure FatStep {α : Type _} (cmp : α → α → Ordering)
    (arr arr2 : List α) (L R pL pR : Nat) : Prop where
  len : arr2.length = arr.length
  frame : ∀ (d : α) (j : Nat), j < L ∨ R ≤ j → arr2.getD j d = arr.getD j d
  slice : List.Perm (listSlice arr2 L R) (listSlice arr L R)
  hLp : L ≤ pL
  hpp : pL < pR
  hpR : pR ≤ R
  c12 : ∀ x ∈ listSlice arr2 L pL, ∀ y ∈ listSlice arr2 pL pR, cmp x y = .lt
  c22 : ∀ x ∈ listSlice arr2 pL pR, ∀ y ∈ listSlice arr2 pL pR, cmp x y = .eq
  c23 : ∀ x ∈ listSlice arr2 pL pR, ∀ y ∈ listSlice arr2 pR R, cmp x y = .lt
  c13 : ∀ x ∈ listSlice arr2 L pL, ∀ y ∈ listSlice arr2 pR R, cmp x y = .lt

theorem fat_step {α : Type _} {cmp : α → α → Ordering} (h : TotalCmp cmp)
    (arr : List α) (L R : Nat) (hLR : L < R) (hR : R ≤ arr.length)
    (out : List α) (l0 r0 : Nat)
    (hfp : fatPartitionNoClone (listSlice arr L R) cmp
      (medianOfThreePivot (listSlice arr L R) cmp) = (out, l0, r0)) :
    FatStep cmp arr (arr.take L ++ out ++ arr.drop R) L R (L + l0) (L + r0) := by
  have hsublen : (listSlice arr L R).length = R - L :=
    listSlice_length arr L R hR
  have hpiv : medianOfThreePivot (listSlice arr L R) cmp <
      (listSlice arr L R).length :=
    medianOfThreePivot_lt _ _ (by omega)
  rw [fatPartitionNoClone_eq h _ _ hpiv] at hfp
  have hpv : (listSlice arr L R)[medianOfThreePivot (listSlice arr L R) cmp]? =
      some ((listSlice arr L R)[medianOfThreePivot (listSlice arr L R) cmp]) :=
    List.getElem?_eq_getElem hpiv
  obtain ⟨⟨hperm, hlr, hrlen, hsmall, hmid, hbig⟩, hltr⟩ :=
    fatPartition_spec h _ _ _ _ _ _ hpv hfp
  set pv := (listSlice arr L R)[medianOfThreePivot (listSlice arr L R) cmp]
    with hpvdef
  have houtlen : out.length = R - L := by
    rw [hperm.length_eq, hsublen]
  have hmidsl : listSlice (arr.take L ++ out ++ arr.drop R) L R = out :=
    listSlice_splice_mid arr out L R (by omega) hR (by rw [houtlen])
  have hlen2 : (arr.take L ++ out ++ arr.drop R).length = arr.length :=
    splice_length arr out L R (by omega) hR (by rw [houtlen])
  have hs1 : listSlice (arr.take L ++ out ++ arr.drop R) L (L + l0) =
      listSlice out 0 l0 := by
    rw [slice_of_slice _ L R L (L + l0) (Nat.le_refl L) (by omega)
      (by omega), hmidsl]
    congr 1 <;> omega
  have hs2 : listSlice (arr.take L ++ out ++ arr.drop R) (L + l0) (L + r0) =
      listSlice out l0 r0 := by
    rw [slice_of_slice _ L R (L + l0) (L + r0) (by omega) (by omega)
      (by omega), hmidsl]
    congr 1 <;> omega
  have hs3 : listSlice (arr.take L ++ out ++ arr.drop R) (L + r0) R =
      listSlice out r0 out.length := by
    rw [slice_of_slice _ L R (L + r0) R (by omega) (by omega)
      (Nat.le_refl R), hmidsl]
    congr 1 <;> omega
  have hm1 : ∀ x ∈ listSlice out 0 l0, cmp x pv = .lt := by
    intro x hx
    obtain ⟨i, _, hi2, hieq⟩ := slice_mem_getD pv (by omega) hx
    rw [← hieq]
    exact hsmall i hi2
  have hm2 : ∀ x ∈ listSlice out l0 r0, cmp x pv = .eq := by
    intro x hx
    obtain ⟨i, hi1, hi2, hieq⟩ := slice_mem_getD pv (by omega) hx
    rw [← hieq]
    exact hmid i hi1 hi2
  have hm3 : ∀ x ∈ listSlice out r0 out.length, cmp x pv = .gt := by
    intro x hx
    obtain ⟨i, hi1, hi2, hieq⟩ := slice_mem_getD pv (Nat.le_refl _) hx
    rw [← hieq]
    exact hbig i hi1 hi2
  refine ⟨hlen2, ?_, ?_, by omega, by omega, by omega, ?_, ?_, ?_, ?_⟩
  · intro d j hj
    rcases hj with hj | hj
    · exact getD_splice_left arr out L R j d (by omega) hR (by rw [houtlen]) hj
    · exact getD_splice_right arr out L R j d (by omega) hR (by rw [houtlen]) hj
  · rw [hmidsl]
    exact hperm
  · intro x hx y hy
    rw [hs1] at hx
    rw [hs2] at hy
    exact h.lt_of_lt_of_eq (hm1 x hx) (h.eq_symm (hm2 y hy))
  · intro x hx y hy
    rw [hs2] at hx hy
    exact h.eq_trans (hm2 x hx) (h.eq_symm (hm2 y hy))
  · intro x hx y hy
    rw [hs2] at hx
    rw [hs3] at hy
    exact h.lt_of_eq_of_lt (hm2 x hx) (h.gt_iff_lt.mp (hm3 y hy))
  · intro x hx y hy
    rw [hs1] at hx
    rw [hs3] at hy
    exact h.lt_trans (hm1 x hx) (h.gt_iff_lt.mp (hm3 y hy))
/-- Postcondition of one `ensure_sorted` call over range `[L, R)`: length
preserved, untouched outside the range, range permuted, resulting node
well-formed, and the target position now holds the `(target-L)`-th element of
the sorted range. -/
structure EnsureOut {α : Type _} (cmp : α → α → Ordering)
    (target L R : Nat) (arr : List α) (node2 : NodeState) (arr2 : List α)
    (d : α) : Prop where
  len : arr2.length = arr.length
  frame : ∀ (d' : α) (j : Nat), j < L ∨ R ≤ j → arr2.getD j d' = arr.getD j d'
  perm : List.Perm (listSlice arr2 L R) (listSlice arr L R)
  wf : NodeWF cmp arr2 node2 L R
  val : arr2.getD target d =
    ((listSlice arr L R).mergeSort (ble cmp)).getD (target - L) d

theorem mergeSort_slice_three {α : Type _} {cmp : α → α → Ordering}
    (h : StrongCmp cmp) (A : List α) (L pL pR R : Nat)
    (hR : R ≤ A.length) (hLp : L ≤ pL) (hpp : pL < pR) (hpR : pR ≤ R)
    (c12 : ∀ x ∈ listSlice A L pL, ∀ y ∈ listSlice A pL pR, cmp x y = .lt)
    (c22 : ∀ x ∈ listSlice A pL pR, ∀ y ∈ listSlice A pL pR, cmp x y = .eq)
    (c23 : ∀ x ∈ listSlice A pL pR, ∀ y ∈ listSlice A pR R, cmp x y = .lt) :
    (listSlice A L R).mergeSort (ble cmp) =
      (listSlice A L pL).mergeSort (ble cmp) ++ listSlice A pL pR ++
        (listSlice A pR R).mergeSort (ble cmp) := by
  have hmidne : listSlice A pL pR ≠ [] := by
    have := listSlice_length A pL pR (by omega)
    intro hcon
    rw [hcon] at this
    simp at this
    omega
  obtain ⟨z, hz⟩ := List.exists_mem_of_ne_nil _ hmidne
  have c13 : ∀ x ∈ listSlice A L pL, ∀ y ∈ listSlice A pR R, cmp x y = .lt :=
    fun x hx y hy =>
      h.toTotalCmp.lt_trans (c12 x hx z hz) (c23 z hz y hy)
  have hdecomp : listSlice A L pL ++ listSlice A pL pR ++ listSlice A pR R =
      listSlice A L R := by
    rw [listSlice_append A L pL pR hLp (by omega),
      listSlice_append A L pR R (by omega) hpR]
  rw [← hdecomp]
  exact mergeSort_three_regions h _ _ _ c12 c13 c23 c22

theorem ensure_full_out {α : Type _} {cmp : α → α → Ordering} (d : α)
    (arr : List α) (L R target : Nat) (hR : R ≤ arr.length)
    (hLt : L ≤ target) (htR : target < R)
    (hsorted : SortedCmp cmp (listSlice arr L R)) :
    EnsureOut cmp target L R arr NodeState.fullySorted arr d :=
  ⟨rfl, fun _ _ _ => rfl, List.Perm.refl _,
    by simp only [NodeWF]; exact hsorted,
    (sorted_slice_val d hsorted hR hLt htR).symm⟩

theorem listSlice_pair {α : Type _} (arr : List α) (L : Nat) (d : α)
    (h2 : L + 2 ≤ arr.length) :
    listSlice arr L (L + 2) = [arr.getD L d, arr.getD (L + 1) d] := by
  apply list_eq_of_getD d
  · rw [listSlice_length _ _ _ h2]
    simp
  · intro j hj
    rw [listSlice_length _ _ _ h2] at hj
    rcases j with _ | j
    · rw [listSlice_getD arr L (L + 2) 0 d (by omega) h2]
      simp
    · rcases j with _ | j
      · rw [listSlice_getD arr L (L + 2) 1 d (by omega) h2]
        simp
      · omega

theorem ensure_two_swap_out {α : Type _} {cmp : α → α → Ordering}
    (h : StrongCmp cmp) (d : α) (arr : List α) (L R target : Nat)
    (hR : R ≤ arr.length) (hLt : L ≤ target) (htR : target < R)
    (h2 : R - L = 2) (hLR : L ≤ R) :
    EnsureOut cmp target L R arr NodeState.fullySorted
      (if cmp (arr.getD L d) (arr.getD (L + 1) d) = .gt
        then listSwap arr L (L + 1) else arr) d := by
  have hRL : R = L + 2 := by omega
  subst hRL
  have hL0 : L < arr.length := by omega
  have hL1 : L + 1 < arr.length := by omega
  have hslice : listSlice arr L (L + 2) = [arr.getD L d, arr.getD (L + 1) d] :=
    listSlice_pair arr L d (by omega)
  by_cases hgt : cmp (arr.getD L d) (arr.getD (L + 1) d) = .gt
  · rw [if_pos hgt]
    have hlen : (listSwap arr L (L + 1)).length = arr.length :=
      length_listSwap arr L (L + 1)
    have hslice2 : listSlice (listSwap arr L (L + 1)) L (L + 2) =
        [arr.getD (L + 1) d, arr.getD L d] := by
      rw [listSlice_pair (listSwap arr L (L + 1)) L d (by omega),
        getD_listSwap_fst arr L (L + 1) d hL0 hL1,
        getD_listSwap_snd arr L (L + 1) d hL0 hL1]
    have hperm : List.Perm (listSlice (listSwap arr L (L + 1)) L (L + 2))
        (listSlice arr L (L + 2)) := by
      rw [hslice, hslice2]
      exact List.Perm.swap _ _ _
    have hle : cmp (arr.getD (L + 1) d) (arr.getD L d) ≠ .gt :=
      h.toTotalCmp.ne_gt_of_lt (h.toTotalCmp.gt_iff_lt.mp hgt)
    have hsorted2 : SortedCmp cmp [arr.getD (L + 1) d, arr.getD L d] := by
      unfold SortedCmp
      rw [List.pairwise_cons]
      exact ⟨fun y hy => by
        rw [List.mem_singleton.mp hy]
        exact hle, by simp⟩
    have hms : (listSlice arr L (L + 2)).mergeSort (ble cmp) =
        [arr.getD (L + 1) d, arr.getD L d] := by
      apply sorted_perm_eq h
      · refine ((listSlice arr L (L + 2)).mergeSort_perm (ble cmp)).trans ?_
        rw [hslice]
        exact List.Perm.swap _ _ _
      · exact mergeSort_sortedCmp h.toTotalCmp _
      · exact hsorted2
    refine ⟨hlen, ?_, hperm, ?_, ?_⟩
    · intro d' j hj
      exact getD_listSwap_other arr L (L + 1) j d' (by omega) (by omega)
    · simp only [NodeWF]
      rw [hslice2]
      exact hsorted2
    · rw [hms]
      rcases Nat.lt_or_ge target (L + 1) with ht | ht
      · have htL : target = L := by omega
        rw [htL, getD_listSwap_fst arr L (L + 1) d hL0 hL1]
        simp
      · have htL : target = L + 1 := by omega
        rw [htL, getD_listSwap_snd arr L (L + 1) d hL0 hL1]
        have : L + 1 - L = 1 := by omega
        rw [this]
        simp
  · rw [if_neg hgt]
    apply ensure_full_out d arr L (L + 2) target hR hLt htR
    rw [hslice]
    unfold SortedCmp
    rw [List.pairwise_cons]
    exact ⟨fun y hy => by
      rw [List.mem_singleton.mp hy]
      exact hgt, by simp⟩
theorem ensure_band_out {α : Type _} {cmp : α → α → Ordering}
    (h : StrongCmp cmp) (d : α) (A : List α) (L pL pR R target : Nat)
    (lc rc : NodeState) (hR : R ≤ A.length)
    (hLp : L ≤ pL) (hpp : pL < pR) (hpR : pR ≤ R)
    (hb1 : pL ≤ target) (hb2 : target < pR)
    (c12 : ∀ x ∈ listSlice A L pL, ∀ y ∈ listSlice A pL pR, cmp x y = .lt)
    (c22 : ∀ x ∈ listSlice A pL pR, ∀ y ∈ listSlice A pL pR, cmp x y = .eq)
    (c23 : ∀ x ∈ listSlice A pL pR, ∀ y ∈ listSlice A pR R, cmp x y = .lt)
    (hwflc : NodeWF cmp A lc L pL) (hwfrc : NodeWF cmp A rc pR R) :
    EnsureOut cmp target L R A (NodeState.partSorted pL pR lc rc) A d := by
  refine ⟨rfl, fun _ _ _ => rfl, List.Perm.refl _,
    ⟨hLp, hpp, hpR, c12, c22, c23, hwflc, hwfrc⟩, ?_⟩
  rw [mergeSort_slice_three h A L pL pR R hR hLp hpp hpR c12 c22 c23]
  have hlen1 : ((listSlice A L pL).mergeSort (ble cmp)).length = pL - L := by
    rw [List.length_mergeSort, listSlice_length A L pL (by omega)]
  have hlen2 : (listSlice A pL pR).length = pR - pL :=
    listSlice_length A pL pR (by omega)
  rw [getD_append_left _ _ _ _
      (by rw [List.length_append, hlen1, hlen2]; omega),
    getD_append_right _ _ _ _ (by rw [hlen1]; omega), hlen1]
  have hg := listSlice_getD A pL pR (target - L - (pL - L)) d
    (by omega) (by omega)
  rw [hg, show pL + (target - L - (pL - L)) = target by omega]

theorem ensure_compose_left {α : Type _} {cmp : α → α → Ordering}
    (h : StrongCmp cmp) (d : α) (A ra : List α) (L pL pR R target : Nat)
    (rn rc : NodeState)
    (hR : R ≤ A.length) (hLt : L ≤ target) (htp : target < pL)
    (hLp : L ≤ pL) (hpp : pL < pR) (hpR : pR ≤ R)
    (c12 : ∀ x ∈ listSlice A L pL, ∀ y ∈ listSlice A pL pR, cmp x y = .lt)
    (c22 : ∀ x ∈ listSlice A pL pR, ∀ y ∈ listSlice A pL pR, cmp x y = .eq)
    (c23 : ∀ x ∈ listSlice A pL pR, ∀ y ∈ listSlice A pR R, cmp x y = .lt)
    (hwfrc : NodeWF cmp A rc pR R)
    (out : EnsureOut cmp target L pL A rn ra d) :
    EnsureOut cmp target L R A (NodeState.partSorted pL pR rn rc) ra d ∧
    (rn = NodeState.fullySorted → rc = NodeState.fullySorted →
      EnsureOut cmp target L R A NodeState.fullySorted ra d) := by
  obtain ⟨olen, oframe, operm, owf, oval⟩ := out
  have e2 : listSlice ra pL pR = listSlice A pL pR :=
    listSlice_congr ra A pL pR d olen (by omega)
      (fun j hj1 _ => oframe d j (Or.inr (by omega)))
  have e3 : listSlice ra pR R = listSlice A pR R :=
    listSlice_congr ra A pR R d olen hR
      (fun j hj1 _ => oframe d j (Or.inr (by omega)))
  have e23 : listSlice ra pL R = listSlice A pL R :=
    listSlice_congr ra A pL R d olen hR
      (fun j hj1 _ => oframe d j (Or.inr (by omega)))
  have hframe : ∀ (d' : α) (j : Nat), j < L ∨ R ≤ j →
      ra.getD j d' = A.getD j d' := by
    intro d' j hj
    rcases hj with hj | hj
    · exact oframe d' j (Or.inl hj)
    · exact oframe d' j (Or.inr (by omega))
  have hperm : List.Perm (listSlice ra L R) (listSlice A L R) := by
    rw [← listSlice_append ra L pL R hLp (by omega),
      ← listSlice_append A L pL R hLp (by omega)]
    exact List.Perm.append operm (by rw [e23])
  have hc12 : ∀ x ∈ listSlice ra L pL, ∀ y ∈ listSlice ra pL pR,
      cmp x y = .lt := by
    intro x hx y hy
    rw [e2] at hy
    exact c12 x (operm.mem_iff.mp hx) y hy
  have hc22 : ∀ x ∈ listSlice ra pL pR, ∀ y ∈ listSlice ra pL pR,
      cmp x y = .eq := by
    intro x hx y hy
    rw [e2] at hx hy
    exact c22 x hx y hy
  have hc23 : ∀ x ∈ listSlice ra pL pR, ∀ y ∈ listSlice ra pR R,
      cmp x y = .lt := by
    intro x hx y hy
    rw [e2] at hx
    rw [e3] at hy
    exact c23 x hx y hy
  have hval : ra.getD target d =
      ((listSlice A L R).mergeSort (ble cmp)).getD (target - L) d := by
    rw [mergeSort_slice_three h A L pL pR R hR hLp hpp hpR c12 c22 c23]
    have hlen1 : ((listSlice A L pL).mergeSort (ble cmp)).length = pL - L := by
      rw [List.length_mergeSort, listSlice_length A L pL (by omega)]
    have hlen2 : (listSlice A pL pR).length = pR - pL :=
      listSlice_length A pL pR (by omega)
    rw [getD_append_left _ _ _ _
        (by rw [List.length_append, hlen1, hlen2]; omega),
      getD_append_left _ _ _ _ (by rw [hlen1]; omega)]
    exact oval
  constructor
  · exact ⟨olen, hframe, hperm,
      ⟨hLp, hpp, hpR, hc12, hc22, hc23, owf,
        nodeWF_congr cmp ra A rc pR R e3 hwfrc⟩, hval⟩
  · intro hrn hrc
    subst hrn
    subst hrc
    refine ⟨olen, hframe, hperm, ?_, hval⟩
    simp only [NodeWF] at owf hwfrc ⊢
    rw [← listSlice_append ra L pR R (by omega) hpR,
      ← listSlice_append ra L pL pR hLp (by omega)]
    apply sortedCmp_three h.toTotalCmp _ _ _ owf (by rw [e3]; exact hwfrc)
      hc12 hc22 hc23
    intro hcon
    have := listSlice_length ra pL pR (by omega)
    rw [hcon] at this
    simp at this
    omega

theorem ensure_compose_right {α : Type _} {cmp : α → α → Ordering}
    (h : StrongCmp cmp) (d : α) (A ra : List α) (L pL pR R target : Nat)
    (rn lc : NodeState)
    (hR : R ≤ A.length) (htp : pR ≤ target) (htR : target < R)
    (hLp : L ≤ pL) (hpp : pL < pR) (hpR : pR ≤ R)
    (c12 : ∀ x ∈ listSlice A L pL, ∀ y ∈ listSlice A pL pR, cmp x y = .lt)
    (c22 : ∀ x ∈ listSlice A pL pR, ∀ y ∈ listSlice A pL pR, cmp x y = .eq)
    (c23 : ∀ x ∈ listSlice A pL pR, ∀ y ∈ listSlice A pR R, cmp x y = .lt)
    (hwflc : NodeWF cmp A lc L pL)
    (out : EnsureOut cmp target pR R A rn ra d) :
    EnsureOut cmp target L R A (NodeState.partSorted pL pR lc rn) ra d ∧
    (lc = NodeState.fullySorted → rn = NodeState.fullySorted →
      EnsureOut cmp target L R A NodeState.fullySorted ra d) := by
  obtain ⟨olen, oframe, operm, owf, oval⟩ := out
  have e1 : listSlice ra L pL = listSlice A L pL :=
    listSlice_congr ra A L pL d olen (by omega)
      (fun j _ hj2 => oframe d j (Or.inl (by omega)))
  have e2 : listSlice ra pL pR = listSlice A pL pR :=
    listSlice_congr ra A pL pR d olen (by omega)
      (fun j _ hj2 => oframe d j (Or.inl (by omega)))
  have e12 : listSlice ra L pR = listSlice A L pR :=
    listSlice_congr ra A L pR d olen (by omega)
      (fun j _ hj2 => oframe d j (Or.inl (by omega)))
  have hframe : ∀ (d' : α) (j : Nat), j < L ∨ R ≤ j →
      ra.getD j d' = A.getD j d' := by
    intro d' j hj
    rcases hj with hj | hj
    · exact oframe d' j (Or.inl (by omega))
    · exact oframe d' j (Or.inr hj)
  have hperm : List.Perm (listSlice ra L R) (listSlice A L R) := by
    rw [← listSlice_append ra L pR R (by omega) hpR,
      ← listSlice_append A L pR R (by omega) hpR]
    exact List.Perm.append (by rw [e12]) operm
  have hc12 : ∀ x ∈ listSlice ra L pL, ∀ y ∈ listSlice ra pL pR,
      cmp x y = .lt := by
    intro x hx y hy
    rw [e1] at hx
    rw [e2] at hy
    exact c12 x hx y hy
  have hc22 : ∀ x ∈ listSlice ra pL pR, ∀ y ∈ listSlice ra pL pR,
      cmp x y = .eq := by
    intro x hx y hy
    rw [e2] at hx hy
    exact c22 x hx y hy
  have hc23 : ∀ x ∈ listSlice ra pL pR, ∀ y ∈ listSlice ra pR R,
      cmp x y = .lt := by
    intro x hx y hy
    rw [e2] at hx
    exact c23 x hx y (operm.mem_iff.mp hy)
  have hval : ra.getD target d =
      ((listSlice A L R).mergeSort (ble cmp)).getD (target - L) d := by
    rw [mergeSort_slice_three h A L pL pR R hR hLp hpp hpR c12 c22 c23]
    have hlen1 : ((listSlice A L pL).mergeSort (ble cmp)).length = pL - L := by
      rw [List.length_mergeSort, listSlice_length A L pL (by omega)]
    have hlen2 : (listSlice A pL pR).length = pR - pL :=
      listSlice_length A pL pR (by omega)
    rw [getD_append_right _ _ _ _
        (by rw [List.length_append, hlen1, hlen2]; omega),
      List.length_append, hlen1, hlen2,
      show target - L - (pL - L + (pR - pL)) = target - pR by omega]
    exact oval
  constructor
  · exact ⟨olen, hframe, hperm,
      ⟨hLp, hpp, hpR, hc12, hc22, hc23,
        nodeWF_congr cmp ra A lc L pL e1 hwflc, owf⟩, hval⟩
  · intro hlc hrn
    subst hlc
    subst hrn
    refine ⟨olen, hframe, hperm, ?_, hval⟩
    simp only [NodeWF] at owf hwflc ⊢
    rw [← listSlice_append ra L pR R (by omega) hpR,
      ← listSlice_append ra L pL pR hLp (by omega)]
    apply sortedCmp_three h.toTotalCmp _ _ _ (by rw [e1]; exact hwflc) owf
      hc12 hc22 hc23
    intro hcon
    have := listSlice_length ra pL pR (by omega)
    rw [hcon] at this
    simp at this
    omega
theorem ensure_glue {α : Type _} {cmp : α → α → Ordering} (h : StrongCmp cmp)
    (d : α) (arr A2 ra : List α) (L R target : Nat) (node2 : NodeState)
    (len2 : A2.length = arr.length)
    (frame2 : ∀ (d' : α) (j : Nat), j < L ∨ R ≤ j →
      A2.getD j d' = arr.getD j d')
    (perm2 : List.Perm (listSlice A2 L R) (listSlice arr L R))
    (out : EnsureOut cmp target L R A2 node2 ra d) :
    EnsureOut cmp target L R arr node2 ra d :=
  ⟨out.len.trans len2,
    fun d' j hj => (out.frame d' j hj).trans (frame2 d' j hj),
    out.perm.trans perm2,
    out.wf,
    out.val.trans (by rw [mergeSort_perm_eq h perm2])⟩

/-- Main invariant preservation and answer correctness of `ensure_sorted`:
on a well-formed node over `[L, R)` with an in-range target and enough fuel,
the call preserves the array outside the range, permutes the range, leaves a
well-formed node, and places the `(target-L)`-th order statistic of the range
at the target position. -/
theorem ensureSorted_spec {α : Type _} {cmp : α → α → Ordering}
    (h : StrongCmp cmp) (d : α) :
    ∀ (fuel : Nat) (node : NodeState) (target L R : Nat) (arr : List α)
      (node2 : NodeState) (arr2 : List α) (c : Nat),
      R ≤ arr.length → L ≤ target → target < R → R - L ≤ fuel →
      NodeWF cmp arr node L R →
      ensureSorted cmp d fuel node target L R arr = (node2, arr2, c) →
      EnsureOut cmp target L R arr node2 arr2 d := by
  intro fuel
  induction fuel with
  | zero =>
    intro node target L R arr node2 arr2 c hR hLt htR hfuel hwf hrun
    omega
  | succ n ih =>
    intro node target L R arr node2 arr2 c hR hLt htR hfuel hwf hrun
    by_cases h1 : R - L = 1
    · simp only [ensureSorted, if_pos h1] at hrun
      cases hrun
      apply ensure_full_out d arr L R target hR hLt htR
      unfold SortedCmp
      rw [List.pairwise_iff_getElem]
      intro i j hi hj hij
      rw [listSlice_length arr L R hR] at hi hj
      omega
    · by_cases h2 : R - L = 2
      · cases node with
        | fullySorted =>
          simp only [ensureSorted, if_neg h1, if_pos h2] at hrun
          cases hrun
          refine ensure_full_out d arr L R target hR hLt htR ?_
          simpa only [NodeWF] using hwf
        | unsorted =>
          simp only [ensureSorted, if_neg h1, if_pos h2] at hrun
          cases hrun
          exact ensure_two_swap_out h d arr L R target hR hLt htR h2 (by omega)
        | partSorted pl pr lc rc =>
          simp only [ensureSorted, if_neg h1, if_pos h2] at hrun
          cases hrun
          exact ensure_two_swap_out h d arr L R target hR hLt htR h2 (by omega)
      · cases node with
        | fullySorted =>
          simp only [ensureSorted, if_neg h1, if_neg h2] at hrun
          cases hrun
          refine ensure_full_out d arr L R target hR hLt htR ?_
          simpa only [NodeWF] using hwf
        | unsorted =>
          simp only [ensureSorted, if_neg h1, if_neg h2] at hrun
          rcases hfp : fatPartitionNoClone (listSlice arr L R) cmp
            (medianOfThreePivot (listSlice arr L R) cmp) with ⟨out, l0, r0⟩
          rw [hfp] at hrun
          have fs := fat_step h.toTotalCmp arr L R (by omega) hR out l0 r0 hfp
          by_cases h3 : target < L + l0
          · rw [if_pos h3] at hrun
            rcases hrec : ensureSorted cmp d n NodeState.unsorted target L
              (L + l0) (arr.take L ++ out ++ arr.drop R) with ⟨rn, ra, rc2⟩
            rw [hrec] at hrun
            cases hrun
            have hout := ih NodeState.unsorted target L (L + l0)
              (arr.take L ++ out ++ arr.drop R) rn ra rc2
              (by have := fs.hpp; have := fs.hpR; rw [fs.len]; omega)
              hLt h3
              (by have := fs.hpp; have := fs.hpR; omega)
              trivial hrec
            have hcomp := ensure_compose_left h d
              (arr.take L ++ out ++ arr.drop R) ra L (L + l0) (L + r0) R
              target rn NodeState.unsorted (by rw [fs.len]; exact hR)
              hLt h3 fs.hLp fs.hpp fs.hpR fs.c12 fs.c22 fs.c23 trivial hout
            exact ensure_glue h d arr _ ra L R target _ fs.len fs.frame
              fs.slice hcomp.1
          · rw [if_neg h3] at hrun
            by_cases h4 : L + r0 ≤ target
            · rw [if_pos h4] at hrun
              rcases hrec : ensureSorted cmp d n NodeState.unsorted target
                (L + r0) R (arr.take L ++ out ++ arr.drop R) with ⟨rn, ra, rc2⟩
              rw [hrec] at hrun
              cases hrun
              have hout := ih NodeState.unsorted target (L + r0) R
                (arr.take L ++ out ++ arr.drop R) rn ra rc2
                (by rw [fs.len]; exact hR)
                h4 htR
                (by have := fs.hpp; have := fs.hLp; omega)
                trivial hrec
              have hcomp := ensure_compose_right h d
                (arr.take L ++ out ++ arr.drop R) ra L (L + l0) (L + r0) R
                target rn NodeState.unsorted (by rw [fs.len]; exact hR)
                h4 htR fs.hLp fs.hpp fs.hpR fs.c12 fs.c22 fs.c23 trivial hout
              exact ensure_glue h d arr _ ra L R target _ fs.len fs.frame
                fs.slice hcomp.1
            · rw [if_neg h4] at hrun
              cases hrun
              have hband := ensure_band_out h d
                (arr.take L ++ out ++ arr.drop R) L (L + l0) (L + r0) R target
                NodeState.unsorted NodeState.unsorted
                (by rw [fs.len]; exact hR)
                fs.hLp fs.hpp fs.hpR (by omega) (by omega)
                fs.c12 fs.c22 fs.c23 trivial trivial
              exact ensure_glue h d arr _ _ L R target _ fs.len fs.frame
                fs.slice hband
        | partSorted pl pr lc rc =>
          simp only [ensureSorted, if_neg h1, if_neg h2] at hrun
          obtain ⟨hb1, hb2, hb3, c12, c22, c23, hwfl, hwfr⟩ := hwf
          by_cases h3 : target < pl
          · rw [if_pos h3] at hrun
            rcases hrec : ensureSorted cmp d n lc target L pl arr
              with ⟨rn, ra, rc2⟩
            rw [hrec] at hrun
            have hout := ih lc target L pl arr rn ra rc2 (by omega) hLt h3
              (by omega) hwfl hrec
            have hcomp := ensure_compose_left h d arr ra L pl pr R target
              rn rc hR hLt h3 hb1 hb2 hb3 c12 c22 c23 hwfr hout
            cases rn <;> cases rc <;>
              (cases hrun; first | exact hcomp.1 | exact hcomp.2 rfl rfl)
          · rw [if_neg h3] at hrun
            by_cases h4 : pr ≤ target
            · rw [if_pos h4] at hrun
              rcases hrec : ensureSorted cmp d n rc target pr R arr
                with ⟨rn, ra, rc2⟩
              rw [hrec] at hrun
              have hout := ih rc target pr R arr rn ra rc2 hR h4 htR
                (by omega) hwfr hrec
              have hcomp := ensure_compose_right h d arr ra L pl pr R target
                rn lc hR h4 htR hb1 hb2 hb3 c12 c22 c23 hwfl hout
              cases lc <;> cases rn <;>
                (cases hrun; first | exact hcomp.1 | exact hcomp.2 rfl rfl)
            · rw [if_neg h4] at hrun
              cases hrun
              exact ensure_band_out h d arr L pl pr R target lc rc hR
                hb1 hb2 hb3 (by omega) (by omega) c12 c22 c23 hwfl hwfr
theorem lazySorterAt_step {α : Type _} {cmp : α → α → Ordering}
    (h : StrongCmp cmp) (d : α) (orig : List α)
    (st : NodeState × List α) (q : Nat) (hq : q < orig.length)
    (hlen : st.2.length = orig.length) (hperm : List.Perm st.2 orig)
    (hwf : NodeWF cmp st.2 st.1 0 st.2.length) :
    ((lazySorterAt cmp d st q).1.2).length = orig.length ∧
    List.Perm (lazySorterAt cmp d st q).1.2 orig ∧
    NodeWF cmp (lazySorterAt cmp d st q).1.2 (lazySorterAt cmp d st q).1.1 0
      ((lazySorterAt cmp d st q).1.2).length ∧
    (lazySorterAt cmp d st q).2.1 = (orig.mergeSort (ble cmp)).getD q d ∧
    ((lazySorterAt cmp d st q).1.2).getD q d =
      (orig.mergeSort (ble cmp)).getD q d := by
  rcases hres : ensureSorted cmp d (st.2.length + 1) st.1 q 0 st.2.length st.2
    with ⟨n2, a2, c2⟩
  have out := ensureSorted_spec h d (st.2.length + 1) st.1 q 0 st.2.length
    st.2 n2 a2 c2 (Nat.le_refl _) (Nat.zero_le q) (by omega) (by omega)
    hwf hres
  have hsl2 : listSlice a2 0 st.2.length = a2 := by
    rw [← out.len]
    exact listSlice_full a2
  have hslst : listSlice st.2 0 st.2.length = st.2 := listSlice_full st.2
  have hpermfull : List.Perm a2 st.2 := by
    have := out.perm
    rwa [hsl2, hslst] at this
  have hval : a2.getD q d = (orig.mergeSort (ble cmp)).getD q d := by
    have := out.val
    rw [hslst, Nat.sub_zero] at this
    rw [this, mergeSort_perm_eq h hperm]
  simp only [lazySorterAt, hres]
  refine ⟨out.len.trans hlen, hpermfull.trans hperm, ?_, hval, hval⟩
  rw [out.len.trans hlen, ← hlen]
  exact out.wf

theorem runQueries_inv {α : Type _} {cmp : α → α → Ordering}
    (h : StrongCmp cmp) (d : α) (orig : List α) :
    ∀ (qs : List Nat) (st : NodeState × List α),
      (∀ q ∈ qs, q < orig.length) →
      st.2.length = orig.length → List.Perm st.2 orig →
      NodeWF cmp st.2 st.1 0 st.2.length →
      (runQueries cmp d qs st).2.length = orig.length ∧
      List.Perm (runQueries cmp d qs st).2 orig ∧
      NodeWF cmp (runQueries cmp d qs st).2 (runQueries cmp d qs st).1 0
        (runQueries cmp d qs st).2.length := by
  intro qs
  induction qs with
  | nil =>
    intro st _ h1 h2 h3
    exact ⟨h1, h2, h3⟩
  | cons q qs ih =>
    intro st hqs h1 h2 h3
    simp only [runQueries]
    have step := lazySorterAt_step h d orig st q
      (hqs q (List.mem_cons_self q qs)) h1 h2 h3
    exact ih _ (fun q' hq' => hqs q' (List.mem_cons_of_mem q hq'))
      step.1 step.2.1 step.2.2.1

/-- C2: for every non-empty sequence, every total-order comparator, every
finite sequence of in-range queries and every further in-range index `i`,
the lazy quick sorter answers `at(i)` with `sorted(S)[i]`, and after the call
position `i` of the underlying array holds the `i`-th order statistic. -/
theorem claim_C2_lazy_at_sorted {α : Type _} (cmp : α → α → Ordering)
    (h : StrongCmp cmp) (orig : List α) (d : α)
    (qs : List Nat) (hqs : ∀ q ∈ qs, q < orig.length)
    (i : Nat) (hi : i < orig.length) :
    (lazySorterAt cmp d (runQueries cmp d qs (NodeState.unsorted, orig))
        i).2.1 = (orig.mergeSort (ble cmp)).getD i d ∧
    ((lazySorterAt cmp d (runQueries cmp d qs (NodeState.unsorted, orig))
        i).1.2).getD i d = (orig.mergeSort (ble cmp)).getD i d := by
  have hinv := runQueries_inv h d orig qs (NodeState.unsorted, orig) hqs
    rfl (List.Perm.refl orig) trivial
  have step := lazySorterAt_step h d orig
    (runQueries cmp d qs (NodeState.unsorted, orig)) i hi
    hinv.1 hinv.2.1 hinv.2.2
  exact ⟨step.2.2.2.1, step.2.2.2.2⟩

theorem claim_C2_lazy_at_sorted_witness :
    (∀ q ∈ [0, 2], q < ([3, 1, 2] : List Nat).length) ∧
    (2 : Nat) < ([3, 1, 2] : List Nat).length ∧
    (lazySorterAt natCmp 0
        (runQueries natCmp 0 [0, 2] (NodeState.unsorted, [3, 1, 2])) 2).2.1 =
      (([3, 1, 2] : List Nat).mergeSort (ble natCmp)).getD 2 0 :=
  ⟨by decide, by decide,
    (claim_C2_lazy_at_sorted natCmp natCmp_strong [3, 1, 2] 0 [0, 2]
      (by decide) 2 (by decide)).1⟩

def repeatAt {α : Type _} (cmp : α → α → Ordering) (d : α) (i : Nat) :
    Nat → NodeState × List α → NodeState × List α
  | 0, st => st
  | n + 1, st => repeatAt cmp d i n (lazySorterAt cmp d st i).1

/-- C9: after the first `at(i)` on a fresh sorter, every further `at(i)` call
returns the same value, performs zero fat partitions, and leaves the node
tree and the underlying array unchanged — and iterating any number of further
calls keeps the state fixed. -/
theorem claim_C9_repeated_at {α : Type _} (cmp : α → α → Ordering)
    (h : StrongCmp cmp) (arr : List α) (d : α) (i : Nat)
    (hi : i < arr.length) :
    lazySorterAt cmp d (lazySorterAt cmp d (NodeState.unsorted, arr) i).1 i =
      ((lazySorterAt cmp d (NodeState.unsorted, arr) i).1,
        (lazySorterAt cmp d (NodeState.unsorted, arr) i).2.1, 0) ∧
    ∀ n : Nat,
      repeatAt cmp d i n (lazySorterAt cmp d (NodeState.unsorted, arr) i).1 =
        (lazySorterAt cmp d (NodeState.unsorted, arr) i).1 := by
  rcases hres : ensureSorted cmp d (arr.length + 1) NodeState.unsorted i 0
    arr.length arr with ⟨n2, a2, c2⟩
  have out := ensureSorted_spec h d (arr.length + 1) NodeState.unsorted i 0
    arr.length arr n2 a2 c2 (Nat.le_refl _) (Nat.zero_le i) (by omega)
    (by omega) trivial hres
  have hfirst : lazySorterAt cmp d (NodeState.unsorted, arr) i =
      ((n2, a2), a2.getD i d, c2) := by
    simp only [lazySorterAt, hres]
  have hidem := ensureSorted_idem cmp d (arr.length + 1) NodeState.unsorted i
    0 arr.length arr n2 a2 c2 hres
  have hsecond : lazySorterAt cmp d (n2, a2) i = ((n2, a2), a2.getD i d, 0) := by
    simp only [lazySorterAt, out.len, hidem]
  have hconj1 : lazySorterAt cmp d
      (lazySorterAt cmp d (NodeState.unsorted, arr) i).1 i =
      ((lazySorterAt cmp d (NodeState.unsorted, arr) i).1,
        (lazySorterAt cmp d (NodeState.unsorted, arr) i).2.1, 0) := by
    rw [hfirst]
    exact hsecond
  refine ⟨hconj1, ?_⟩
  intro n
  induction n with
  | zero => rfl
  | succ m ihm =>
    simp only [repeatAt, hconj1]
    exact ihm

theorem claim_C9_repeated_at_witness :
    (1 : Nat) < ([3, 1, 2] : List Nat).length ∧
    lazySorterAt natCmp 0
        (lazySorterAt natCmp 0 (NodeState.unsorted, [3, 1, 2]) 1).1 1 =
      ((lazySorterAt natCmp 0 (NodeState.unsorted, [3, 1, 2]) 1).1,
        (lazySorterAt natCmp 0 (NodeState.unsorted, [3, 1, 2]) 1).2.1, 0) :=
  ⟨by decide,
    (claim_C9_repeated_at natCmp natCmp_strong [3, 1, 2] 0 1 (by decide)).1⟩
/-! ## Two-comparator framework for the concurrent merge sort (C3)

The sorting code branches on a comparator `cmp`; its stability is captured
by tracking a refinement `scmp` of `cmp` that breaks `cmp`-ties (for the
plain claim `scmp = cmp`; for the stability claim `scmp` additionally
compares input positions). `RefineCmp` says the two comparators agree off
ties, and `TieOrdered` says the input list presents its `cmp`-ties already
in `scmp` order — true of any list when `scmp = cmp`, and of a position
tagged list under the lexicographic refinement. -/

def RefineCmp {α : Type _} (cmp scmp : α → α → Ordering) : Prop :=
  ∀ a b, cmp a b ≠ .eq → scmp a b = cmp a b

def TieOrdered {α : Type _} (cmp scmp : α → α → Ordering)
    (l : List α) : Prop :=
  List.Pairwise (fun a b => cmp a b = .eq → scmp a b ≠ .gt) l

theorem refineCmp_self {α : Type _} (cmp : α → α → Ordering) :
    RefineCmp cmp cmp := fun _ _ _ => rfl

theorem tieOrdered_self {α : Type _} (cmp : α → α → Ordering) (l : List α)
    (h : TotalCmp cmp) : TieOrdered cmp cmp l := by
  apply List.pairwise_of_forall_mem_list
  intro a _ b _ hab
  exact h.ne_gt_of_eq hab

theorem RefineCmp.le {α : Type _} {cmp scmp : α → α → Ordering}
    (hr : RefineCmp cmp scmp) {a b : α} (hs : scmp a b ≠ .gt) :
    cmp a b ≠ .gt := by
  intro hcon
  exact hs (by rw [hr a b (by rw [hcon]; intro hx; cases hx), hcon])

theorem RefineCmp.lt {α : Type _} {cmp scmp : α → α → Ordering}
    (hr : RefineCmp cmp scmp) {a b : α} (hlt : cmp a b = .lt) :
    scmp a b = .lt := by
  rw [hr a b (by rw [hlt]; intro hx; cases hx), hlt]

theorem RefineCmp.le_of_le {α : Type _} {cmp scmp : α → α → Ordering}
    (hr : RefineCmp cmp scmp) {a b : α} (hle : cmp a b ≠ .gt)
    (htie : cmp a b = .eq → scmp a b ≠ .gt) : scmp a b ≠ .gt := by
  rcases hab : cmp a b with _ | _ | _
  · rw [hr.lt hab]
    intro hx
    cases hx
  · exact htie hab
  · exact absurd hab hle

theorem sortedCmp_of_refined {α : Type _} {cmp scmp : α → α → Ordering}
    (hr : RefineCmp cmp scmp) {l : List α} (hs : SortedCmp scmp l) :
    SortedCmp cmp l :=
  hs.imp (fun hab => hr.le hab)

theorem tieOrdered_sublist {α : Type _} {cmp scmp : α → α → Ordering}
    {l l' : List α} (hsub : l'.Sublist l) (ht : TieOrdered cmp scmp l) :
    TieOrdered cmp scmp l' :=
  List.Pairwise.sublist hsub ht

theorem merge_sorted_refined {α : Type _} {cmp scmp : α → α → Ordering}
    (h : TotalCmp cmp) (hs : TotalCmp scmp) (hr : RefineCmp cmp scmp) :
    ∀ (A B : List α), SortedCmp scmp A → SortedCmp scmp B →
      (∀ x ∈ A, ∀ y ∈ B, cmp x y = .eq → scmp x y ≠ .gt) →
      SortedCmp scmp (List.merge A B (ble cmp)) := by
  intro A
  induction A with
  | nil =>
    intro B _ hB _
    rw [List.nil_merge]
    exact hB
  | cons a A ihA =>
    intro B
    induction B with
    | nil =>
      intro hA _ _
      rw [List.merge_right]
      exact hA
    | cons b B ihB =>
      intro hA hB hcross
      by_cases hab : ble cmp a b = true
      · rw [List.cons_merge_cons_pos _ _ _ hab]
        unfold SortedCmp
        rw [List.pairwise_cons]
        constructor
        · intro z hz
          have hab2 : scmp a b ≠ .gt := by
            have hle : cmp a b ≠ .gt := (ble_iff cmp a b).mp hab
            exact hr.le_of_le hle
              (fun he => hcross a (List.mem_cons_self a A) b
                (List.mem_cons_self b B) he)
          rcases List.mem_merge.mp hz with hz | hz
          · exact List.rel_of_pairwise_cons hA hz
          · rcases List.mem_cons.mp hz with hz | hz
            · rw [hz]
              exact hab2
            · exact hs.le_trans a b z hab2
                (List.rel_of_pairwise_cons hB hz)
        · exact ihA (b :: B) (List.Pairwise.sublist (List.sublist_cons_self a A) hA) hB
            (fun x hx y hy he => hcross x (List.mem_cons_of_mem a hx) y hy he)
      · rw [List.cons_merge_cons_neg _ _ _ hab]
        unfold SortedCmp
        rw [List.pairwise_cons]
        have hba : scmp b a = .lt := by
          have hgt : cmp a b = .gt := by
            have := (ble_iff cmp a b).not.mp hab
            rcases hx : cmp a b with _ | _ | _
            · exact absurd hx (by intro hy; exact this (by rw [hy]; intro hz; cases hz))
            · exact absurd hx (by intro hy; exact this (by rw [hy]; intro hz; cases hz))
            · rfl
          exact hr.lt (h.gt_iff_lt.mp hgt)
        constructor
        · intro z hz
          rcases List.mem_merge.mp hz with hz | hz
          · rcases List.mem_cons.mp hz with hz | hz
            · rw [hz]
              rw [hba]
              intro hx
              cases hx
            · have haz : scmp a z ≠ .gt := List.rel_of_pairwise_cons hA hz
              rw [hs.lt_of_lt_of_le hba haz]
              intro hx
              cases hx
          · exact List.rel_of_pairwise_cons hB hz
        · exact ihB hA (List.Pairwise.sublist (List.sublist_cons_self b B) hB)
            (fun x hx y hy he => hcross x hx y (List.mem_cons_of_mem b hy) he)
theorem merge_eq_append {α : Type _} {le : α → α → Bool} :
    ∀ (A B : List α), (∀ x ∈ A, ∀ y ∈ B, le x y = true) →
      List.merge A B le = A ++ B := by
  intro A
  induction A with
  | nil =>
    intro B _
    rw [List.nil_merge]
    rfl
  | cons a A ih =>
    intro B hAB
    cases B with
    | nil => rw [List.merge_right, List.append_nil]
    | cons b B =>
      rw [List.cons_merge_cons_pos _ _ _
        (hAB a (List.mem_cons_self a A) b (List.mem_cons_self b B))]
      rw [ih (b :: B) (fun x hx y hy => hAB x (List.mem_cons_of_mem a hx) y hy)]
      rfl

theorem merge_append_left {α : Type _} {le : α → α → Bool} :
    ∀ (P A B : List α), (∀ x ∈ P, ∀ y ∈ B, le x y = true) →
      List.merge (P ++ A) B le = P ++ List.merge A B le := by
  intro P
  induction P with
  | nil =>
    intro A B _
    rfl
  | cons p P ih =>
    intro A B hPB
    cases B with
    | nil => rw [List.merge_right, List.merge_right]
    | cons b B =>
      have hpb : le p b = true :=
        hPB p (List.mem_cons_self p P) b (List.mem_cons_self b B)
      rw [List.cons_append, List.cons_merge_cons_pos _ _ _ hpb,
        ih A (b :: B) (fun x hx y hy => hPB x (List.mem_cons_of_mem p hx) y hy)]
      rfl

theorem merge_append_suffix {α : Type _} {le : α → α → Bool} :
    ∀ (A B S : List α), (∀ x ∈ A, ∀ y ∈ S, le x y = true) →
      List.merge A (B ++ S) le = List.merge A B le ++ S := by
  intro A
  induction A with
  | nil =>
    intro B S _
    rw [List.nil_merge, List.nil_merge]
  | cons a A ihA =>
    intro B
    induction B with
    | nil =>
      intro S hAS
      rw [List.nil_append, List.merge_right, merge_eq_append (a :: A) S hAS]
    | cons b B ihB =>
      intro S hAS
      by_cases hab : le a b = true
      · rw [List.cons_append, List.cons_merge_cons_pos _ _ _ hab,
          List.cons_merge_cons_pos _ _ _ hab,
          ← List.cons_append b B S,
          ihA (b :: B) S (fun x hx y hy => hAS x (List.mem_cons_of_mem a hx) y hy)]
        rfl
      · rw [List.cons_append, List.cons_merge_cons_neg _ _ _ hab,
          List.cons_merge_cons_neg _ _ _ hab, ihB S hAS]
        rfl
theorem listSlice_zero {α : Type _} (arr : List α) (b : Nat) :
    listSlice arr 0 b = arr.take b := by
  unfold listSlice
  rw [List.drop_zero, Nat.sub_zero]

theorem mergeTwoSorted_snd {α : Type _} (cmp : α → α → Ordering)
    (A B : List α) :
    (mergeTwoSortedSequences A B cmp).map Prod.snd =
      List.merge A B (ble cmp) :=
  mergeTwoGo_snd cmp (A.length + B.length) A B 0 (Nat.le_refl _)

/-- The smart in-place adjacent merge agrees with the plain left-biased
two-way merge on every pair of sorted halves: the end trims only cut off
prefixes and suffixes that the plain merge would emit unchanged. -/
theorem smartMerge_eq_merge {α : Type _} {cmp : α → α → Ordering}
    (h : TotalCmp cmp) (arr : List α) (sep : Nat)
    (hs1 : SortedCmp cmp (arr.take sep)) (hs2 : SortedCmp cmp (arr.drop sep)) :
    smartMerge arr sep cmp = List.merge (arr.take sep) (arr.drop sep) (ble cmp) := by
  by_cases hlen : arr.length ≤ 1
  · unfold smartMerge
    rw [if_pos hlen]
    by_cases hsep : sep = 0
    · subst hsep
      rw [List.take_zero, List.nil_merge, List.drop_zero]
    · rw [List.take_of_length_le (by omega), List.drop_eq_nil_of_le (by omega),
        List.merge_right]
  · by_cases hsep0 : sep = 0
    · unfold smartMerge
      rw [if_neg hlen, if_pos (Or.inl hsep0)]
      subst hsep0
      rw [List.take_zero, List.nil_merge, List.drop_zero]
    · by_cases hseplen : sep = arr.length
      · unfold smartMerge
        rw [if_neg hlen, if_pos (Or.inr hseplen)]
        rw [List.take_of_length_le (by omega),
          List.drop_eq_nil_of_le (by omega), List.merge_right]
      · rcases Nat.lt_or_ge sep arr.length with hsl | hsl
        · -- the interesting window: 0 < sep < len
          have hm1 : sep - 1 < arr.length := by omega
          have hlm : arr[sep - 1]? = some arr[sep - 1] :=
            List.getElem?_eq_getElem hm1
          have hrm : arr[sep]? = some arr[sep] :=
            List.getElem?_eq_getElem hsl
          have htlen : (arr.take sep).length = sep := by
            rw [List.length_take]
            omega
          have hdlen : (arr.drop sep).length = arr.length - sep :=
            List.length_drop sep arr
          have hlmval : ∀ d : α, arr.getD (sep - 1) d = arr[sep - 1] :=
            fun d => getD_eq_getElem arr (sep - 1) d hm1
          have hrmval : ∀ d : α, arr.getD sep d = arr[sep] :=
            fun d => getD_eq_getElem arr sep d hsl
          have hLx : ∀ x ∈ arr.take sep, cmp x arr[sep - 1] ≠ .gt := by
            intro x hx
            obtain ⟨i, hi, hieq⟩ := List.getElem_of_mem hx
            rw [htlen] at hi
            have hstep := sortedCmp_le h hs1 i (sep - 1) arr[sep - 1]
              (by omega) (by rw [htlen]; omega)
            rw [getD_take arr sep i _ (by omega),
              getD_take arr sep (sep - 1) _ (by omega), hlmval] at hstep
            rw [← hieq, List.getElem_take,
              ← getD_eq_getElem arr i arr[sep - 1] (by omega)]
            exact hstep
          have hRy : ∀ y ∈ arr.drop sep, cmp arr[sep] y ≠ .gt := by
            intro y hy
            obtain ⟨i, hi, hieq⟩ := List.getElem_of_mem hy
            have hstep := sortedCmp_le h hs2 0 i arr[sep] (by omega) hi
            rw [getD_drop arr sep 0 _ (by omega),
              getD_drop arr sep i _ (by rw [hdlen] at hi; omega)] at hstep
            rw [Nat.add_zero] at hstep
            rw [hrmval] at hstep
            rw [← hieq, List.getElem_drop,
              ← getD_eq_getElem arr (sep + i) arr[sep]
                (by rw [hdlen] at hi; omega)]
            exact hstep
          by_cases hgt : cmp arr[sep - 1] arr[sep] = .gt
          · -- trimming path
            -- right delimiter facts
            have hrd : sep < smartMergeRightDelimit arr sep cmp arr[sep - 1] ∧
                smartMergeRightDelimit arr sep cmp arr[sep - 1] ≤ arr.length ∧
                (∀ j, smartMergeRightDelimit arr sep cmp arr[sep - 1] ≤ j →
                  j < arr.length →
                  cmp (arr.getD j arr[sep - 1]) arr[sep - 1] ≠ .lt) := by
              have hpost := binarySearchBy_spec h (arr.drop sep) arr[sep - 1]
                arr[sep - 1] hs2
              cases hbs : binarySearchBy (arr.drop sep)
                  (fun x => cmp x arr[sep - 1]) arr[sep - 1] with
              | ok idx =>
                have hrdval : smartMergeRightDelimit arr sep cmp arr[sep - 1] =
                    sep + idx := by
                  unfold smartMergeRightDelimit
                  rw [hbs]
                rw [hrdval]
                rw [hbs] at hpost
                obtain ⟨hidxlen, hidxeq⟩ := hpost
                have hidx0 : idx ≠ 0 := by
                  intro hidx0
                  subst hidx0
                  rw [getD_drop arr sep 0 _ (by omega), Nat.add_zero,
                    hrmval] at hidxeq
                  have := h.eq_symm hidxeq
                  rw [hgt] at this
                  simp at this
                refine ⟨by omega, by omega, ?_⟩
                intro j hj hjlen
                have hle : cmp (arr.getD (sep + idx) arr[sep - 1])
                    (arr.getD j arr[sep - 1]) ≠ .gt := by
                  have := sortedCmp_le h hs2 idx (j - sep) arr[sep - 1]
                    (by omega) (by omega)
                  rw [getD_drop arr sep idx _ (by omega),
                    getD_drop arr sep (j - sep) _ (by omega)] at this
                  rwa [show sep + (j - sep) = j by omega] at this
                rw [getD_drop arr sep idx _ (by omega)] at hidxeq
                intro hlt
                exact hle (h.gt_iff_lt.mpr
                  (h.lt_of_lt_of_eq hlt (h.eq_symm hidxeq)))
              | err idx =>
                have hrdval : smartMergeRightDelimit arr sep cmp arr[sep - 1] =
                    sep + idx := by
                  unfold smartMergeRightDelimit
                  rw [hbs]
                rw [hrdval]
                rw [hbs] at hpost
                obtain ⟨hidxlen, hlo, hhi⟩ := hpost
                have hidx0 : idx ≠ 0 := by
                  intro hidx0
                  subst hidx0
                  have := hhi 0 (by omega) (by omega)
                  rw [getD_drop arr sep 0 _ (by omega), Nat.add_zero,
                    hrmval] at this
                  have hcontra : cmp arr[sep - 1] arr[sep] = .lt :=
                    h.gt_iff_lt.mp this
                  rw [hgt] at hcontra
                  exact absurd hcontra (by intro hx; cases hx)
                refine ⟨by omega, by omega, ?_⟩
                intro j hj hjlen
                have := hhi (j - sep) (by omega) (by omega)
                rw [getD_drop arr sep (j - sep) _ (by omega),
                  show sep + (j - sep) = j by omega] at this
                rw [this]
                intro hx
                cases hx
            -- left delimiter facts
            have hld : smartMergeLeftDelimit arr sep cmp arr[sep] < sep ∧
                (∀ j, j < smartMergeLeftDelimit arr sep cmp arr[sep] →
                  cmp (arr.getD j arr[sep]) arr[sep] ≠ .gt) := by
              have hpost := binarySearchBy_spec h (arr.take sep) arr[sep]
                arr[sep] hs1
              cases hbs : binarySearchBy (arr.take sep)
                  (fun x => cmp x arr[sep]) arr[sep] with
              | ok idx =>
                have hldval : smartMergeLeftDelimit arr sep cmp arr[sep] =
                    idx + 1 := by
                  unfold smartMergeLeftDelimit
                  rw [hbs]
                rw [hldval]
                rw [hbs] at hpost
                obtain ⟨hidxlen, hidxeq⟩ := hpost
                rw [htlen] at hidxlen
                rw [getD_take arr sep idx _ (by omega)] at hidxeq
                have hidxtop : idx ≠ sep - 1 := by
                  intro hidxeq2
                  subst hidxeq2
                  rw [hlmval] at hidxeq
                  rw [hidxeq] at hgt
                  simp at hgt
                refine ⟨by omega, ?_⟩
                intro j hj
                have hle : cmp (arr.getD j arr[sep]) (arr.getD idx arr[sep]) ≠
                    .gt := by
                  have := sortedCmp_le h hs1 j idx arr[sep] (by omega)
                    (by rw [htlen]; omega)
                  rwa [getD_take arr sep j _ (by omega),
                    getD_take arr sep idx _ (by omega)] at this
                exact h.le_of_le_of_eq hle hidxeq
              | err idx =>
                have hldval : smartMergeLeftDelimit arr sep cmp arr[sep] =
                    idx := by
                  unfold smartMergeLeftDelimit
                  rw [hbs]
                rw [hldval]
                rw [hbs] at hpost
                obtain ⟨hidxlen, hlo, hhi⟩ := hpost
                rw [htlen] at hidxlen hhi
                have hidxtop : idx ≠ sep := by
                  intro hidxeq2
                  have := hlo (sep - 1) (by omega)
                  rw [getD_take arr sep (sep - 1) _ (by omega), hlmval] at this
                  rw [hgt] at this
                  exact absurd this (by intro hx; cases hx)
                refine ⟨by omega, ?_⟩
                intro j hj
                have := hlo j (by omega)
                rw [getD_take arr sep j _ (by omega)] at this
                rw [this]
                intro hx
                cases hx
            obtain ⟨hld1, hld2⟩ := hld
            obtain ⟨hrd1, hrd2, hrd3⟩ := hrd
            unfold smartMerge
            rw [if_neg (by omega), if_neg (by push_neg; exact ⟨hsep0, hseplen⟩),
              hlm, hrm]
            show (if cmp arr[sep - 1] arr[sep] ≠ Ordering.gt then arr
              else if sep = smartMergeLeftDelimit arr sep cmp arr[sep] ∨
                  sep = smartMergeRightDelimit arr sep cmp arr[sep - 1] then arr
              else List.take (smartMergeLeftDelimit arr sep cmp arr[sep]) arr ++
                mergeTwoAdjacentInplace
                  (listSlice arr (smartMergeLeftDelimit arr sep cmp arr[sep])
                    (smartMergeRightDelimit arr sep cmp arr[sep - 1]))
                  (sep - smartMergeLeftDelimit arr sep cmp arr[sep]) cmp ++
                List.drop (smartMergeRightDelimit arr sep cmp arr[sep - 1]) arr) = _
            rw [if_neg (by simp [hgt]),
              if_neg (by push_neg; exact ⟨by omega, by omega⟩)]
            -- abbreviations
            set ld := smartMergeLeftDelimit arr sep cmp arr[sep] with hlddef
            set rd := smartMergeRightDelimit arr sep cmp arr[sep - 1] with hrddef
            have hinterlen : (listSlice arr ld rd).length = rd - ld :=
              listSlice_length arr ld rd hrd2
            have hIL : (listSlice arr ld rd).take (sep - ld) =
                listSlice arr ld sep := by
              rw [listSlice_sub arr ld ld sep rd (Nat.le_refl ld) (by omega),
                Nat.sub_self, List.drop_zero]
            have hIR : (listSlice arr ld rd).drop (sep - ld) =
                listSlice arr sep rd := by
              rw [listSlice_sub arr ld sep rd rd (by omega) (Nat.le_refl rd)]
              rw [List.take_of_length_le]
              rw [List.length_drop, hinterlen]
              omega
            have hmtai : mergeTwoAdjacentInplace (listSlice arr ld rd)
                (sep - ld) cmp =
                List.merge (listSlice arr ld sep) (listSlice arr sep rd)
                  (ble cmp) := by
              unfold mergeTwoAdjacentInplace
              rw [if_neg (by rw [hinterlen]; push_neg; omega)]
              rw [mergeTwoSorted_snd, hIL, hIR]
            rw [hmtai]
            -- decompose the halves
            have htksep : arr.take sep = arr.take ld ++ listSlice arr ld sep := by
              rw [show sep = ld + (sep - ld) by omega, List.take_add]
              unfold listSlice
              rw [show ld + (sep - ld) - ld = sep - ld by omega]
            have hdpsep : arr.drop sep = listSlice arr sep rd ++ arr.drop rd := by
              have := List.take_append_drop (rd - sep) (arr.drop sep)
              rw [List.drop_drop] at this
              first
              | rw [show rd - sep + sep = rd by omega] at this
              | rw [show sep + (rd - sep) = rd by omega] at this
              unfold listSlice
              exact this.symm
            rw [htksep, hdpsep]
            -- prefix commutes out
            have hPcond : ∀ x ∈ arr.take ld,
                ∀ y ∈ listSlice arr sep rd ++ arr.drop rd,
                ble cmp x y = true := by
              intro x hx y hy
              rw [← hdpsep] at hy
              obtain ⟨i, hi, hieq⟩ := List.getElem_of_mem hx
              rw [List.length_take] at hi
              have hxle : cmp x arr[sep] ≠ .gt := by
                have := hld2 i (by omega)
                rw [← hieq, List.getElem_take,
                  ← getD_eq_getElem arr i arr[sep] (by omega)]
                exact this
              rw [ble_iff]
              exact h.le_trans x arr[sep] y hxle (hRy y hy)
            have hScond : ∀ x ∈ listSlice arr ld sep, ∀ y ∈ arr.drop rd,
                ble cmp x y = true := by
              intro x hx y hy
              have hxmem : x ∈ arr.take sep := by
                obtain ⟨j, hj1, hj2, hjeq⟩ := slice_mem_getD arr[sep - 1]
                  (by omega) hx
                rw [← hjeq, ← listSlice_zero arr sep]
                exact getD_mem_slice arr 0 sep j arr[sep - 1] (Nat.zero_le j)
                  hj2 (by omega)
              obtain ⟨i, hi, hieq⟩ := List.getElem_of_mem hy
              rw [List.length_drop] at hi
              have hyge : cmp arr[sep - 1] y ≠ .gt := by
                have hstep := hrd3 (rd + i) (by omega) (by omega)
                rw [← hieq, List.getElem_drop]
                intro hcon
                apply hstep
                rw [← getD_eq_getElem arr (rd + i) arr[sep - 1] (by omega)]
                  at hcon
                exact h.lt_iff_gt.mpr hcon
              rw [ble_iff]
              exact h.le_trans x arr[sep - 1] y (hLx x hxmem) hyge
            rw [merge_append_left (arr.take ld) (listSlice arr ld sep) _ hPcond,
              merge_append_suffix (listSlice arr ld sep) (listSlice arr sep rd)
                (arr.drop rd) hScond, ← List.append_assoc]
          · -- already in order: no merging needed
            unfold smartMerge
            rw [if_neg (by omega), if_neg (by push_neg; exact ⟨hsep0, hseplen⟩),
              hlm, hrm]
            show (if cmp arr[sep - 1] arr[sep] ≠ Ordering.gt then arr
              else if sep = smartMergeLeftDelimit arr sep cmp arr[sep] ∨
                  sep = smartMergeRightDelimit arr sep cmp arr[sep - 1] then arr
              else List.take (smartMergeLeftDelimit arr sep cmp arr[sep]) arr ++
                mergeTwoAdjacentInplace
                  (listSlice arr (smartMergeLeftDelimit arr sep cmp arr[sep])
                    (smartMergeRightDelimit arr sep cmp arr[sep - 1]))
                  (sep - smartMergeLeftDelimit arr sep cmp arr[sep]) cmp ++
                List.drop (smartMergeRightDelimit arr sep cmp arr[sep - 1]) arr) = _
            rw [if_pos hgt]
            rw [merge_eq_append (arr.take sep) (arr.drop sep) ?_,
              List.take_append_drop]
            intro x hx y hy
            rw [ble_iff]
            exact h.le_trans x arr[sep] y
              (h.le_trans x arr[sep - 1] arr[sep] (hLx x hx) hgt) (hRy y hy)
        · -- sep beyond the array: the code falls through to the wildcard arm
          unfold smartMerge
          rw [if_neg hlen, if_neg (by push_neg; exact ⟨hsep0, hseplen⟩)]
          have hnone : arr[sep]? = none := List.getElem?_eq_none (by omega)
          rw [hnone, List.take_of_length_le (by omega),
            List.drop_eq_nil_of_le (by omega), List.merge_right]
          cases hpre : arr[sep - 1]? <;> rfl
/-- `simple_merge_sort_inplace` permutes the array and sorts it even with
respect to any tie-breaking refinement `scmp` of the comparator it runs on,
provided the input presented its ties in `scmp` order (stability). -/
theorem simpleMergeSort_master {α : Type _} {cmp scmp : α → α → Ordering}
    (h : TotalCmp cmp) (hs : TotalCmp scmp) (hr : RefineCmp cmp scmp) :
    ∀ (n : Nat) (arr : List α), arr.length ≤ n → TieOrdered cmp scmp arr →
      List.Perm (simpleMergeSortInplace arr cmp) arr ∧
      SortedCmp scmp (simpleMergeSortInplace arr cmp) := by
  intro n
  induction n with
  | zero =>
    intro arr hlen _
    have harr : arr = [] := List.eq_nil_of_length_eq_zero (by omega)
    subst harr
    rw [simpleMergeSortInplace_short [] cmp (by simp)]
    exact ⟨List.Perm.refl _, List.Pairwise.nil⟩
  | succ n ih =>
    intro arr hlen ht
    by_cases hsmall : arr.length ≤ 1
    · rw [simpleMergeSortInplace_short arr cmp hsmall]
      refine ⟨List.Perm.refl _, ?_⟩
      cases arr with
      | nil => exact List.Pairwise.nil
      | cons a t =>
        have htnil : t = [] := by
          simp only [List.length_cons] at hsmall
          exact List.eq_nil_of_length_eq_zero (by omega)
        subst htnil
        unfold SortedCmp
        simp
    · have hstep : simpleMergeSortInplace arr cmp =
          smartMerge
            (simpleMergeSortInplace (arr.take (arr.length / 2)) cmp ++
              simpleMergeSortInplace (arr.drop (arr.length / 2)) cmp)
            (arr.length / 2) cmp := by
        conv_lhs => unfold simpleMergeSortInplace
        rw [dif_neg hsmall]
      rw [hstep]
      have hk1 : (arr.take (arr.length / 2)).length = arr.length / 2 := by
        rw [List.length_take]
        omega
      have hk2 : (arr.drop (arr.length / 2)).length =
          arr.length - arr.length / 2 := List.length_drop _ arr
      obtain ⟨hpL, hsL⟩ := ih (arr.take (arr.length / 2))
        (by rw [hk1]; omega)
        (tieOrdered_sublist (List.take_sublist _ arr) ht)
      obtain ⟨hpR, hsR⟩ := ih (arr.drop (arr.length / 2))
        (by rw [hk2]; omega)
        (tieOrdered_sublist (List.drop_sublist _ arr) ht)
      have hlenSL : (simpleMergeSortInplace (arr.take (arr.length / 2))
          cmp).length = arr.length / 2 := hpL.length_eq.trans hk1
      have htk : (simpleMergeSortInplace (arr.take (arr.length / 2)) cmp ++
          simpleMergeSortInplace (arr.drop (arr.length / 2)) cmp).take
            (arr.length / 2) =
          simpleMergeSortInplace (arr.take (arr.length / 2)) cmp :=
        List.take_left' hlenSL
      have hdk : (simpleMergeSortInplace (arr.take (arr.length / 2)) cmp ++
          simpleMergeSortInplace (arr.drop (arr.length / 2)) cmp).drop
            (arr.length / 2) =
          simpleMergeSortInplace (arr.drop (arr.length / 2)) cmp :=
        List.drop_left' hlenSL
      rw [smartMerge_eq_merge h _ (arr.length / 2)
        (by rw [htk]; exact sortedCmp_of_refined hr hsL)
        (by rw [hdk]; exact sortedCmp_of_refined hr hsR), htk, hdk]
      constructor
      · refine (List.merge_perm_append _).trans ?_
        refine (hpL.append hpR).trans ?_
        rw [List.take_append_drop]
      · apply merge_sorted_refined h hs hr _ _ hsL hsR
        intro x hx y hy he
        have ht2 : TieOrdered cmp scmp
            (arr.take (arr.length / 2) ++ arr.drop (arr.length / 2)) := by
          rw [List.take_append_drop]
          exact ht
        exact (List.pairwise_append.mp ht2).2.2 x (hpL.mem_iff.mp hx)
          y (hpR.mem_iff.mp hy) he
/-- The binary-heap invariant of `MyMinHeap`: every non-root slot is not Less
than its parent `(c-1)/2`. -/
def HeapProp {β : Type _} (hc : β → β → Ordering) (d : β)
    (data : List β) : Prop :=
  ∀ c, 0 < c → c < data.length →
    hc (data.getD ((c - 1) / 2) d) (data.getD c d) ≠ .gt

theorem heapProp_root_le {β : Type _} {hc : β → β → Ordering} {d : β}
    {data : List β} (hh : TotalCmp hc) (hp : HeapProp hc d data) :
    ∀ i, i < data.length → hc (data.getD 0 d) (data.getD i d) ≠ .gt := by
  intro i
  induction i using Nat.strong_induction_on with
  | _ i ih =>
    intro hi
    rcases Nat.eq_zero_or_pos i with h0 | hpos
    · subst h0
      exact hh.ne_gt_of_eq (hh.refl _)
    · exact hh.le_trans _ _ _ (ih ((i - 1) / 2) (by omega) (by omega))
        (hp i hpos hi)

theorem siftUpLoop_spec {β : Type _} {hc : β → β → Ordering} {d : β}
    (hh : TotalCmp hc) :
    ∀ (fuel : Nat) (data : List β) (curr : Nat), curr ≤ fuel →
      curr < data.length →
      (∀ c, 0 < c → c < data.length → c ≠ curr →
        hc (data.getD ((c - 1) / 2) d) (data.getD c d) ≠ .gt) →
      (0 < curr → ∀ c, 0 < c → c < data.length → (c - 1) / 2 = curr →
        hc (data.getD ((curr - 1) / 2) d) (data.getD c d) ≠ .gt) →
      HeapProp hc d (siftUpLoop hc d fuel data curr) ∧
      List.Perm (siftUpLoop hc d fuel data curr) data ∧
      (siftUpLoop hc d fuel data curr).length = data.length := by
  intro fuel
  induction fuel with
  | zero =>
    intro data curr hcf hclen hexc _hgr
    have hc0 : curr = 0 := by omega
    subst hc0
    simp only [siftUpLoop]
    exact ⟨fun c hc1 hc2 => hexc c hc1 hc2 (by omega), List.Perm.refl _,
      by trivial⟩
  | succ n ih =>
    intro data curr hcf hclen hexc hgr
    simp only [siftUpLoop]
    by_cases hc0 : curr = 0
    · rw [if_pos hc0]
      subst hc0
      exact ⟨fun c hc1 hc2 => hexc c hc1 hc2 (by omega), List.Perm.refl _, rfl⟩
    · rw [if_neg hc0]
      by_cases hsw : hc (data.getD ((curr - 1) / 2) d) (data.getD curr d) = .gt
      · rw [if_pos hsw]
        have hplen : (curr - 1) / 2 < data.length := by omega
        have hswlen : (listSwap data ((curr - 1) / 2) curr).length =
            data.length := length_listSwap data _ curr
        have hgetp : (listSwap data ((curr - 1) / 2) curr).getD
            ((curr - 1) / 2) d = data.getD curr d :=
          getD_listSwap_fst data _ curr d hplen hclen
        have hgetc : (listSwap data ((curr - 1) / 2) curr).getD curr d =
            data.getD ((curr - 1) / 2) d :=
          getD_listSwap_snd data _ curr d hplen hclen
        have hgeto : ∀ k, k ≠ (curr - 1) / 2 → k ≠ curr →
            (listSwap data ((curr - 1) / 2) curr).getD k d = data.getD k d :=
          fun k hk1 hk2 => getD_listSwap_other data _ curr k d hk1 hk2
        have hlt : hc (data.getD curr d) (data.getD ((curr - 1) / 2) d) =
            .lt := hh.gt_iff_lt.mp hsw
        obtain ⟨hH, hP, hL⟩ := ih (listSwap data ((curr - 1) / 2) curr)
          ((curr - 1) / 2) (by omega) (by omega)
          (by
            intro c hcpos hclen2 hne
            rw [hswlen] at hclen2
            by_cases hcc : c = curr
            · subst hcc
              have hpar : (c - 1) / 2 = (c - 1) / 2 := rfl
              rw [hgetc, hgetp]
              exact hh.ne_gt_of_lt hlt
            · by_cases hq1 : (c - 1) / 2 = (curr - 1) / 2
              · -- sibling of curr under the same parent
                rw [hq1, hgetp, hgeto c (by omega) hcc]
                have hedge := hexc c hcpos hclen2 hcc
                rw [hq1] at hedge
                exact hh.ne_gt_of_lt (hh.lt_of_lt_of_le hlt hedge)
              · by_cases hq2 : (c - 1) / 2 = curr
                · -- child of curr: use the grandparent clause
                  rw [hq2, hgetc, hgeto c (by omega) hcc]
                  exact hgr (by omega) c hcpos hclen2 hq2
                · rw [hgeto ((c - 1) / 2) hq1 hq2, hgeto c (by omega) hcc]
                  exact hexc c hcpos hclen2 hcc)
          (by
            intro hppos c hcpos hclen2 hcpar
            rw [hswlen] at hclen2
            have hgval : (listSwap data ((curr - 1) / 2) curr).getD
                (((curr - 1) / 2 - 1) / 2) d =
                data.getD (((curr - 1) / 2 - 1) / 2) d :=
              hgeto _ (by omega) (by omega)
            rw [hgval]
            by_cases hcc : c = curr
            · rw [hcc, hgetc]
              exact hexc ((curr - 1) / 2) hppos hplen (by omega)
            · rw [hgeto c (by omega) hcc]
              have h1 := hexc ((curr - 1) / 2) hppos hplen (by omega)
              have h2 := hexc c hcpos hclen2 hcc
              rw [hcpar] at h2
              exact hh.le_trans _ _ _ h1 h2)
        exact ⟨hH, hP.trans (listSwap_perm data _ curr), hL.trans hswlen⟩
      · rw [if_neg hsw]
        refine ⟨?_, List.Perm.refl _, rfl⟩
        intro c hc1 hc2
        by_cases hcc : c = curr
        · subst hcc
          exact hsw
        · exact hexc c hc1 hc2 hcc
theorem heapInsert_spec {β : Type _} {hc : β → β → Ordering} {d : β}
    (hh : TotalCmp hc) (data : List β) (v : β) (hp : HeapProp hc d data) :
    HeapProp hc d (heapInsert hc d data v) ∧
    List.Perm (heapInsert hc d data v) (data ++ [v]) ∧
    (heapInsert hc d data v).length = data.length + 1 := by
  unfold heapInsert
  have hlen : (data ++ [v]).length = data.length + 1 := by simp
  obtain ⟨hH, hP, hL⟩ := siftUpLoop_spec hh (data.length + 1) (data ++ [v])
    data.length (by omega) (by rw [hlen]; omega)
    (by
      intro c hc1 hc2 hne
      rw [hlen] at hc2
      have hcd : c < data.length := by omega
      rw [getD_append_left data [v] c d hcd,
        getD_append_left data [v] _ d (by omega)]
      exact hp c hc1 hcd)
    (by
      intro _hpos c hc1 hc2 hpar
      rw [hlen] at hc2
      omega)
  exact ⟨hH, hP, by rw [hL, hlen]⟩

theorem siftDownLoop_spec {β : Type _} {hc : β → β → Ordering} {d : β}
    (hh : TotalCmp hc) :
    ∀ (fuel : Nat) (data : List β) (curr : Nat),
      data.length - curr ≤ fuel →
      (∀ c, 0 < c → c < data.length → (c - 1) / 2 ≠ curr →
        hc (data.getD ((c - 1) / 2) d) (data.getD c d) ≠ .gt) →
      (0 < curr → ∀ c, 0 < c → c < data.length → (c - 1) / 2 = curr →
        hc (data.getD ((curr - 1) / 2) d) (data.getD c d) ≠ .gt) →
      HeapProp hc d (siftDownLoop hc d fuel data curr) ∧
      List.Perm (siftDownLoop hc d fuel data curr) data ∧
      (siftDownLoop hc d fuel data curr).length = data.length := by
  intro fuel
  induction fuel with
  | zero =>
    intro data curr hf hexc _hgr
    simp only [siftDownLoop]
    refine ⟨?_, List.Perm.refl _, by trivial⟩
    intro c hc1 hc2
    exact hexc c hc1 hc2 (by omega)
  | succ n ih =>
    intro data curr hf hexc hgr
    simp only [siftDownLoop]
    set m1e := if 2 * curr + 1 < data.length ∧
        hc (data.getD (2 * curr + 1) d) (data.getD curr d) = .lt
      then 2 * curr + 1 else curr with hm1def
    set m2e := if 2 * curr + 2 < data.length ∧
        hc (data.getD (2 * curr + 2) d) (data.getD m1e d) = .lt
      then 2 * curr + 2 else m1e with hm2def
    have hm1facts : (m1e = curr ∨
          (m1e = 2 * curr + 1 ∧ 2 * curr + 1 < data.length)) ∧
        hc (data.getD m1e d) (data.getD curr d) ≠ .gt ∧
        (2 * curr + 1 < data.length →
          hc (data.getD m1e d) (data.getD (2 * curr + 1) d) ≠ .gt) := by
      rw [hm1def]
      by_cases h1 : 2 * curr + 1 < data.length ∧
          hc (data.getD (2 * curr + 1) d) (data.getD curr d) = .lt
      · rw [if_pos h1]
        exact ⟨Or.inr ⟨rfl, h1.1⟩, hh.ne_gt_of_lt h1.2,
          fun _ => hh.ne_gt_of_eq (hh.refl _)⟩
      · rw [if_neg h1]
        refine ⟨Or.inl rfl, hh.ne_gt_of_eq (hh.refl _), ?_⟩
        intro hlc
        have hnlt : hc (data.getD (2 * curr + 1) d) (data.getD curr d) ≠
            .lt := fun hx => h1 ⟨hlc, hx⟩
        rw [hh.symm]
        rcases hx : hc (data.getD (2 * curr + 1) d) (data.getD curr d)
          with _ | _ | _
        · exact absurd hx hnlt
        · intro hy
          cases hy
        · intro hy
          cases hy
    have hm2facts : (m2e = m1e ∨
          (m2e = 2 * curr + 2 ∧ 2 * curr + 2 < data.length)) ∧
        hc (data.getD m2e d) (data.getD m1e d) ≠ .gt ∧
        (2 * curr + 2 < data.length →
          hc (data.getD m2e d) (data.getD (2 * curr + 2) d) ≠ .gt) := by
      rw [hm2def]
      by_cases h2 : 2 * curr + 2 < data.length ∧
          hc (data.getD (2 * curr + 2) d) (data.getD m1e d) = .lt
      · rw [if_pos h2]
        exact ⟨Or.inr ⟨rfl, h2.1⟩, hh.ne_gt_of_lt h2.2,
          fun _ => hh.ne_gt_of_eq (hh.refl _)⟩
      · rw [if_neg h2]
        refine ⟨Or.inl rfl, hh.ne_gt_of_eq (hh.refl _), ?_⟩
        intro hrc
        have hnlt : hc (data.getD (2 * curr + 2) d) (data.getD m1e d) ≠
            .lt := fun hx => h2 ⟨hrc, hx⟩
        rw [hh.symm]
        rcases hx : hc (data.getD (2 * curr + 2) d) (data.getD m1e d)
          with _ | _ | _
        · exact absurd hx hnlt
        · intro hy
          cases hy
        · intro hy
          cases hy
    obtain ⟨hm1cases, hm1curr, hm1lc⟩ := hm1facts
    obtain ⟨hm2cases, hm2m1, hm2rc⟩ := hm2facts
    have hm2curr : hc (data.getD m2e d) (data.getD curr d) ≠ .gt :=
      hh.le_trans _ _ _ hm2m1 hm1curr
    have hm2lc : 2 * curr + 1 < data.length →
        hc (data.getD m2e d) (data.getD (2 * curr + 1) d) ≠ .gt :=
      fun hlc => hh.le_trans _ _ _ hm2m1 (hm1lc hlc)
    by_cases hstop : m2e = curr
    · rw [if_pos hstop]
      refine ⟨?_, List.Perm.refl _, by trivial⟩
      intro c hc1 hc2
      by_cases hpar : (c - 1) / 2 = curr
      · have hcases : c = 2 * curr + 1 ∨ c = 2 * curr + 2 := by omega
        rw [hpar]
        rcases hcases with hcc | hcc
        · subst hcc
          have := hm2lc hc2
          rwa [hstop] at this
        · subst hcc
          have := hm2rc hc2
          rwa [hstop] at this
      · exact hexc c hc1 hc2 hpar
    · rw [if_neg hstop]
      have hm2child : (m2e = 2 * curr + 1 ∨ m2e = 2 * curr + 2) ∧
          m2e < data.length := by
        rcases hm2cases with hx | hx
        · rcases hm1cases with hy | hy
          · exact absurd (hx.trans hy) hstop
          · rw [hx]
            exact ⟨Or.inl hy.1, by omega⟩
        · rw [hx.1]
          exact ⟨Or.inr rfl, hx.2⟩
      have hcurrlen : curr < data.length := by omega
      have hm2par : (m2e - 1) / 2 = curr := by
        rcases hm2child.1 with hx | hx <;> omega
      have hm2gt : curr < m2e := by
        rcases hm2child.1 with hx | hx <;> omega
      have hswlen : (listSwap data curr m2e).length = data.length :=
        length_listSwap data curr m2e
      have hgetcu : (listSwap data curr m2e).getD curr d = data.getD m2e d :=
        getD_listSwap_fst data curr m2e d hcurrlen hm2child.2
      have hgetm2 : (listSwap data curr m2e).getD m2e d = data.getD curr d :=
        getD_listSwap_snd data curr m2e d hcurrlen hm2child.2
      have hgeto : ∀ k, k ≠ curr → k ≠ m2e →
          (listSwap data curr m2e).getD k d = data.getD k d :=
        fun k hk1 hk2 => getD_listSwap_other data curr m2e k d hk1 hk2
      obtain ⟨hH, hP, hL⟩ := ih (listSwap data curr m2e) m2e
        (by rw [hswlen]; omega)
        (by
          intro c hc1 hc2 hne
          rw [hswlen] at hc2
          by_cases hcm2 : c = m2e
          · rw [hcm2, hm2par, hgetcu, hgetm2]
            exact hm2curr
          · by_cases hccurr : c = curr
            · have hcpos : 0 < curr := by omega
              rw [hccurr, hgetcu,
                hgeto ((curr - 1) / 2) (by omega) (by omega)]
              exact hgr hcpos m2e (by omega) hm2child.2 hm2par
            · by_cases hpc : (c - 1) / 2 = curr
              · -- sibling of m2e
                have hcases : c = 2 * curr + 1 ∨ c = 2 * curr + 2 := by omega
                rw [hpc, hgetcu, hgeto c hccurr hcm2]
                rcases hcases with hcc | hcc
                · rw [hcc]
                  exact hm2lc (by omega)
                · rw [hcc]
                  exact hm2rc (by omega)
              · rw [hgeto ((c - 1) / 2) hpc (by omega),
                  hgeto c hccurr hcm2]
                exact hexc c hc1 hc2 hpc)
        (by
          intro _hpos c hc1 hc2 hcpar
          rw [hswlen] at hc2
          rw [hm2par, hgetcu, hgeto c (by omega) (by omega), ← hcpar]
          exact hexc c hc1 hc2 (by omega))
      exact ⟨hH, hP.trans (listSwap_perm data curr m2e), hL.trans hswlen⟩
theorem getD_dropLast {β : Type _} (l : List β) (j : Nat) (d : β)
    (hj : j < l.length - 1) : l.dropLast.getD j d = l.getD j d := by
  rw [getD_eq_getElem _ _ _ (by rw [List.length_dropLast]; omega),
    getD_eq_getElem _ _ _ (by omega)]
  exact List.getElem_dropLast l j _

theorem getLast_cons_dropLast_perm {β : Type _} (l : List β) (h : l ≠ []) :
    List.Perm (l.getLast h :: l.dropLast) l := by
  conv_rhs => rw [← List.dropLast_append_getLast h]
  exact (List.perm_append_singleton _ _).symm

theorem heapTakeMin_spec {β : Type _} {hc : β → β → Ordering} {d : β}
    (hh : TotalCmp hc) (data : List β) (hp : HeapProp hc d data)
    (hne : data ≠ []) :
    ∃ m rest, heapTakeMin hc d data = (some m, rest) ∧
      List.Perm (m :: rest) data ∧ HeapProp hc d rest ∧
      (∀ y ∈ data, hc m y ≠ .gt) := by
  have hmin : ∀ y ∈ data, hc (data.getD 0 d) y ≠ .gt := by
    intro y hy
    obtain ⟨i, hi, hieq⟩ := List.getElem_of_mem hy
    rw [← hieq, ← getD_eq_getElem data i d hi]
    exact heapProp_root_le hh hp i hi
  cases data with
  | nil => exact absurd rfl hne
  | cons x tail =>
    cases tail with
    | nil =>
      refine ⟨x, [], rfl, List.Perm.refl _, ?_, ?_⟩
      · intro c hc1 hc2
        simp at hc2
      · intro y hy
        simpa using hmin y hy
    | cons y t =>
      have htne : (y :: t) ≠ [] := by simp
      have harr2len : ((y :: t).getLast htne :: (y :: t).dropLast).length =
          (y :: t).length := by
        simp only [List.length_cons, List.length_dropLast]
        simp
      obtain ⟨hH, hP, hL⟩ := siftDownLoop_spec hh
        ((y :: t).getLast htne :: (y :: t).dropLast).length
        ((y :: t).getLast htne :: (y :: t).dropLast) 0
        (by omega)
        (by
          intro c hc1 hc2 hpar
          have hparpos : 0 < (c - 1) / 2 := by omega
          have hc3 : c ≥ 3 := by omega
          have hclen : c < (y :: t).length := by
            rw [harr2len] at hc2
            omega
          have hget : ∀ k, 0 < k →
              k < ((y :: t).getLast htne :: (y :: t).dropLast).length →
              ((y :: t).getLast htne :: (y :: t).dropLast).getD k d =
                (x :: y :: t).getD k d := by
            intro k hk1 hk2
            rw [harr2len] at hk2
            have hk3 : k - 1 < (y :: t).length - 1 := by
              simp only [List.length_cons] at hk2 ⊢
              omega
            rw [show k = (k - 1) + 1 by omega, List.getD_cons_succ,
              getD_dropLast _ _ _ hk3, List.getD_cons_succ]
          rw [hget c (by omega) hc2, hget ((c - 1) / 2) hparpos
            (by
              rw [harr2len]
              simp only [List.length_cons] at hclen ⊢
              omega)]
          exact hp c (by omega)
            (by simp only [List.length_cons] at hclen ⊢; omega)
        )
        (by intro hcon; omega)
      refine ⟨x, _, rfl, ?_, hH, ?_⟩
      · refine (List.Perm.cons x (hP.trans
          (getLast_cons_dropLast_perm (y :: t) htne)))
      · intro z hz
        have := hmin z hz
        simpa using this
theorem ordering_then_ne_gt (x y : Ordering) :
    x.then y ≠ .gt ↔ x = .lt ∨ (x = .eq ∧ y ≠ .gt) := by
  cases x <;> cases y <;> decide

theorem heapCmp_total {α : Type _} {cmp : α → α → Ordering}
    (h : TotalCmp cmp) : TotalCmp (heapCmp cmp) := by
  constructor
  · intro a b
    unfold heapCmp
    rw [h.symm a.1 b.1, natCmp_total.symm a.2 b.2]
    generalize cmp a.1 b.1 = o1
    generalize natCmp a.2 b.2 = o2
    cases o1 <;> cases o2 <;> rfl
  · intro a b c hab hbc
    unfold heapCmp at *
    rw [ordering_then_ne_gt] at hab hbc ⊢
    rcases hab with hab | ⟨hab, hab2⟩ <;> rcases hbc with hbc | ⟨hbc, hbc2⟩
    · exact Or.inl (h.lt_trans hab hbc)
    · exact Or.inl (h.lt_of_lt_of_eq hab hbc)
    · exact Or.inl (h.lt_of_eq_of_lt hab hbc)
    · exact Or.inr ⟨h.eq_trans hab hbc,
        natCmp_total.le_trans _ _ _ hab2 hbc2⟩

theorem range_map_getD {γ : Type _} (l : List γ) (d : γ) :
    (List.range l.length).map (fun j => l.getD j d) = l := by
  apply List.ext_getElem
  · simp
  · intro i h1 h2
    simp only [List.getElem_map, List.getElem_range]
    exact getD_eq_getElem l i d h2

theorem flatten_update_cons {γ : Type _} (g g2 : Nat → List γ) (v : γ) :
    ∀ (n i : Nat), i < n → g i = v :: g2 i → (∀ j, j ≠ i → g j = g2 j) →
    List.Perm (List.flatten ((List.range n).map g))
      (v :: List.flatten ((List.range n).map g2)) := by
  intro n
  induction n with
  | zero =>
    intro i hi
    omega
  | succ n ih =>
    intro i hi hupd hsame
    rw [List.range_succ, List.map_append, List.map_append,
      List.flatten_append, List.flatten_append]
    simp only [List.map_cons, List.map_nil, List.flatten_cons,
      List.flatten_nil, List.append_nil]
    by_cases hin : i = n
    · have hmapeq : (List.range n).map g = (List.range n).map g2 :=
        List.map_congr_left (fun j hj => hsame j
          (by rw [List.mem_range] at hj; omega))
      rw [hmapeq, show g n = v :: g2 n from hin ▸ hupd]
      exact List.perm_middle
    · have hperm := ih i (by omega) hupd hsame
      rw [hsame n (fun hx => hin hx.symm)]
      exact hperm.append_right (g2 n)

theorem flatten_length_sum {γ : Type _} (g : Nat → List γ) (n : Nat) :
    (List.flatten ((List.range n).map g)).length =
      ((List.range n).map (fun i => (g i).length)).sum := by
  rw [List.length_flatten, List.map_map]
  rfl
/-- The multiset still to be emitted by the k-way merge loop: for each source
array that still has its candidate inside the heap (its index is among the
heap's tags), everything from the candidate on; nothing for exhausted
sources. -/
def kWayRem {α : Type _} (arrs : List (List α)) (indices : List Nat)
    (tags : List Nat) (i : Nat) : List α :=
  if i ∈ tags then (arrs.getD i []).drop (indices.getD i 0 - 1) else []

theorem kWayLoop_spec {α : Type _} {cmp scmp : α → α → Ordering} {d : α}
    (h : TotalCmp cmp) (hs : TotalCmp scmp) (hr : RefineCmp cmp scmp)
    (arrs : List (List α))
    (hsorted : ∀ i, i < arrs.length → SortedCmp scmp (arrs.getD i []))
    (hcross : ∀ i j, i < j → j < arrs.length → ∀ x ∈ arrs.getD i [],
      ∀ y ∈ arrs.getD j [], cmp x y = .eq → scmp x y ≠ .gt) :
    ∀ (fuel : Nat) (heap : List (α × Nat)) (indices : List Nat),
      HeapProp (heapCmp cmp) (d, 0) heap →
      (∀ e ∈ heap, e.2 < arrs.length ∧ 1 ≤ indices.getD e.2 0 ∧
        indices.getD e.2 0 ≤ (arrs.getD e.2 []).length ∧
        e.1 = (arrs.getD e.2 []).getD (indices.getD e.2 0 - 1) d) →
      (heap.map Prod.snd).Nodup →
      indices.length = arrs.length →
      ((List.range arrs.length).map (fun i =>
        (kWayRem arrs indices (heap.map Prod.snd) i).length)).sum ≤ fuel →
      List.Perm (kWayLoop cmp d arrs fuel heap indices)
        (List.flatten ((List.range arrs.length).map
          (kWayRem arrs indices (heap.map Prod.snd)))) ∧
      SortedCmp scmp (kWayLoop cmp d arrs fuel heap indices) := by
  intro fuel
  induction fuel with
  | zero =>
    intro heap indices _ _ _ _ hfuel
    have hlen0 : (List.flatten ((List.range arrs.length).map
        (kWayRem arrs indices (heap.map Prod.snd)))).length = 0 := by
      rw [flatten_length_sum]
      omega
    rw [List.length_eq_zero] at hlen0
    rw [hlen0]
    simp only [kWayLoop]
    exact ⟨List.Perm.refl _, List.Pairwise.nil⟩
  | succ n ih =>
    intro heap indices hH hb hnodup hilen hfuel
    cases heap with
    | nil =>
      have hrem : ∀ j, kWayRem arrs indices (([] : List (α × Nat)).map
          Prod.snd) j = [] := by
        intro j
        unfold kWayRem
        rw [if_neg (by simp)]
      have hflat : List.flatten ((List.range arrs.length).map
          (kWayRem arrs indices (([] : List (α × Nat)).map Prod.snd))) = [] := by
        rw [List.eq_nil_iff_forall_not_mem]
        intro x hx
        obtain ⟨l, hl, hxl⟩ := List.mem_flatten.mp hx
        obtain ⟨j, _, hj2⟩ := List.mem_map.mp hl
        rw [← hj2, hrem j] at hxl
        simp at hxl
      rw [hflat]
      simp only [kWayLoop, heapTakeMin]
      exact ⟨List.Perm.refl _, List.Pairwise.nil⟩
    | cons e0 hrest =>
      obtain ⟨m, rest, heq, hperm, hH2, hmin⟩ :=
        heapTakeMin_spec (heapCmp_total h) (e0 :: hrest) hH (by simp)
      obtain ⟨v, vi⟩ := m
      have hmem : (v, vi) ∈ e0 :: hrest := hperm.mem_iff.mp
        (List.mem_cons_self _ _)
      obtain ⟨hvia, hvib, hvic, hvid⟩ := hb (v, vi) hmem
      dsimp only at hvia hvib hvic hvid
      have htags : List.Perm (vi :: rest.map Prod.snd)
          ((e0 :: hrest).map Prod.snd) := hperm.map Prod.snd
      have hnodup2 : (vi :: rest.map Prod.snd).Nodup :=
        htags.symm.nodup hnodup
      have hvinotrest : vi ∉ rest.map Prod.snd :=
        (List.nodup_cons.mp hnodup2).1
      have hrestnodup : (rest.map Prod.snd).Nodup :=
        (List.nodup_cons.mp hnodup2).2
      have htagsiff : ∀ j, j ∈ (e0 :: hrest).map Prod.snd ↔
          (j = vi ∨ j ∈ rest.map Prod.snd) := by
        intro j
        rw [← htags.mem_iff]
        simp [List.mem_cons]
      have hrestb : ∀ e' ∈ rest, e'.2 < arrs.length ∧
          1 ≤ indices.getD e'.2 0 ∧
          indices.getD e'.2 0 ≤ (arrs.getD e'.2 []).length ∧
          e'.1 = (arrs.getD e'.2 []).getD (indices.getD e'.2 0 - 1) d :=
        fun e' he' => hb e' (hperm.mem_iff.mp (List.mem_cons_of_mem _ he'))
      have hvmem : v ∈ arrs.getD vi [] := by
        rw [hvid, getD_eq_getElem (arrs.getD vi []) (indices.getD vi 0 - 1)
          d (by omega)]
        exact List.getElem_mem _
      -- the popped element is below every still-pending element
      have hcandle : ∀ j, j ∈ rest.map Prod.snd →
          scmp v ((arrs.getD j []).getD (indices.getD j 0 - 1) d) ≠ .gt := by
        intro j hj
        obtain ⟨e', he', he'2⟩ := List.mem_map.mp hj
        obtain ⟨hea, heb, hec, hed⟩ := hrestb e' he'
        have hmine : heapCmp cmp (v, vi) e' ≠ .gt :=
          hmin e' (hperm.mem_iff.mp (List.mem_cons_of_mem _ he'))
        unfold heapCmp at hmine
        rw [ordering_then_ne_gt] at hmine
        have hcval : e'.1 = (arrs.getD j []).getD (indices.getD j 0 - 1) d :=
          by rw [hed, he'2]
        rcases hmine with hlt | ⟨heqc, htag⟩
        · rw [← hcval]
          intro hcon
          rw [hr.lt hlt] at hcon
          cases hcon
        · have hvij : vi < j := by
            have : vi ≠ j := fun hx => hvinotrest (hx ▸ hj)
            have hnat : natCmp (v, vi).2 e'.2 ≠ .gt := htag
            unfold natCmp at hnat
            simp only at hnat
            rw [he'2] at hnat
            by_cases hlt2 : vi < j
            · exact hlt2
            · exfalso
              rcases Nat.lt_or_ge j vi with hx | hx
              · rw [if_neg (by omega), if_neg (by omega)] at hnat
                exact hnat rfl
              · omega
          rw [← hcval]
          have he'mem : e'.1 ∈ arrs.getD j [] := by
            rw [hed, he'2, getD_eq_getElem (arrs.getD j [])
              (indices.getD j 0 - 1) d (by rw [← he'2]; omega)]
            exact List.getElem_mem _
          exact hcross vi j hvij (he'2 ▸ hea) v hvmem e'.1 he'mem heqc
      -- below everything from a cut position on, in any source
      have hdrople : ∀ j, j < arrs.length → ∀ k,
          k < (arrs.getD j []).length →
          scmp v ((arrs.getD j []).getD k d) ≠ .gt →
          ∀ z ∈ (arrs.getD j []).drop k, scmp v z ≠ .gt := by
        intro j hj k hk hvc z hz
        have hdrop := @List.drop_eq_getElem_cons _ k (arrs.getD j []) hk
        rw [hdrop] at hz
        have hsortj := sortedCmp_drop (hsorted j hj) k
        rw [hdrop] at hsortj
        rcases List.mem_cons.mp hz with hz1 | hz2
        · rw [hz1, ← getD_eq_getElem (arrs.getD j []) k d hk]
          exact hvc
        · refine hs.le_trans _ _ _ hvc ?_
          rw [getD_eq_getElem (arrs.getD j []) k d hk]
          exact List.rel_of_pairwise_cons hsortj hz2
      simp only [kWayLoop, heq]
      by_cases hmore : indices.getD vi 0 < (arrs.getD vi []).length
      · rw [if_pos hmore]
        -- re-arm source vi with its next element
        obtain ⟨hH3, hP3, hL3⟩ := heapInsert_spec (heapCmp_total h) rest
          ((arrs.getD vi []).getD (indices.getD vi 0) d, vi) hH2
        have htags3 : List.Perm ((heapInsert (heapCmp cmp) (d, 0) rest
            ((arrs.getD vi []).getD (indices.getD vi 0) d, vi)).map Prod.snd)
            (rest.map Prod.snd ++ [vi]) := by
          have := hP3.map Prod.snd
          rwa [List.map_append] at this
        have htags3iff : ∀ j, j ∈ (heapInsert (heapCmp cmp) (d, 0) rest
            ((arrs.getD vi []).getD (indices.getD vi 0) d, vi)).map Prod.snd ↔
            (j = vi ∨ j ∈ rest.map Prod.snd) := by
          intro j
          rw [htags3.mem_iff]
          simp [List.mem_append, Or.comm]
        have hset : ((indices.set vi (indices.getD vi 0 + 1)).getD vi 0) =
            indices.getD vi 0 + 1 :=
          getD_set_self indices vi _ 0 (by omega)
        have hsetne : ∀ j, j ≠ vi →
            (indices.set vi (indices.getD vi 0 + 1)).getD j 0 =
            indices.getD j 0 :=
          fun j hj => getD_set_ne indices vi j _ 0 (fun hx => hj hx.symm)
        have hupd : kWayRem arrs indices ((e0 :: hrest).map Prod.snd) vi =
            v :: kWayRem arrs (indices.set vi (indices.getD vi 0 + 1))
              ((heapInsert (heapCmp cmp) (d, 0) rest
                ((arrs.getD vi []).getD (indices.getD vi 0) d, vi)).map
                  Prod.snd) vi := by
          unfold kWayRem
          rw [if_pos ((htagsiff vi).mpr (Or.inl rfl)),
            if_pos ((htags3iff vi).mpr (Or.inl rfl)), hset]
          have hdec : (arrs.getD vi []).drop (indices.getD vi 0 - 1) =
              (arrs.getD vi []).getD (indices.getD vi 0 - 1) d ::
                (arrs.getD vi []).drop (indices.getD vi 0 - 1 + 1) := by
            rw [getD_eq_getElem (arrs.getD vi []) (indices.getD vi 0 - 1) d
              (by omega)]
            exact @List.drop_eq_getElem_cons _ _ _ (by omega)
          rw [hdec, ← hvid,
            show indices.getD vi 0 - 1 + 1 = indices.getD vi 0 + 1 - 1
              by omega]
        have hsame : ∀ j, j ≠ vi →
            kWayRem arrs indices ((e0 :: hrest).map Prod.snd) j =
            kWayRem arrs (indices.set vi (indices.getD vi 0 + 1))
              ((heapInsert (heapCmp cmp) (d, 0) rest
                ((arrs.getD vi []).getD (indices.getD vi 0) d, vi)).map
                  Prod.snd) j := by
          intro j hj
          unfold kWayRem
          have hmemiff : (j ∈ (e0 :: hrest).map Prod.snd) =
              (j ∈ (heapInsert (heapCmp cmp) (d, 0) rest
                ((arrs.getD vi []).getD (indices.getD vi 0) d, vi)).map
                  Prod.snd) := by
            rw [propext (htagsiff j), propext (htags3iff j)]
          rw [hsetne j hj]
          exact if_congr (iff_of_eq hmemiff) rfl rfl
        obtain ⟨ihP, ihS⟩ := ih (heapInsert (heapCmp cmp) (d, 0) rest
            ((arrs.getD vi []).getD (indices.getD vi 0) d, vi))
          (indices.set vi (indices.getD vi 0 + 1)) hH3
          (by
            intro e' he'
            have he'2 : e' ∈ rest ++
                [((arrs.getD vi []).getD (indices.getD vi 0) d, vi)] :=
              hP3.mem_iff.mp he'
            rcases List.mem_append.mp he'2 with he3 | he3
            · obtain ⟨hea, heb, hec, hed⟩ := hrestb e' he3
              have hne : e'.2 ≠ vi := by
                intro hx
                exact hvinotrest (hx ▸ List.mem_map_of_mem Prod.snd he3)
              rw [hsetne e'.2 hne]
              exact ⟨hea, heb, hec, hed⟩
            · rw [List.mem_singleton.mp he3]
              simp only
              rw [hset]
              exact ⟨hvia, by omega, by omega, by
                rw [show indices.getD vi 0 + 1 - 1 = indices.getD vi 0
                  from by omega]⟩)
          (by
            refine htags3.symm.nodup ?_
            rw [List.nodup_append]
            refine ⟨hrestnodup, by simp, ?_⟩
            intro a ha hb2
            rw [List.mem_singleton] at hb2
            exact hvinotrest (hb2 ▸ ha))
          (by rw [List.length_set]; exact hilen)
          (by
            have hflateq := flatten_update_cons
              (kWayRem arrs indices ((e0 :: hrest).map Prod.snd))
              (kWayRem arrs (indices.set vi (indices.getD vi 0 + 1))
                ((heapInsert (heapCmp cmp) (d, 0) rest
                  ((arrs.getD vi []).getD (indices.getD vi 0) d, vi)).map
                    Prod.snd)) v arrs.length vi hvia hupd hsame
            have hlens := hflateq.length_eq
            rw [flatten_length_sum, List.length_cons, flatten_length_sum]
              at hlens
            omega)
        constructor
        · refine (ihP.cons v).trans ?_
          exact (flatten_update_cons _ _ v arrs.length vi hvia hupd
            hsame).symm
        · unfold SortedCmp
          rw [List.pairwise_cons]
          refine ⟨?_, ihS⟩
          intro z hz
          have hz2 := ihP.mem_iff.mp hz
          obtain ⟨l, hl, hzl⟩ := List.mem_flatten.mp hz2
          obtain ⟨j, hj, hj2⟩ := List.mem_map.mp hl
          rw [List.mem_range] at hj
          rw [← hj2] at hzl
          unfold kWayRem at hzl
          by_cases hjmem : j ∈ (heapInsert (heapCmp cmp) (d, 0) rest
              ((arrs.getD vi []).getD (indices.getD vi 0) d, vi)).map
                Prod.snd
          · rw [if_pos hjmem] at hzl
            rcases (htags3iff j).mp hjmem with hjvi | hjrest
            · -- the refreshed candidate of source vi
              rw [hjvi, hset,
                show indices.getD vi 0 + 1 - 1 = indices.getD vi 0
                  from by omega] at hzl
              refine hdrople vi hvia (indices.getD vi 0) (by omega) ?_ z hzl
              rw [hvid]
              exact sortedCmp_le hs (hsorted vi hvia)
                (indices.getD vi 0 - 1) (indices.getD vi 0) d (by omega)
                (by omega)
            · have hjne : j ≠ vi := fun hx => hvinotrest (hx ▸ hjrest)
              rw [hsetne j hjne] at hzl
              obtain ⟨e', he', he'2⟩ := List.mem_map.mp hjrest
              obtain ⟨hea, heb, hec, _⟩ := hrestb e' he'
              refine hdrople j (he'2 ▸ hea) (indices.getD j 0 - 1)
                (by rw [← he'2]; omega) (hcandle j hjrest) z hzl
          · rw [if_neg hjmem] at hzl
            simp at hzl
      · rw [if_neg hmore]
        -- source vi exhausted: drop it
        have hupd : kWayRem arrs indices ((e0 :: hrest).map Prod.snd) vi =
            v :: kWayRem arrs indices (rest.map Prod.snd) vi := by
          unfold kWayRem
          rw [if_pos ((htagsiff vi).mpr (Or.inl rfl)), if_neg hvinotrest]
          have hdec : (arrs.getD vi []).drop (indices.getD vi 0 - 1) =
              (arrs.getD vi []).getD (indices.getD vi 0 - 1) d ::
                (arrs.getD vi []).drop (indices.getD vi 0 - 1 + 1) := by
            rw [getD_eq_getElem (arrs.getD vi []) (indices.getD vi 0 - 1) d
              (by omega)]
            exact @List.drop_eq_getElem_cons _ _ _ (by omega)
          rw [hdec, ← hvid,
            show indices.getD vi 0 - 1 + 1 = indices.getD vi 0 by omega,
            List.drop_eq_nil_of_le (by omega)]
        have hsame : ∀ j, j ≠ vi →
            kWayRem arrs indices ((e0 :: hrest).map Prod.snd) j =
            kWayRem arrs indices (rest.map Prod.snd) j := by
          intro j hj
          unfold kWayRem
          have hmemiff : (j ∈ (e0 :: hrest).map Prod.snd) =
              (j ∈ rest.map Prod.snd) := by
            rw [propext (htagsiff j)]
            apply propext
            constructor
            · intro hx
              rcases hx with hx | hx
              · exact absurd hx hj
              · exact hx
            · exact Or.inr
          exact if_congr (iff_of_eq hmemiff) rfl rfl
        obtain ⟨ihP, ihS⟩ := ih rest indices hH2 hrestb hrestnodup hilen
          (by
            have hflateq := flatten_update_cons
              (kWayRem arrs indices ((e0 :: hrest).map Prod.snd))
              (kWayRem arrs indices (rest.map Prod.snd)) v arrs.length vi
              hvia hupd hsame
            have hlens := hflateq.length_eq
            rw [flatten_length_sum, List.length_cons, flatten_length_sum]
              at hlens
            omega)
        constructor
        · refine (ihP.cons v).trans ?_
          exact (flatten_update_cons _ _ v arrs.length vi hvia hupd
            hsame).symm
        · unfold SortedCmp
          rw [List.pairwise_cons]
          refine ⟨?_, ihS⟩
          intro z hz
          have hz2 := ihP.mem_iff.mp hz
          obtain ⟨l, hl, hzl⟩ := List.mem_flatten.mp hz2
          obtain ⟨j, hj, hj2⟩ := List.mem_map.mp hl
          rw [List.mem_range] at hj
          rw [← hj2] at hzl
          unfold kWayRem at hzl
          by_cases hjmem : j ∈ rest.map Prod.snd
          · rw [if_pos hjmem] at hzl
            obtain ⟨e', he', he'2⟩ := List.mem_map.mp hjmem
            obtain ⟨hea, heb, hec, _⟩ := hrestb e' he'
            exact hdrople j (he'2 ▸ hea) (indices.getD j 0 - 1)
              (by rw [← he'2]; omega) (hcandle j hjmem) z hzl
          · rw [if_neg hjmem] at hzl
            simp at hzl
theorem kWayInitLoop_spec {α : Type _} {cmp : α → α → Ordering} {d : α}
    (h : TotalCmp cmp) (arrs : List (List α)) :
    ∀ (rest : List (List α)) (i : Nat) (heap : List (α × Nat))
      (indices : List Nat),
      rest = arrs.drop i →
      indices.length = arrs.length →
      HeapProp (heapCmp cmp) (d, 0) heap →
      (∀ e ∈ heap, e.2 < i ∧ e.2 < arrs.length ∧ 1 ≤ indices.getD e.2 0 ∧
        indices.getD e.2 0 ≤ (arrs.getD e.2 []).length ∧
        e.1 = (arrs.getD e.2 []).getD (indices.getD e.2 0 - 1) d) →
      (heap.map Prod.snd).Nodup →
      (∀ j, j < i → j ∉ heap.map Prod.snd → arrs.getD j [] = []) →
      (∀ j, j < i → j ∈ heap.map Prod.snd → indices.getD j 0 = 1) →
      (∀ j, i ≤ j → indices.getD j 0 = 0) →
      HeapProp (heapCmp cmp) (d, 0) (kWayInitLoop cmp d rest i heap indices).1 ∧
      (∀ e ∈ (kWayInitLoop cmp d rest i heap indices).1,
        e.2 < arrs.length ∧
        1 ≤ (kWayInitLoop cmp d rest i heap indices).2.getD e.2 0 ∧
        (kWayInitLoop cmp d rest i heap indices).2.getD e.2 0 ≤
          (arrs.getD e.2 []).length ∧
        e.1 = (arrs.getD e.2 []).getD
          ((kWayInitLoop cmp d rest i heap indices).2.getD e.2 0 - 1) d) ∧
      ((kWayInitLoop cmp d rest i heap indices).1.map Prod.snd).Nodup ∧
      (kWayInitLoop cmp d rest i heap indices).2.length = arrs.length ∧
      (∀ j, j < arrs.length →
        kWayRem arrs (kWayInitLoop cmp d rest i heap indices).2
          ((kWayInitLoop cmp d rest i heap indices).1.map Prod.snd) j =
          arrs.getD j []) := by
  intro rest
  induction rest with
  | nil =>
    intro i heap indices hdrop hilen hH hb hnodup hempt hone _hbeyond
    have hige : arrs.length ≤ i := by
      by_contra hcon
      have : (arrs.drop i).length = arrs.length - i := List.length_drop i arrs
      rw [← hdrop] at this
      simp at this
      omega
    simp only [kWayInitLoop]
    refine ⟨hH, ?_, hnodup, hilen, ?_⟩
    · intro e he
      obtain ⟨_, h2, h3, h4, h5⟩ := hb e he
      exact ⟨h2, h3, h4, h5⟩
    · intro j hj
      unfold kWayRem
      by_cases hjt : j ∈ heap.map Prod.snd
      · rw [if_pos hjt, hone j (by omega) hjt]
        simp
      · rw [if_neg hjt, hempt j (by omega) hjt]
  | cons a rest ih =>
    intro i heap indices hdrop hilen hH hb hnodup hempt hone hbeyond
    have hilt : i < arrs.length := by
      by_contra hcon
      rw [List.drop_eq_nil_of_le (by omega)] at hdrop
      cases hdrop
    have harr : arrs.getD i [] = a := by
      have h0 := List.getElem?_drop arrs i 0
      rw [← hdrop] at h0
      simp only [List.getElem?_cons_zero, Nat.add_zero] at h0
      rw [List.getD_eq_getElem?_getD, ← h0]
      rfl
    have hrest : rest = arrs.drop (i + 1) := by
      have := congrArg List.tail hdrop
      simp only [List.tail_cons] at this
      rw [this, List.tail_drop]
    cases a with
    | nil =>
      simp only [kWayInitLoop]
      exact ih (i + 1) heap indices hrest hilen hH
        (fun e he => by
          obtain ⟨h1, h2, h3, h4, h5⟩ := hb e he
          exact ⟨by omega, h2, h3, h4, h5⟩)
        hnodup
        (fun j hj hjt => by
          by_cases hji : j = i
          · rw [hji, harr]
          · exact hempt j (by omega) hjt)
        (fun j hj hjt => by
          by_cases hji : j = i
          · exfalso
            obtain ⟨e, he, he2⟩ := List.mem_map.mp hjt
            have := (hb e he).1
            omega
          · exact hone j (by omega) hjt)
        (fun j hj => hbeyond j (by omega))
    | cons x t =>
      simp only [kWayInitLoop]
      obtain ⟨hH2, hP2, hL2⟩ := heapInsert_spec (heapCmp_total h) heap (x, i) hH
      have htags2 : List.Perm ((heapInsert (heapCmp cmp) (d, 0) heap
          (x, i)).map Prod.snd) (heap.map Prod.snd ++ [i]) := by
        have := hP2.map Prod.snd
        rwa [List.map_append] at this
      have hinotold : i ∉ heap.map Prod.snd := by
        intro hcon
        obtain ⟨e, he, he2⟩ := List.mem_map.mp hcon
        have := (hb e he).1
        omega
      have htags2iff : ∀ j, j ∈ (heapInsert (heapCmp cmp) (d, 0) heap
          (x, i)).map Prod.snd ↔ (j = i ∨ j ∈ heap.map Prod.snd) := by
        intro j
        rw [htags2.mem_iff]
        simp [List.mem_append, Or.comm]
      have hset1 : (indices.set i 1).getD i 0 = 1 :=
        getD_set_self indices i 1 0 (by omega)
      have hsetne : ∀ j, j ≠ i → (indices.set i 1).getD j 0 =
          indices.getD j 0 :=
        fun j hj => getD_set_ne indices i j 1 0 (fun hx => hj hx.symm)
      exact ih (i + 1) (heapInsert (heapCmp cmp) (d, 0) heap (x, i))
        (indices.set i 1) hrest (by rw [List.length_set]; exact hilen) hH2
        (fun e he => by
          rcases List.mem_append.mp (hP2.mem_iff.mp he) with he2 | he2
          · obtain ⟨h1, h2, h3, h4, h5⟩ := hb e he2
            rw [hsetne e.2 (by omega)]
            exact ⟨by omega, h2, h3, h4, h5⟩
          · rw [List.mem_singleton.mp he2]
            dsimp only
            rw [hset1, harr]
            exact ⟨by omega, hilt, by omega, by simp, by simp⟩)
        (by
          refine htags2.symm.nodup ?_
          rw [List.nodup_append]
          refine ⟨hnodup, by simp, ?_⟩
          intro b hbm hbm2
          rw [List.mem_singleton] at hbm2
          exact hinotold (hbm2 ▸ hbm))
        (fun j hj hjt => by
          by_cases hji : j = i
          · exfalso
            exact hjt ((htags2iff j).mpr (Or.inl hji))
          · exact hempt j (by omega)
              (fun hcon => hjt ((htags2iff j).mpr (Or.inr hcon))))
        (fun j hj hjt => by
          by_cases hji : j = i
          · rw [hji, hset1]
          · rw [hsetne j hji]
            rcases (htags2iff j).mp hjt with hx | hx
            · exact absurd hx hji
            · exact hone j (by omega) hx)
        (fun j hj => by
          rw [hsetne j (by omega)]
          exact hbeyond j (by omega))
theorem getD_replicate_zero (n j : Nat) :
    (List.replicate n (0 : Nat)).getD j 0 = 0 := by
  rcases Nat.lt_or_ge j n with hj | hj
  · rw [getD_eq_getElem _ _ _ (by simpa using hj)]
    simp
  · rw [List.getD_eq_default _ _ (by simpa using hj)]

/-- `merge_multiple_sorted_sequences_smart` emits a permutation of all its
sources that is sorted not only under the running comparator but under any
tie-break refinement `scmp`, provided each source is `scmp`-sorted and ties
across sources respect the source order (the heap breaks value ties by
source index). -/
theorem mergeMultipleSorted_master {α : Type _} {cmp scmp : α → α → Ordering}
    (h : TotalCmp cmp) (hs : TotalCmp scmp) (hr : RefineCmp cmp scmp)
    (arrs : List (List α)) (d : α)
    (hsorted : ∀ i, i < arrs.length → SortedCmp scmp (arrs.getD i []))
    (hcross : ∀ i j, i < j → j < arrs.length → ∀ x ∈ arrs.getD i [],
      ∀ y ∈ arrs.getD j [], cmp x y = .eq → scmp x y ≠ .gt) :
    List.Perm (mergeMultipleSortedSmart arrs cmp d) arrs.flatten ∧
    SortedCmp scmp (mergeMultipleSortedSmart arrs cmp d) := by
  obtain ⟨iH, ib, inodup, ilen, irem⟩ := kWayInitLoop_spec h arrs arrs 0 []
    (List.replicate arrs.length 0) (by rw [List.drop_zero])
    (by simp) (by intro c hc1 hc2; simp at hc2)
    (by intro e he; simp at he) (by simp)
    (by intro j hj; omega) (by intro j hj; omega)
    (fun j _ => getD_replicate_zero arrs.length j)
  have hremmap : (List.range arrs.length).map
      (kWayRem arrs (kWayInitLoop cmp d arrs 0 []
        (List.replicate arrs.length 0)).2
        ((kWayInitLoop cmp d arrs 0 []
          (List.replicate arrs.length 0)).1.map Prod.snd)) =
      (List.range arrs.length).map (fun j => arrs.getD j []) :=
    List.map_congr_left (fun j hj => irem j (List.mem_range.mp hj))
  obtain ⟨oP, oS⟩ := kWayLoop_spec h hs hr arrs hsorted hcross
    ((arrs.map List.length).sum + 1)
    (kWayInitLoop cmp d arrs 0 [] (List.replicate arrs.length 0)).1
    (kWayInitLoop cmp d arrs 0 [] (List.replicate arrs.length 0)).2
    iH ib inodup ilen
    (by
      have : ((List.range arrs.length).map (fun i =>
          (kWayRem arrs (kWayInitLoop cmp d arrs 0 []
            (List.replicate arrs.length 0)).2
            ((kWayInitLoop cmp d arrs 0 []
              (List.replicate arrs.length 0)).1.map Prod.snd) i).length)).sum =
          (arrs.map List.length).sum := by
        congr 1
        rw [show (fun i => (kWayRem arrs (kWayInitLoop cmp d arrs 0 []
            (List.replicate arrs.length 0)).2
            ((kWayInitLoop cmp d arrs 0 []
              (List.replicate arrs.length 0)).1.map Prod.snd) i).length) =
            (List.length ∘ kWayRem arrs (kWayInitLoop cmp d arrs 0 []
              (List.replicate arrs.length 0)).2
              ((kWayInitLoop cmp d arrs 0 []
                (List.replicate arrs.length 0)).1.map Prod.snd)) from rfl,
          ← List.map_map, hremmap, List.map_map]
        rw [show (List.length ∘ fun j => arrs.getD j []) =
          (fun j => (arrs.getD j []).length) from rfl]
        rw [show (fun j => (arrs.getD j []).length) =
          ((fun l : List α => l.length) ∘ (fun j => arrs.getD j [])) from rfl,
          ← List.map_map, range_map_getD]
      omega)
  refine ⟨?_, oS⟩
  unfold mergeMultipleSortedSmart
  refine oP.trans ?_
  rw [hremmap, range_map_getD]
theorem evenlyPartitionGo_length (q : Nat) :
    ∀ (n s : Nat), (evenlyPartitionGo q n s).length = n := by
  intro n
  induction n with
  | zero => intro s; rfl
  | succ n ih =>
    intro s
    simp only [evenlyPartitionGo, List.length_cons, ih]

theorem evenlyPartitionGo_getD (q : Nat) :
    ∀ (n s i : Nat), i < n →
      (evenlyPartitionGo q n s).getD i 0 = s + i * q := by
  intro n
  induction n with
  | zero => intro s i hi; omega
  | succ n ih =>
    intro s i hi
    cases i with
    | zero => simp [evenlyPartitionGo]
    | succ i =>
      simp only [evenlyPartitionGo, List.getD_cons_succ]
      rw [ih (s + q) i (by omega)]
      ring

theorem evenlyPartition_length (rstart rend P : Nat) :
    (evenlyPartition rstart rend P).length = P + 1 := by
  unfold evenlyPartition
  rw [List.length_append, evenlyPartitionGo_length]
  simp

theorem evenlyPartition_getD_lt (rstart rend P i : Nat) (hi : i < P) :
    (evenlyPartition rstart rend P).getD i 0 =
      rstart + i * ((rend - rstart) / P) := by
  unfold evenlyPartition
  rw [getD_append_left _ _ _ _ (by rw [evenlyPartitionGo_length]; omega)]
  exact evenlyPartitionGo_getD _ P rstart i hi

theorem evenlyPartition_getD_last (rstart rend P : Nat) :
    (evenlyPartition rstart rend P).getD P 0 = rend := by
  unfold evenlyPartition
  rw [getD_append_right _ _ _ _ (by simp [evenlyPartitionGo_length]),
    evenlyPartitionGo_length]
  simp

theorem getD_map_range {γ : Type _} (m : Nat) (g : Nat → γ) (t : Nat) (d : γ)
    (ht : t < m) : ((List.range m).map g).getD t d = g t := by
  rw [getD_eq_getElem _ _ _ (by simp; omega)]
  simp

theorem flatten_drop_offsets {γ : Type _} (g : Nat → List γ) (e : Nat → Nat)
    (P : Nat) (he0 : e 0 = 0)
    (hlen : ∀ i, i < P → e (i + 1) = e i + (g i).length) :
    ∀ i, i ≤ P →
      (List.flatten ((List.range P).map g)).drop (e i) =
        List.flatten ((List.range' i (P - i)).map g) := by
  intro i
  induction i with
  | zero =>
    intro _
    rw [he0, List.drop_zero, Nat.sub_zero, List.range_eq_range']
  | succ i ih =>
    intro hi
    have hstep := ih (by omega)
    have hrange : List.range' i (P - i) = i :: List.range' (i + 1) (P - i - 1) := by
      rw [show P - i = (P - i - 1) + 1 by omega]
      rfl
    rw [hlen i (by omega), ← List.drop_drop, hstep, hrange]
    simp only [List.map_cons, List.flatten_cons]
    rw [List.drop_left' rfl]
    rw [show P - i - 1 = P - (i + 1) by omega]

theorem flatten_slice_offsets {γ : Type _} (g : Nat → List γ) (e : Nat → Nat)
    (P : Nat) (he0 : e 0 = 0)
    (hlen : ∀ i, i < P → e (i + 1) = e i + (g i).length) :
    ∀ i, i < P →
      listSlice (List.flatten ((List.range P).map g)) (e i) (e (i + 1)) =
        g i := by
  intro i hi
  unfold listSlice
  rw [flatten_drop_offsets g e P he0 hlen i (by omega)]
  have hrange : List.range' i (P - i) = i :: List.range' (i + 1) (P - i - 1) := by
    rw [show P - i = (P - i - 1) + 1 by omega]
    rfl
  rw [hrange]
  simp only [List.map_cons, List.flatten_cons]
  rw [hlen i hi]
  rw [show e i + (g i).length - e i = (g i).length by omega]
  exact List.take_left' rfl

theorem slice_chain {γ : Type _} (l : List γ) (c : Nat → Nat) :
    ∀ (m : Nat), (∀ k, k < m → c k ≤ c (k + 1)) →
      List.flatten ((List.range m).map
        (fun k => listSlice l (c k) (c (k + 1)))) = listSlice l (c 0) (c m) := by
  intro m
  induction m with
  | zero =>
    intro _
    unfold listSlice
    simp
  | succ m ih =>
    intro hmono
    rw [List.range_succ, List.map_append]
    simp only [List.map_cons, List.map_nil, List.flatten_append,
      List.flatten_cons, List.flatten_nil, List.append_nil]
    rw [ih (fun k hk => hmono k (by omega))]
    have hcm : c 0 ≤ c m := by
      clear ih
      induction m with
      | zero => exact Nat.le_refl _
      | succ m ihm =>
        exact Nat.le_trans (ihm (fun k hk => hmono k (by omega))) (hmono m (by omega))
    exact listSlice_append l (c 0) (c m) (c (m + 1)) hcm (hmono m (by omega))

theorem flatten_map_append_perm {γ : Type _} (A B : Nat → List γ) :
    ∀ (l : List Nat),
      List.Perm (List.flatten (l.map (fun k => A k ++ B k)))
        (List.flatten (l.map A) ++ List.flatten (l.map B)) := by
  intro l
  induction l with
  | nil => simp
  | cons a l ih =>
    simp only [List.map_cons, List.flatten_cons]
    refine ((ih.append_left (A a ++ B a)).trans ?_)
    rw [List.append_assoc, List.append_assoc]
    refine List.Perm.append_left (A a) ?_
    rw [← List.append_assoc, ← List.append_assoc]
    refine List.Perm.append_right (List.flatten (List.map B l)) ?_
    exact List.perm_append_comm

theorem flatten_transpose_perm {γ : Type _} (f : Nat → Nat → List γ) (Q : Nat) :
    ∀ (P : Nat),
      List.Perm
        (List.flatten ((List.range Q).map (fun k =>
          List.flatten ((List.range P).map (fun i => f i k)))))
        (List.flatten ((List.range P).map (fun i =>
          List.flatten ((List.range Q).map (fun k => f i k))))) := by
  intro P
  induction P with
  | zero =>
    simp only [List.range_zero, List.map_nil, List.flatten_nil]
    have hnil : ∀ (l : List Nat),
        List.flatten (List.map (fun _ => ([] : List γ)) l) = [] := by
      intro l
      induction l with
      | nil => rfl
      | cons a l ihl => simpa using ihl
    rw [hnil]
  | succ P ih =>
    have hinner : ∀ k ∈ List.range Q,
        List.flatten ((List.range (P + 1)).map (fun i => f i k)) =
        List.flatten ((List.range P).map (fun i => f i k)) ++ f P k := by
      intro k _
      rw [List.range_succ, List.map_append, List.flatten_append]
      simp
    rw [List.map_congr_left hinner]
    refine (flatten_map_append_perm _ _ (List.range Q)).trans ?_
    rw [List.range_succ, List.map_append, List.flatten_append]
    simp only [List.map_cons, List.map_nil, List.flatten_cons,
      List.flatten_nil, List.append_nil]
    exact ih.append_right _

theorem pairwise_slices {γ : Type _} {R : γ → γ → Prop} {l : List γ}
    (hp : List.Pairwise R l) (a b c2 e2 : Nat) (hab : a ≤ b) (hbc : b ≤ c2)
    (hce : c2 ≤ e2) (he : e2 ≤ l.length) (d : γ) :
    ∀ x ∈ listSlice l a b, ∀ y ∈ listSlice l c2 e2, R x y := by
  intro x hx y hy
  obtain ⟨p, hp1, hp2, hpeq⟩ := slice_mem_getD d (by omega) hx
  obtain ⟨q, hq1, hq2, hqeq⟩ := slice_mem_getD d he hy
  rw [← hpeq, ← hqeq, getD_eq_getElem _ _ _ (by omega),
    getD_eq_getElem _ _ _ (by omega)]
  exact (List.pairwise_iff_getElem.mp hp) p q (by omega) (by omega) (by omega)
theorem mono_chain (e : Nat → Nat) (P : Nat)
    (hm : ∀ i, i < P → e i ≤ e (i + 1)) :
    ∀ i j, i ≤ j → j ≤ P → e i ≤ e j := by
  intro i j
  induction j with
  | zero =>
    intro hij _
    have hi0 : i = 0 := by omega
    rw [hi0]
  | succ j ih =>
    intro hij hjP
    rcases Nat.eq_or_lt_of_le hij with heq | hlt
    · rw [heq]
    · exact Nat.le_trans (ih (by omega) (by omega)) (hm j (by omega))

theorem totalCmp_lt_of_lt_of_le {α : Type _} {c : α → α → Ordering}
    (hc : TotalCmp c) {a b c2 : α} (hab : c a b = .lt) (hbc : c b c2 ≠ .gt) :
    c a c2 = .lt := by
  rcases hx : c b c2 with _ | _ | _
  · exact hc.lt_trans hab hx
  · exact hc.lt_of_lt_of_eq hab hx
  · exact absurd hx hbc

theorem flatten_perm_congr {γ : Type _} (l : List Nat) (A B : Nat → List γ)
    (hab : ∀ k ∈ l, List.Perm (A k) (B k)) :
    List.Perm (List.flatten (l.map A)) (List.flatten (l.map B)) := by
  induction l with
  | nil => exact List.Perm.refl _
  | cons a l ih =>
    simp only [List.map_cons, List.flatten_cons]
    exact (hab a (by simp)).append (ih (fun k hk => hab k (by simp [hk])))

theorem listSlice_sublist {α : Type _} (arr : List α) (a b : Nat) :
    (listSlice arr a b).Sublist arr := by
  unfold listSlice
  exact (List.take_sublist _ _).trans (List.drop_sublist _ _)

theorem sortedCmp_slice_within {α : Type _} {c : α → α → Ordering}
    {arr1 : List α} {L R : Nat} (hsl : SortedCmp c (listSlice arr1 L R))
    (a b : Nat) (hLa : L ≤ a) (hab : a ≤ b) (hbR : b ≤ R) :
    SortedCmp c (listSlice arr1 a b) := by
  rw [slice_of_slice arr1 L R a b hLa hab hbR]
  exact List.Pairwise.sublist (listSlice_sublist _ _ _) hsl

theorem mem_slice_of_mem_sub {α : Type _} (arr1 : List α) (a b L R : Nat)
    (hLa : L ≤ a) (hbR : b ≤ R) (hR : R ≤ arr1.length) {x : α}
    (hx : x ∈ listSlice arr1 a b) : x ∈ listSlice arr1 L R := by
  obtain ⟨p, hp1, hp2, hpe⟩ := slice_mem_getD x (by omega) hx
  rw [← hpe]
  exact getD_mem_slice arr1 L R p x (by omega) (by omega) hR

theorem sortedCmp_getD_le {α : Type _} {c : α → α → Ordering} (hc : TotalCmp c)
    {l : List α} (hs : SortedCmp c l) (p q : Nat) (d : α) (hpq : p ≤ q)
    (hq : q < l.length) : c (l.getD p d) (l.getD q d) ≠ .gt := by
  rcases Nat.eq_or_lt_of_le hpq with he | hlt
  · rw [he, hc.refl]
    intro hx
    cases hx
  · rw [getD_eq_getElem _ _ _ (by omega), getD_eq_getElem _ _ _ hq]
    exact List.pairwise_iff_getElem.mp hs p q (by omega) hq hlt

theorem sorted_slice_getD {α : Type _} {c : α → α → Ordering} (hc : TotalCmp c)
    {arr1 : List α} {L R : Nat} (hsl : SortedCmp c (listSlice arr1 L R))
    (p q : Nat) (d : α) (hLp : L ≤ p) (hpq : p ≤ q) (hq : q < R)
    (hR : R ≤ arr1.length) :
    c (arr1.getD p d) (arr1.getD q d) ≠ .gt := by
  have h1 := listSlice_getD arr1 L R (p - L) d (by omega) hR
  have h2 := listSlice_getD arr1 L R (q - L) d (by omega) hR
  rw [show L + (p - L) = p by omega] at h1
  rw [show L + (q - L) = q by omega] at h2
  rw [← h1, ← h2]
  exact sortedCmp_getD_le hc hsl (p - L) (q - L) d (by omega)
    (by rw [listSlice_length _ _ _ hR]; omega)

theorem evenlyPartition_zero_facts (L P : Nat) (hP : 1 ≤ P) :
    (evenlyPartition 0 L P).getD 0 0 = 0 ∧
    (evenlyPartition 0 L P).getD P 0 = L ∧
    (∀ i, i < P → (evenlyPartition 0 L P).getD i 0 = i * (L / P)) ∧
    (∀ i, i < P →
      (evenlyPartition 0 L P).getD i 0 ≤ (evenlyPartition 0 L P).getD (i + 1) 0) := by
  have hlt : ∀ i, i < P → (evenlyPartition 0 L P).getD i 0 = i * (L / P) := by
    intro i hi
    have := evenlyPartition_getD_lt 0 L P i hi
    simpa using this
  have hPq : P * (L / P) ≤ L := by
    rw [Nat.mul_comm]
    exact Nat.div_mul_le_self L P
  refine ⟨by rw [hlt 0 hP]; simp, evenlyPartition_getD_last 0 L P, hlt, ?_⟩
  intro i hi
  rcases Nat.lt_or_ge (i + 1) P with hip | hip
  · rw [hlt i hi, hlt (i + 1) hip]
    exact Nat.mul_le_mul_right _ (by omega)
  · have hip2 : i + 1 = P := by omega
    rw [hlt i hi, hip2, evenlyPartition_getD_last]
    calc i * (L / P) ≤ P * (L / P) := Nat.mul_le_mul_right _ (by omega)
      _ ≤ L := hPq
/-- Core correctness of phases 3-5 of `concurrent_merge_sort`: given the
per-part sorted array `arr1` with part boundaries `e`, first-part pivot cuts
`c0`, pivot values `piv` (listed in `pl`), and per-part sub-partition cuts
`cuts` (positional for part 0, by pivot binary search for parts `1..P`), the
k-way merges of the k-th sub-blocks written back at consecutive offsets form
a permutation of `arr1` sorted under the refined comparator. -/
theorem concurrentPipeline_main {α : Type _} {cmp scmp : α → α → Ordering}
    (h : TotalCmp cmp) (hs : TotalCmp scmp) (hr : RefineCmp cmp scmp)
    (arr1 : List α) (P : Nat) (d : α) (hP : 2 ≤ P)
    (e c0 : Nat → Nat) (piv : Nat → α) (pl : List α) (cuts : Nat → Nat → Nat)
    (he0 : e 0 = 0) (heP : e P = arr1.length)
    (hemono : ∀ i, i < P → e i ≤ e (i + 1))
    (hsorted : ∀ i, i < P → SortedCmp scmp (listSlice arr1 (e i) (e (i + 1))))
    (hties : ∀ i j, i < j → j < P →
      ∀ x ∈ listSlice arr1 (e i) (e (i + 1)),
        ∀ y ∈ listSlice arr1 (e j) (e (j + 1)), cmp x y = .eq → scmp x y ≠ .gt)
    (hc00 : c0 0 = 0) (hc0P : c0 P = e 1)
    (hc0mono : ∀ k, k < P → c0 k ≤ c0 (k + 1))
    (hpivpos : ∀ t, t < P - 1 → c0 (t + 1) < e 1 ∧ piv t = arr1.getD (c0 (t + 1)) d)
    (hpllen : pl.length = P - 1)
    (hplD : ∀ t, t < P - 1 → pl.getD t d = piv t)
    (hcut0 : ∀ k, cuts 0 k = c0 k)
    (hcuts : ∀ i, 1 ≤ i → i < P → ∀ k,
      cuts i k = (findPartitionByPivots arr1 (e i) (e (i + 1)) cmp pl).getD k 0) :
    List.Perm
      (List.flatten ((List.range P).map (fun k =>
        mergeMultipleSortedSmart ((List.range P).map (fun i =>
          listSlice arr1 (cuts i k) (cuts i (k + 1)))) cmp d)))
      arr1 ∧
    SortedCmp scmp
      (List.flatten ((List.range P).map (fun k =>
        mergeMultipleSortedSmart ((List.range P).map (fun i =>
          listSlice arr1 (cuts i k) (cuts i (k + 1)))) cmp d))) := by
  have hP0 : 0 < P := by omega
  have hee := mono_chain e P hemono
  have hele : ∀ i, i ≤ P → e i ≤ arr1.length := by
    intro i hi
    rw [← heP]
    exact hee i P hi (Nat.le_refl _)
  have hc0chain := mono_chain c0 P hc0mono
  have hc0le : ∀ k, k ≤ P → c0 k ≤ e 1 := by
    intro k hk
    rw [← hc0P]
    exact hc0chain k P hk (Nat.le_refl _)
  have he1len : e 1 ≤ arr1.length := hele 1 hP0
  have hfp_cmp : SortedCmp cmp (listSlice arr1 0 (e 1)) := by
    have := sortedCmp_of_refined hr (hsorted 0 hP0)
    rwa [he0] at this
  have hpivmono : ∀ t t2, t ≤ t2 → t2 < P - 1 → cmp (piv t) (piv t2) ≠ .gt := by
    intro t t2 htt ht2
    obtain ⟨hp1, hq1⟩ := hpivpos t (by omega)
    obtain ⟨hp2, hq2⟩ := hpivpos t2 ht2
    rw [hq1, hq2]
    exact sorted_slice_getD h hfp_cmp (c0 (t + 1)) (c0 (t2 + 1)) d (Nat.zero_le _)
      (hc0chain (t + 1) (t2 + 1) (by omega) (by omega)) hp2 he1len
  have hmaster : ∀ i, i < P →
      cuts i 0 = e i ∧ cuts i P = e (i + 1) ∧
      (∀ k, k < P → cuts i k ≤ cuts i (k + 1)) ∧
      (∀ k, k < P - 1 → ∀ j, cuts i k ≤ j → j < cuts i (k + 1) →
        cmp (arr1.getD j d) (piv k) ≠ .gt) ∧
      (1 ≤ i → ∀ k, k < P - 1 → ∀ j, cuts i k ≤ j → j < cuts i (k + 1) →
        cmp (arr1.getD j d) (piv k) = .lt) ∧
      (∀ k, 1 ≤ k → k < P → ∀ j, cuts i k ≤ j → j < cuts i (k + 1) →
        cmp (piv (k - 1)) (arr1.getD j d) ≠ .gt) := by
    intro i hiP
    rcases Nat.eq_zero_or_pos i with hi0 | hi1
    · subst hi0
      refine ⟨by rw [hcut0, hc00, he0], by rw [hcut0, hc0P], ?_, ?_, ?_, ?_⟩
      · intro k hk
        rw [hcut0, hcut0]
        exact hc0mono k hk
      · intro k hk j hj1 hj2
        rw [hcut0] at hj1 hj2
        obtain ⟨hcpos, hpe⟩ := hpivpos k hk
        rw [hpe]
        exact sorted_slice_getD h hfp_cmp j (c0 (k + 1)) d (Nat.zero_le _)
          (by omega) hcpos he1len
      · intro hcon
        exact absurd hcon (by omega)
      · intro k hk1 hkP j hj1 hj2
        rw [hcut0] at hj1 hj2
        obtain ⟨hcpos, hpe⟩ := hpivpos (k - 1) (by omega)
        rw [show k - 1 + 1 = k by omega] at hcpos hpe
        rw [hpe]
        refine sorted_slice_getD h hfp_cmp (c0 k) j d (Nat.zero_le _) hj1 ?_ he1len
        have := hc0le (k + 1) (by omega)
        omega
    · have heii : e i ≤ e (i + 1) := hemono i hiP
      have hriP : e (i + 1) ≤ arr1.length := hele (i + 1) hiP
      have hok := findPartitionByPivotsGo_spec h arr1 (e (i + 1)) d hriP pl (e i)
        heii (sortedCmp_of_refined hr (hsorted i hiP))
      obtain ⟨heslen, hfacts⟩ := pivotEndpointsOk_index pl
        (findPartitionByPivotsGo arr1 (e (i + 1)) cmp (e i) pl) (e i) hok
      set es := findPartitionByPivotsGo arr1 (e (i + 1)) cmp (e i) pl with hesdef
      have heslen2 : es.length = P - 1 := by rw [heslen, hpllen]
      have hcD : ∀ k, cuts i k = ((e i :: es) ++ [e (i + 1)]).getD k 0 := by
        intro k
        rw [hcuts i hi1 hiP k]
        rfl
      have hlcons : (e i :: es).length = P := by
        simp only [List.length_cons, heslen2]
        omega
      have hcd0 : cuts i 0 = e i := by
        rw [hcD 0, getD_append_left _ _ _ _ (by rw [hlcons]; omega)]
        rfl
      have hcdmid : ∀ k, 1 ≤ k → k ≤ P - 1 → cuts i k = es.getD (k - 1) 0 := by
        intro k hk1 hk2
        obtain ⟨k2, rfl⟩ : ∃ k2, k = k2 + 1 := ⟨k - 1, by omega⟩
        simp only [Nat.add_sub_cancel]
        rw [hcD (k2 + 1), getD_append_left _ _ _ _ (by rw [hlcons]; omega),
          List.getD_cons_succ]
      have hcdP : cuts i P = e (i + 1) := by
        rw [hcD P, getD_append_right _ _ _ _ hlcons.le, hlcons, Nat.sub_self]
        rfl
      have hconsD : ∀ t, t < P - 1 → (e i :: es).getD t 0 = cuts i t := by
        intro t ht
        cases t with
        | zero => rw [hcd0]; rfl
        | succ t2 =>
          rw [List.getD_cons_succ, hcdmid (t2 + 1) (by omega) (by omega)]
          simp only [Nat.add_sub_cancel]
      have hesD : ∀ t, t < P - 1 → es.getD t 0 = cuts i (t + 1) := by
        intro t ht
        rw [hcdmid (t + 1) (by omega) (by omega)]
        simp only [Nat.add_sub_cancel]
      have hmono2 : ∀ k, k < P → cuts i k ≤ cuts i (k + 1) := by
        intro k hk
        rcases Nat.lt_or_ge k (P - 1) with hk2 | hk2
        · obtain ⟨h1, h2, h3, h4⟩ := hfacts k (by rw [hpllen]; exact hk2)
          rw [hconsD k hk2, hesD k hk2] at h1
          exact h1
        · have hkP : k = P - 1 := by omega
          subst hkP
          obtain ⟨h1, h2, h3, h4⟩ := hfacts (P - 2) (by rw [hpllen]; omega)
          rw [hesD (P - 2) (by omega)] at h2
          rw [show P - 2 + 1 = P - 1 by omega] at h2
          rw [show P - 1 + 1 = P by omega, hcdP]
          exact h2
      refine ⟨hcd0, hcdP, hmono2, ?_, ?_, ?_⟩
      · intro k hk j hj1 hj2
        obtain ⟨h1, h2, h3, h4⟩ := hfacts k (by rw [hpllen]; exact hk)
        have hj1b : (e i :: es).getD k 0 ≤ j := by rw [hconsD k hk]; exact hj1
        have hj2b : j < es.getD k 0 := by rw [hesD k hk]; exact hj2
        have hlt := h3 j hj1b hj2b
        rw [hplD k hk] at hlt
        rw [hlt]
        intro hx
        cases hx
      · intro _ k hk j hj1 hj2
        obtain ⟨h1, h2, h3, h4⟩ := hfacts k (by rw [hpllen]; exact hk)
        have hj1b : (e i :: es).getD k 0 ≤ j := by rw [hconsD k hk]; exact hj1
        have hj2b : j < es.getD k 0 := by rw [hesD k hk]; exact hj2
        have hlt := h3 j hj1b hj2b
        rwa [hplD k hk] at hlt
      · intro k hk1 hkP j hj1 hj2
        obtain ⟨h1, h2, h3, h4⟩ := hfacts (k - 1) (by rw [hpllen]; omega)
        have hj1b : es.getD (k - 1) 0 ≤ j := by
          rw [hesD (k - 1) (by omega), show k - 1 + 1 = k by omega]
          exact hj1
        have hjr : j < e (i + 1) := by
          have := mono_chain (cuts i) P hmono2 (k + 1) P (by omega) (Nat.le_refl _)
          rw [hcdP] at this
          omega
        have hnlt := h4 j hj1b hjr
        rw [hplD (k - 1) (by omega)] at hnlt
        intro hgt
        exact hnlt (h.gt_iff_lt.mp hgt)
  have hb : ∀ i, i < P → ∀ k, k ≤ P → e i ≤ cuts i k ∧ cuts i k ≤ e (i + 1) := by
    intro i hiP k hk
    obtain ⟨h0, hPe, hm, _⟩ := hmaster i hiP
    have hchain := mono_chain (cuts i) P hm
    constructor
    · rw [← h0]
      exact hchain 0 k (Nat.zero_le _) hk
    · rw [← hPe]
      exact hchain k P hk (Nat.le_refl _)
  have hBsorted : ∀ i, i < P → ∀ k, k < P →
      SortedCmp scmp (listSlice arr1 (cuts i k) (cuts i (k + 1))) := by
    intro i hiP k hk
    exact sortedCmp_slice_within (hsorted i hiP) _ _ (hb i hiP k (by omega)).1
      ((hmaster i hiP).2.2.1 k hk) (hb i hiP (k + 1) (by omega)).2
  have hBmem : ∀ i, i < P → ∀ k, k < P →
      ∀ x ∈ listSlice arr1 (cuts i k) (cuts i (k + 1)),
        x ∈ listSlice arr1 (e i) (e (i + 1)) := by
    intro i hiP k hk x hx
    exact mem_slice_of_mem_sub arr1 (cuts i k) (cuts i (k + 1)) (e i) (e (i + 1))
      (hb i hiP k (by omega)).1 (hb i hiP (k + 1) (by omega)).2
      (hele (i + 1) hiP) hx
  have hBpos : ∀ i, i < P → ∀ k, k < P →
      ∀ x ∈ listSlice arr1 (cuts i k) (cuts i (k + 1)),
        ∃ p, cuts i k ≤ p ∧ p < cuts i (k + 1) ∧ arr1.getD p d = x := by
    intro i hiP k hk x hx
    refine slice_mem_getD d ?_ hx
    have h1 := (hb i hiP (k + 1) (by omega)).2
    have h2 := hele (i + 1) hiP
    omega
  have hBlt : ∀ i, i < P → ∀ k, k < P - 1 →
      ∀ x ∈ listSlice arr1 (cuts i k) (cuts i (k + 1)), cmp x (piv k) ≠ .gt := by
    intro i hiP k hk x hx
    obtain ⟨p, hp1, hp2, hpe⟩ := hBpos i hiP k (by omega) x hx
    rw [← hpe]
    exact (hmaster i hiP).2.2.2.1 k hk p hp1 hp2
  have hBlts : ∀ i, 1 ≤ i → i < P → ∀ k, k < P - 1 →
      ∀ x ∈ listSlice arr1 (cuts i k) (cuts i (k + 1)), cmp x (piv k) = .lt := by
    intro i hi1 hiP k hk x hx
    obtain ⟨p, hp1, hp2, hpe⟩ := hBpos i hiP k (by omega) x hx
    rw [← hpe]
    exact (hmaster i hiP).2.2.2.2.1 hi1 k hk p hp1 hp2
  have hBge : ∀ i, i < P → ∀ k, 1 ≤ k → k < P →
      ∀ x ∈ listSlice arr1 (cuts i k) (cuts i (k + 1)),
        cmp (piv (k - 1)) x ≠ .gt := by
    intro i hiP k hk1 hkP x hx
    obtain ⟨p, hp1, hp2, hpe⟩ := hBpos i hiP k hkP x hx
    rw [← hpe]
    exact (hmaster i hiP).2.2.2.2.2 k hk1 hkP p hp1 hp2
  have hcrossM : ∀ k k2 i j, k < k2 → k2 < P → i < P → j < P →
      ∀ x ∈ listSlice arr1 (cuts i k) (cuts i (k + 1)),
        ∀ y ∈ listSlice arr1 (cuts j k2) (cuts j (k2 + 1)), scmp x y ≠ .gt := by
    intro k k2 i j hkk hk2 hiP hjP x hx y hy
    have hkP1 : k < P - 1 := by omega
    have hxle : cmp x (piv k) ≠ .gt := hBlt i hiP k hkP1 x hx
    have hpp : cmp (piv k) (piv (k2 - 1)) ≠ .gt :=
      hpivmono k (k2 - 1) (by omega) (by omega)
    have hyge : cmp (piv (k2 - 1)) y ≠ .gt := hBge j hjP k2 (by omega) hk2 y hy
    have hpy : cmp (piv k) y ≠ .gt := h.le_trans _ _ _ hpp hyge
    have hle : cmp x y ≠ .gt := h.le_trans _ _ _ hxle hpy
    rcases hxy : cmp x y with _ | _ | _
    · rw [hr.lt hxy]
      intro hc
      cases hc
    · rcases Nat.lt_trichotomy i j with hij | hij | hij
      · exact hties i j hij hjP x (hBmem i hiP k (by omega) x hx) y
          (hBmem j hjP k2 hk2 y hy) hxy
      · subst hij
        obtain ⟨p, hp1, hp2, hpe⟩ := hBpos i hiP k (by omega) x hx
        obtain ⟨q, hq1, hq2, hqe⟩ := hBpos i hiP k2 hk2 y hy
        obtain ⟨h0, hPe, hm, _⟩ := hmaster i hiP
        have hchain := mono_chain (cuts i) P hm
        have hpq : p < q := by
          have := hchain (k + 1) k2 (by omega) (by omega)
          omega
        rw [← hpe, ← hqe]
        refine sorted_slice_getD hs (hsorted i hiP) p q d ?_ (by omega) ?_
          (hele (i + 1) hiP)
        · have := (hb i hiP k (by omega)).1
          omega
        · have := (hb i hiP (k2 + 1) (by omega)).2
          omega
      · exfalso
        have hxlt : cmp x (piv k) = .lt := hBlts i (by omega) hiP k hkP1 x hx
        have hlt2 : cmp x y = .lt := totalCmp_lt_of_lt_of_le h hxlt hpy
        rw [hxy] at hlt2
        cases hlt2
    · exact absurd hxy hle
  have hM : ∀ k, k < P →
      List.Perm (mergeMultipleSortedSmart ((List.range P).map (fun i =>
          listSlice arr1 (cuts i k) (cuts i (k + 1)))) cmp d)
        (List.flatten ((List.range P).map (fun i =>
          listSlice arr1 (cuts i k) (cuts i (k + 1))))) ∧
      SortedCmp scmp (mergeMultipleSortedSmart ((List.range P).map (fun i =>
          listSlice arr1 (cuts i k) (cuts i (k + 1)))) cmp d) := by
    intro k hk
    have hlen : ((List.range P).map (fun i =>
        listSlice arr1 (cuts i k) (cuts i (k + 1)))).length = P := by simp
    refine mergeMultipleSorted_master h hs hr _ d ?_ ?_
    · intro i hi
      rw [hlen] at hi
      rw [getD_map_range P _ i _ hi]
      exact hBsorted i hi k hk
    · intro i j hij hj x hx y hy
      rw [hlen] at hj
      rw [getD_map_range P _ i _ (by omega)] at hx
      rw [getD_map_range P _ j _ hj] at hy
      intro heq2
      exact hties i j hij hj x (hBmem i (by omega) k hk x hx) y
        (hBmem j hj k hk y hy) heq2
  have hMmem : ∀ k, k < P →
      ∀ x ∈ mergeMultipleSortedSmart ((List.range P).map (fun i =>
          listSlice arr1 (cuts i k) (cuts i (k + 1)))) cmp d,
        ∃ i, i < P ∧ x ∈ listSlice arr1 (cuts i k) (cuts i (k + 1)) := by
    intro k hk x hx
    have hx2 := ((hM k hk).1.mem_iff).mp hx
    rw [List.mem_flatten] at hx2
    obtain ⟨l, hl, hxl⟩ := hx2
    rw [List.mem_map] at hl
    obtain ⟨i, hi, rfl⟩ := hl
    exact ⟨i, List.mem_range.mp hi, hxl⟩
  constructor
  · refine (flatten_perm_congr (List.range P) _ _
      (fun k hk => (hM k (List.mem_range.mp hk)).1)).trans ?_
    refine (flatten_transpose_perm
      (fun i k => listSlice arr1 (cuts i k) (cuts i (k + 1))) P P).trans ?_
    have hinner : ∀ i ∈ List.range P,
        List.flatten ((List.range P).map (fun k =>
          listSlice arr1 (cuts i k) (cuts i (k + 1)))) =
        listSlice arr1 (e i) (e (i + 1)) := by
      intro i hi
      have hiP := List.mem_range.mp hi
      rw [slice_chain arr1 (cuts i) P (hmaster i hiP).2.2.1]
      rw [(hmaster i hiP).1, (hmaster i hiP).2.1]
    rw [List.map_congr_left hinner]
    rw [slice_chain arr1 e P hemono, he0, heP, listSlice_full]
  · refine List.pairwise_flatten.mpr ⟨?_, ?_⟩
    · intro l hl
      rw [List.mem_map] at hl
      obtain ⟨k, hk, rfl⟩ := hl
      exact (hM k (List.mem_range.mp hk)).2
    · rw [List.pairwise_map]
      refine List.pairwise_iff_getElem.mpr ?_
      intro a b ha hb hab
      simp only [List.length_range] at ha hb
      simp only [List.getElem_range]
      intro x hx y hy
      obtain ⟨i, hiP, hxi⟩ := hMmem a (by omega) x hx
      obtain ⟨j, hjP, hyj⟩ := hMmem b hb y hy
      exact hcrossM a b i j hab hb hiP hjP x hxi y hyj
theorem concurrentPipeline_master {α : Type _} {cmp scmp : α → α → Ordering}
    (h : TotalCmp cmp) (hs : TotalCmp scmp) (hr : RefineCmp cmp scmp)
    (arr : List α) (P : Nat) (d : α) (hP : 2 ≤ P) (hbig : 1 ≤ arr.length / P)
    (hto : TieOrdered cmp scmp arr) :
    List.Perm (concurrentPipeline arr cmp P d) arr ∧
    SortedCmp scmp (concurrentPipeline arr cmp P d) := by
  have hP0 : 0 < P := by omega
  obtain ⟨ho1, ho2, ho3, ho4⟩ := evenlyPartition_zero_facts arr.length P (by omega)
  set outer := evenlyPartition 0 arr.length P with houter
  have hee := mono_chain (fun i => outer.getD i 0) P ho4
  have hele : ∀ i, i ≤ P → outer.getD i 0 ≤ arr.length := by
    intro i hi
    rw [← ho2]
    exact hee i P hi (Nat.le_refl _)
  have hB1 : ∀ i, i < P →
      List.Perm
        (simpleMergeSortInplace (listSlice arr (outer.getD i 0) (outer.getD (i + 1) 0)) cmp)
        (listSlice arr (outer.getD i 0) (outer.getD (i + 1) 0)) ∧
      SortedCmp scmp
        (simpleMergeSortInplace (listSlice arr (outer.getD i 0) (outer.getD (i + 1) 0)) cmp) := by
    intro i hi
    exact simpleMergeSort_master h hs hr
      (listSlice arr (outer.getD i 0) (outer.getD (i + 1) 0)).length _ (Nat.le_refl _)
      (tieOrdered_sublist (listSlice_sublist _ _ _) hto)
  set arr1 := List.flatten ((List.range P).map (fun i =>
      simpleMergeSortInplace (listSlice arr (outer.getD i 0) (outer.getD (i + 1) 0)) cmp))
    with harr1
  have hB3 : ∀ i, i < P → outer.getD (i + 1) 0 = outer.getD i 0 +
      (simpleMergeSortInplace (listSlice arr (outer.getD i 0) (outer.getD (i + 1) 0)) cmp).length := by
    intro i hi
    rw [(hB1 i hi).1.length_eq, listSlice_length _ _ _ (hele (i + 1) hi)]
    have := ho4 i hi
    omega
  have hB4 := flatten_slice_offsets
    (fun i => simpleMergeSortInplace (listSlice arr (outer.getD i 0) (outer.getD (i + 1) 0)) cmp)
    (fun i => outer.getD i 0) P ho1 hB3
  have hB5 : List.Perm arr1 arr := by
    rw [harr1]
    refine (flatten_perm_congr (List.range P) _
      (fun i => listSlice arr (outer.getD i 0) (outer.getD (i + 1) 0)) ?_).trans ?_
    · intro k hk
      exact (hB1 k (List.mem_range.mp hk)).1
    · have hsc : List.flatten ((List.range P).map (fun k =>
          listSlice arr (outer.getD k 0) (outer.getD (k + 1) 0))) =
          listSlice arr (outer.getD 0 0) (outer.getD P 0) :=
        slice_chain arr (fun i => outer.getD i 0) P ho4
      rw [ho1, ho2, listSlice_full] at hsc
      rw [hsc]
  have harr1len : arr1.length = arr.length := hB5.length_eq
  have heP : outer.getD P 0 = arr1.length := by
    rw [harr1len]
    exact ho2
  have hsorted1 : ∀ i, i < P →
      SortedCmp scmp (listSlice arr1 (outer.getD i 0) (outer.getD (i + 1) 0)) := by
    intro i hi
    rw [harr1, hB4 i hi]
    exact (hB1 i hi).2
  have hmem1 : ∀ i, i < P →
      ∀ x ∈ listSlice arr1 (outer.getD i 0) (outer.getD (i + 1) 0),
        x ∈ listSlice arr (outer.getD i 0) (outer.getD (i + 1) 0) := by
    intro i hi x hx
    rw [harr1, hB4 i hi] at hx
    exact ((hB1 i hi).1.mem_iff).mp hx
  have hties1 : ∀ i j, i < j → j < P →
      ∀ x ∈ listSlice arr1 (outer.getD i 0) (outer.getD (i + 1) 0),
        ∀ y ∈ listSlice arr1 (outer.getD j 0) (outer.getD (j + 1) 0),
          cmp x y = .eq → scmp x y ≠ .gt := by
    intro i j hij hj x hx y hy
    have hx2 := hmem1 i (by omega) x hx
    have hy2 := hmem1 j hj y hy
    exact pairwise_slices hto _ _ _ _ (ho4 i (by omega))
      (hee (i + 1) j (by omega) (by omega)) (ho4 j hj) (hele (j + 1) hj)
      x x hx2 y hy2
  have he1le : outer.getD 1 0 ≤ arr1.length := by
    rw [harr1len]
    exact hele 1 hP0
  set X := (listSlice arr1 0 (outer.getD 1 0)).length with hXdef
  have hflen : X = outer.getD 1 0 := by
    rw [hXdef, listSlice_length _ _ _ he1le]
    omega
  have he1pos : 1 ≤ outer.getD 1 0 := by
    rw [ho3 1 (by omega)]
    simpa using hbig
  obtain ⟨hc1, hc2, hc3, hc4⟩ := evenlyPartition_zero_facts X P (by omega)
  have hc0P : (evenlyPartition 0 X P).getD P 0 = outer.getD 1 0 := by
    rw [hc2]
    exact hflen
  have hXpos : 1 ≤ X := by
    rw [hflen]
    exact he1pos
  have hbound : ∀ t, t < P - 1 → (evenlyPartition 0 X P).getD (t + 1) 0 < X := by
    intro t ht
    rw [hc3 (t + 1) (by omega)]
    have hdm : P * (X / P) ≤ X := by
      rw [Nat.mul_comm]
      exact Nat.div_mul_le_self _ _
    rcases Nat.eq_zero_or_pos (X / P) with hu | hu
    · rw [hu]
      simpa using hXpos
    · have h1 : (t + 1) * (X / P) ≤ (P - 1) * (X / P) :=
        Nat.mul_le_mul_right _ (by omega)
      have h2 : (P - 1) * (X / P) = P * (X / P) - 1 * (X / P) := Nat.sub_mul P 1 _
      rw [Nat.one_mul] at h2
      omega
  set pl := (List.range (P - 1)).map (fun t =>
      (listSlice arr1 0 (outer.getD 1 0)).getD ((evenlyPartition 0 X P).getD (t + 1) 0) d)
    with hpl
  have hpllen : pl.length = P - 1 := by
    rw [hpl]
    simp
  have hplD : ∀ t, t < P - 1 →
      pl.getD t d = arr1.getD ((evenlyPartition 0 X P).getD (t + 1) 0) d := by
    intro t ht
    rw [hpl, getD_map_range (P - 1) _ t d ht]
    have hlt : (evenlyPartition 0 X P).getD (t + 1) 0 < outer.getD 1 0 :=
      Nat.lt_of_lt_of_le (hbound t ht) hflen.le
    have hg := listSlice_getD arr1 0 (outer.getD 1 0)
      ((evenlyPartition 0 X P).getD (t + 1) 0) d (by omega) he1le
    rw [hg, Nat.zero_add]
  have hpivpos : ∀ t, t < P - 1 →
      (evenlyPartition 0 X P).getD (t + 1) 0 < outer.getD 1 0 ∧
      arr1.getD ((evenlyPartition 0 X P).getD (t + 1) 0) d =
        arr1.getD ((evenlyPartition 0 X P).getD (t + 1) 0) d := by
    intro t ht
    exact ⟨Nat.lt_of_lt_of_le (hbound t ht) hflen.le, rfl⟩
  set subP := (List.range P).map (fun i2 =>
      if i2 = 0 then evenlyPartition 0 X P
      else findPartitionByPivots arr1 (outer.getD i2 0) (outer.getD (i2 + 1) 0) cmp pl)
    with hsubP
  have hcut0 : ∀ k, (subP.getD 0 []).getD k 0 = (evenlyPartition 0 X P).getD k 0 := by
    intro k
    rw [hsubP, getD_map_range P _ 0 [] hP0]
    simp
  have hcuts : ∀ i, 1 ≤ i → i < P → ∀ k, (subP.getD i []).getD k 0 =
      (findPartitionByPivots arr1 (outer.getD i 0) (outer.getD (i + 1) 0) cmp pl).getD k 0 := by
    intro i hi1 hiP k
    rw [hsubP, getD_map_range P _ i [] hiP, if_neg (by omega)]
  have hmain := concurrentPipeline_main h hs hr arr1 P d hP
    (fun i => outer.getD i 0)
    (fun k => (evenlyPartition 0 X P).getD k 0)
    (fun t => arr1.getD ((evenlyPartition 0 X P).getD (t + 1) 0) d)
    pl
    (fun i k => (subP.getD i []).getD k 0)
    ho1 heP ho4 hsorted1 hties1 hc1 hc0P hc4 hpivpos hpllen hplD hcut0 hcuts
  have hpe : concurrentPipeline arr cmp P d =
      List.flatten ((List.range P).map (fun k =>
        mergeMultipleSortedSmart ((List.range P).map (fun i =>
          listSlice arr1 ((subP.getD i []).getD k 0) ((subP.getD i []).getD (k + 1) 0)))
          cmp d)) := rfl
  rw [hpe]
  exact ⟨hmain.1.trans hB5, hmain.2⟩
theorem concurrentMergeSort_master {α : Type _} {cmp scmp : α → α → Ordering}
    (h : TotalCmp cmp) (hs : TotalCmp scmp) (hr : RefineCmp cmp scmp)
    (arr : List α) (P : Nat) (hP : 1 ≤ P) (hto : TieOrdered cmp scmp arr) :
    List.Perm (concurrentMergeSort arr cmp P) arr ∧
    SortedCmp scmp (concurrentMergeSort arr cmp P) := by
  unfold concurrentMergeSort
  by_cases h1 : arr.length ≤ 1
  · rw [if_pos h1]
    refine ⟨List.Perm.refl _, ?_⟩
    match arr, h1 with
    | [], _ => exact List.Pairwise.nil
    | [a], _ => exact List.pairwise_singleton _ _
    | a :: b :: t, h1 => exact absurd h1 (by simp only [List.length_cons]; omega)
  · rw [if_neg h1]
    by_cases h2 : P = 1 ∨ arr.length ≤ P * 200
    · rw [if_pos h2]
      exact simpleMergeSort_master h hs hr arr.length arr (Nat.le_refl _) hto
    · rw [if_neg h2]
      push_neg at h2
      obtain ⟨h2a, h2b⟩ := h2
      have hP2 : 2 ≤ P := by omega
      have hbig : 1 ≤ arr.length / P := by
        refine (Nat.le_div_iff_mul_le (by omega)).mpr ?_
        omega
      cases arr with
      | nil => exact absurd (by simp) h1
      | cons a t =>
        exact concurrentPipeline_master h hs hr (a :: t) P a hP2 hbig hto

theorem fstCmp_total {α : Type _} {cmp : α → α → Ordering} (h : TotalCmp cmp) :
    TotalCmp (fun a b : α × Nat => cmp a.1 b.1) :=
  ⟨fun a b => h.symm a.1 b.1, fun a b c hab hbc => h.le_trans _ _ _ hab hbc⟩

theorem fstCmp_refine {α : Type _} (cmp : α → α → Ordering) :
    RefineCmp (fun a b : α × Nat => cmp a.1 b.1) (heapCmp cmp) := by
  intro a b hne
  show (cmp a.1 b.1).then (natCmp a.2 b.2) = cmp a.1 b.1
  rcases hx : cmp a.1 b.1 with _ | _ | _
  · rfl
  · exact absurd hx hne
  · rfl

theorem tieOrdered_tagged {α : Type _} (cmp : α → α → Ordering)
    (l : List (α × Nat)) (htags : List.Pairwise (fun a b => a.2 < b.2) l) :
    TieOrdered (fun a b : α × Nat => cmp a.1 b.1) (heapCmp cmp) l := by
  refine htags.imp ?_
  intro a b hab heq
  show (cmp a.1 b.1).then (natCmp a.2 b.2) ≠ .gt
  rw [show cmp a.1 b.1 = .eq from heq]
  show natCmp a.2 b.2 ≠ .gt
  unfold natCmp
  rw [if_pos hab]
  intro hx
  cases hx

theorem zip_range_tags {α : Type _} (arr : List α) :
    List.Pairwise (fun a b : α × Nat => a.2 < b.2)
      (arr.zip (List.range arr.length)) := by
  refine List.pairwise_iff_getElem.mpr ?_
  intro i j hi hj hij
  simp only [List.getElem_zip, List.getElem_range]
  exact hij

theorem stability_of_sorted_tagged {α : Type _} (cmp : α → α → Ordering)
    (out : List (α × Nat)) (hsort : SortedCmp (heapCmp cmp) out)
    (hnd : List.Pairwise (fun a b : α × Nat => a.2 ≠ b.2) out) :
    List.Pairwise (fun a b : α × Nat => cmp a.1 b.1 = .eq → a.2 < b.2) out := by
  refine (hsort.and hnd).imp ?_
  intro a b hab heq
  obtain ⟨h1, h2⟩ := hab
  rw [show heapCmp cmp a b = (cmp a.1 b.1).then (natCmp a.2 b.2) from rfl,
    heq] at h1
  have h3 : natCmp a.2 b.2 ≠ .gt := h1
  rcases Nat.lt_trichotomy a.2 b.2 with h4 | h4 | h4
  · exact h4
  · exact absurd h4 h2
  · exfalso
    apply h3
    unfold natCmp
    rw [if_neg (by omega), if_neg (by omega)]
/-- C3: for every sequence, every total-order comparator, and every
parallelism `P ≥ 1`, `concurrent_merge_sort` produces a permutation of its
input that is non-decreasing under the comparator, and it is stable: running
it on the position-tagged input, any two output elements whose values
compare Equal keep their tags in increasing order (input order). -/
theorem claim_C3_concurrent_sort_correct {α : Type _} {cmp : α → α → Ordering}
    (h : TotalCmp cmp) (arr : List α) (P : Nat) (hP : 1 ≤ P) :
    List.Perm (concurrentMergeSort arr cmp P) arr ∧
    SortedCmp cmp (concurrentMergeSort arr cmp P) ∧
    List.Pairwise (fun a b => cmp a.1 b.1 = .eq → a.2 < b.2)
      (concurrentMergeSort (arr.zip (List.range arr.length))
        (fun a b => cmp a.1 b.1) P) := by
  have hplain := concurrentMergeSort_master h h (refineCmp_self cmp) arr P hP
    (tieOrdered_self cmp arr h)
  have htags := zip_range_tags arr
  have htag := concurrentMergeSort_master (fstCmp_total h) (heapCmp_total h)
    (fstCmp_refine cmp) (arr.zip (List.range arr.length)) P hP
    (tieOrdered_tagged cmp _ htags)
  refine ⟨hplain.1, hplain.2, ?_⟩
  have hmapnd : ((arr.zip (List.range arr.length)).map Prod.snd).Nodup :=
    List.pairwise_map.mpr (htags.imp (fun hab => Nat.ne_of_lt hab))
  have hperm2 := htag.1.map Prod.snd
  have hndout : (List.map Prod.snd
      (concurrentMergeSort (arr.zip (List.range arr.length))
        (fun a b => cmp a.1 b.1) P)).Nodup :=
    hperm2.symm.nodup hmapnd
  exact stability_of_sorted_tagged cmp _ htag.2 (List.pairwise_map.mp hndout)

theorem claim_C3_concurrent_sort_correct_witness :
    List.Perm (concurrentMergeSort [5] natCmp 1) [5] ∧
    SortedCmp natCmp (concurrentMergeSort [5] natCmp 1) ∧
    List.Pairwise (fun a b => natCmp a.1 b.1 = .eq → a.2 < b.2)
      (concurrentMergeSort (([5] : List Nat).zip
        (List.range ([5] : List Nat).length)) (fun a b => natCmp a.1 b.1) 1) :=
  claim_C3_concurrent_sort_correct natCmp_strong.toTotalCmp [5] 1 (by decide)

end MiscAlgo
